import Mathlib

/-!
# A verification development for the `ini` package

The package reads and writes `.ini` configuration data.  Its core is the
lexer `Reader` (reader.go) and the document model `File` / `Section`
(ini.go, section.go).  This file embeds both in Lean and proves properties
of the embedding.

Conventions of the embedding.

* A Go `[]byte` or `string` is a `List Nat` of byte values.
* A Go `rune` is a `Nat`.
* Every `for` loop of the source is a function recursing on a fuel counter
  that returns `none` when the fuel runs out; a result `some _` is a
  terminating run of the source, and `none` for every amount of fuel is a
  run that never returns.
* The token handler passed to `Reader.Read` is modelled by the log of the
  calls made to it, in order.
-/

namespace Ini

/-- A byte buffer: Go's `[]byte` (and `string`), one `Nat` per byte. -/
abbrev Bytes := List Nat

/-! ## The Go library functions the package calls -/

/-- The value `utf8.RuneError`. -/
def RuneError : Nat := 0xFFFD

/-- Continuation byte test: the range `locb..hicb` of package `utf8`. -/
def isCont (b : Nat) : Bool := 0x80 ≤ b && b ≤ 0xBF

/-- The table `acceptRanges` of package `utf8`, lower bounds: the least
second byte accepted after the first byte `p0`. -/
def acceptLo (p0 : Nat) : Nat :=
  if p0 = 0xE0 then 0xA0 else if p0 = 0xF0 then 0x90 else 0x80

/-- The table `acceptRanges` of package `utf8`, upper bounds. -/
def acceptHi (p0 : Nat) : Nat :=
  if p0 = 0xED then 0x9F else if p0 = 0xF4 then 0x8F else 0xBF

/-- Go's `utf8.DecodeRune`: the first rune of `p` and its width in bytes.
An empty buffer gives `(RuneError, 0)`, an invalid or truncated encoding
gives `(RuneError, 1)`.  The masks and shifts of the library are written
with `%`, `*` and `+`, which agree with them on the byte ranges accepted
in each branch. -/
def DecodeRune (p : Bytes) : Nat × Nat :=
  match p with
  | [] => (RuneError, 0)
  | p0 :: t =>
    if p0 < 0x80 then (p0, 1)
    else if p0 < 0xC2 then (RuneError, 1)
    else if p0 < 0xE0 then
      match t with
      | b1 :: _ =>
        if isCont b1 then ((p0 % 32) * 64 + b1 % 64, 2) else (RuneError, 1)
      | _ => (RuneError, 1)
    else if p0 < 0xF0 then
      match t with
      | b1 :: b2 :: _ =>
        if b1 < acceptLo p0 || acceptHi p0 < b1 then (RuneError, 1)
        else if !isCont b2 then (RuneError, 1)
        else ((p0 % 16) * 4096 + (b1 % 64) * 64 + b2 % 64, 3)
      | _ => (RuneError, 1)
    else if p0 < 0xF5 then
      match t with
      | b1 :: b2 :: b3 :: _ =>
        if b1 < acceptLo p0 || acceptHi p0 < b1 then (RuneError, 1)
        else if !isCont b2 then (RuneError, 1)
        else if !isCont b3 then (RuneError, 1)
        else ((p0 % 8) * 262144 + (b1 % 64) * 4096 + (b2 % 64) * 64 + b3 % 64, 4)
      | _ => (RuneError, 1)
    else (RuneError, 1)

/-- Go's `unicode.IsSpace`: the Unicode White_Space property. -/
def IsSpace (r : Nat) : Bool :=
  (0x09 ≤ r && r ≤ 0x0D) || r = 0x20 || r = 0x85 || r = 0xA0 || r = 0x1680 ||
  (0x2000 ≤ r && r ≤ 0x200A) || r = 0x2028 || r = 0x2029 || r = 0x202F ||
  r = 0x205F || r = 0x3000

/-- Go's `utf8.RuneStart`: `b` is not a continuation byte. -/
def RuneStart (b : Nat) : Bool := !isCont b

/-- The backwards search of `utf8.DecodeLastRune`: `n` more indices are
inspected, from `start` downwards, for a byte that can start a rune; when
none is found the index below the last one inspected is returned, or 0. -/
def lastRuneStart (p : Bytes) : Nat → Nat → Nat
  | 0, start => start
  | n + 1, start =>
    if RuneStart (p.getD start 0) then start
    else if start = 0 then 0
    else lastRuneStart p n (start - 1)

/-- Go's `utf8.DecodeLastRune`: the last rune of `p` and its width. -/
def DecodeLastRune (p : Bytes) : Nat × Nat :=
  let e := p.length
  if e = 0 then (RuneError, 0)
  else
    let r := p.getD (e - 1) 0
    if r < 0x80 then (r, 1)
    else
      -- look back over at most UTFMax = 4 bytes for the start of the rune
      let start := lastRuneStart p (min 3 (e - 1)) (e - 2)
      let (r1, size) := DecodeRune (p.drop start)
      if start + size ≠ e then (RuneError, 1) else (r1, size)

/-- Go's `bytes.TrimLeftFunc(s, unicode.IsSpace)`, the loop of `indexFunc`
unrolled over the runes of `s`. -/
def trimLeftSpace : Nat → Bytes → Bytes
  | 0, s => s
  | n + 1, s =>
    match s with
    | [] => []
    | _ :: _ =>
      let (r, wid) := DecodeRune s
      if IsSpace r then trimLeftSpace n (s.drop wid) else s

/-- The loop of `lastIndexFunc(s, unicode.IsSpace, false)`: the length of
`s` once its trailing white space runes are removed. -/
def trimRightLen : Nat → Bytes → Nat
  | 0, s => s.length
  | n + 1, s =>
    match s with
    | [] => 0
    | _ :: _ =>
      let (r, size) := DecodeLastRune s
      if IsSpace r then trimRightLen n (s.take (s.length - size)) else s.length

/-- Go's `bytes.TrimSpace`, that is `TrimFunc(s, unicode.IsSpace)`: `s`
without its leading and trailing white space runes. -/
def TrimSpace (s : Bytes) : Bytes :=
  let l := trimLeftSpace s.length s
  l.take (trimRightLen l.length l)

/-! ## reader.go -/

/-- The token types of reader.go. -/
inductive TokenType where
  | TokSection
  | TokKey
  | TokKeyList
  | TokValue
  deriving DecidableEq, Repr

open TokenType

/-- One call of the token handler: the token type and the span passed. -/
abbrev Token := TokenType × Bytes

/-- The lexer state.  `out` is the log of the calls made to the handler
`ir.out`, oldest first. -/
structure Reader where
  out : List Token
  data : Bytes
  start : Nat
  pos : Nat
  size : Nat
  deriving DecidableEq, Repr

namespace Reader

/-- The method `next`: `none` stands for `io.EOF`, and then the state is
unchanged; otherwise the rune decoded at `pos`, with `size` and `pos`
updated. -/
def next (ir : Reader) : Reader × Option Nat :=
  if ir.pos ≥ ir.data.length then (ir, none)
  else
    let (r, size) := DecodeRune (ir.data.drop ir.pos)
    ({ ir with size := size, pos := ir.pos + size }, some r)

/-- The method `ignore`. -/
def ignore (ir : Reader) : Reader := { ir with start := ir.pos }

/-- The method `rewind`. -/
def rewind (ir : Reader) : Reader := { ir with pos := ir.pos - ir.size }

/-- The method `skip`. -/
def skip (ir : Reader) : Reader := (ir.next).1.ignore

/-- The method `emit`, and every call `ir.out(tt, ir.data[ir.start:ir.pos])`. -/
def emit (ir : Reader) (tt : TokenType) : Reader :=
  { ir with out := ir.out ++ [(tt, (ir.data.drop ir.start).take (ir.pos - ir.start))] }

/-- The function `hasRune`. -/
def hasRune (v : List Nat) (r : Nat) : Bool :=
  match v with
  | [] => false
  | vr :: rest => if vr = r then true else hasRune rest r

/-- The method `accept`. -/
def accept (ir : Reader) (v : Nat) : Reader × Bool :=
  match ir.next with
  | (ir1, none) => (ir1, false)
  | (ir1, some r) => if v ≠ r then (ir1.rewind, false) else (ir1, true)

/-- The `for` loop of `acceptUntil`.  The flag is `false` when the loop
ends by `return false` at the end of input, and `true` when it ends by
`break`. -/
def acceptUntilLoop (v : Nat) : Nat → Reader → Option (Reader × Bool)
  | 0, _ => none
  | fuel + 1, ir =>
    match ir.next with
    | (ir1, none) => some (ir1, false)
    | (ir1, some r) =>
      if v = r then some (ir1.rewind, true) else acceptUntilLoop v fuel ir1

/-- The method `acceptUntil`. -/
def acceptUntil (fuel : Nat) (ir : Reader) (v : Nat) : Option (Reader × Bool) :=
  let pos := ir.pos
  match acceptUntilLoop v fuel ir with
  | none => none
  | some (ir1, false) => some (ir1, false)
  | some (ir1, true) => some (ir1, decide (ir1.pos > pos))

/-- The `for` loop of `acceptUntilAny`, returning the last rune read with
the flag of `acceptUntilLoop`; at the end of input `r` is 0, as `next`
returns it. -/
def acceptUntilAnyLoop (argv : List Nat) : Nat → Reader → Option (Reader × Nat × Bool)
  | 0, _ => none
  | fuel + 1, ir =>
    match ir.next with
    | (ir1, none) => some (ir1, 0, false)
    | (ir1, some r) =>
      if hasRune argv r then some (ir1.rewind, r, true)
      else acceptUntilAnyLoop argv fuel ir1

/-- The method `acceptUntilAny`. -/
def acceptUntilAny (fuel : Nat) (ir : Reader) (argv : List Nat) :
    Option (Reader × Nat × Bool) :=
  let pos := ir.pos
  match acceptUntilAnyLoop argv fuel ir with
  | none => none
  | some (ir1, r, false) => some (ir1, r, false)
  | some (ir1, r, true) => some (ir1, r, decide (ir1.pos > pos))

/-- The `for` loop of `acceptSpace`, with the flag of `acceptUntilLoop`. -/
def acceptSpaceLoop : Nat → Reader → Option (Reader × Bool)
  | 0, _ => none
  | fuel + 1, ir =>
    match ir.next with
    | (ir1, none) => some (ir1, false)
    | (ir1, some r) =>
      if !IsSpace r then some (ir1.rewind, true) else acceptSpaceLoop fuel ir1

/-- The method `acceptSpace`. -/
def acceptSpace (fuel : Nat) (ir : Reader) : Option (Reader × Bool) :=
  let pos := ir.pos
  match acceptSpaceLoop fuel ir with
  | none => none
  | some (ir1, false) => some (ir1, false)
  | some (ir1, true) => some (ir1, decide (ir1.pos > pos))

/-- The loop `for !ir.acceptUntil(10) { ir.skip() }` of `comment`. -/
def commentLoop : Nat → Reader → Option Reader
  | 0, _ => none
  | fuel + 1, ir =>
    match ir.acceptUntil (fuel + 1) 10 with
    | none => none
    | some (ir1, true) => some ir1
    | some (ir1, false) => commentLoop fuel ir1.skip

/-- The method `comment`. -/
def comment (fuel : Nat) (ir : Reader) : Option (Reader × Bool) :=
  match ir.accept 59 with
  | (ir1, true) =>
    match commentLoop fuel ir1 with
    | none => none
    | some ir2 => some (ir2.skip, true)
  | (ir1, false) => some (ir1, false)

/-- The method `value`. -/
def value (fuel : Nat) (ir : Reader) : Option (Reader × Bool) :=
  match ir.acceptUntil fuel 10 with
  | none => none
  | some (ir1, false) => some (ir1, false)
  | some (ir1, true) => some ((ir1.emit TokValue).ignore, true)

/-- The method `section`. -/
def «section» (fuel : Nat) (ir : Reader) : Option (Reader × Bool) :=
  match ir.acceptSpace fuel with
  | none => none
  | some (ir1, _) =>
    let ir2 := ir1.ignore
    match ir2.accept 91 with
    | (ir3, false) => some (ir3, false)
    | (ir3, true) =>
      let ir4 := ir3.ignore
      match ir4.acceptUntil fuel 93 with
      | none => none
      | some (ir5, false) => some (ir5, false)
      | some (ir5, true) => some (((ir5.emit TokSection).ignore).skip, true)

/-- The method `key`. -/
def key (fuel : Nat) (ir : Reader) : Option (Reader × Bool) :=
  match ir.acceptSpace fuel with
  | none => none
  | some (ir1, _) =>
    let ir2 := ir1.ignore
    match ir2.acceptUntilAny fuel [60, 61] with
    | none => none
    | some (ir3, _, false) => some (ir3, false)
    | some (ir3, r, true) =>
      let ir4 := if r = 60 then ir3.emit TokKeyList else ir3.emit TokKey
      (ir4.ignore.skip).value fuel

/-- The main loop of `Read`. -/
def ReadLoop : Nat → Reader → Option Reader
  | 0, _ => none
  | fuel + 1, ir =>
    match ir.comment (fuel + 1) with
    | none => none
    | some (ir1, true) => ReadLoop fuel ir1
    | some (ir1, false) =>
      match ir1.«section» (fuel + 1) with
      | none => none
      | some (ir2, true) => ReadLoop fuel ir2
      | some (ir2, false) =>
        match ir2.key (fuel + 1) with
        | none => none
        | some (ir3, true) => ReadLoop fuel ir3
        | some (ir3, false) => some ir3

end Reader

/-- The method `Read` on a fresh `Reader`: the tokens handed to the
handler, in order, or `none` when `fuel` loop iterations do not suffice. -/
def Read (fuel : Nat) (data : Bytes) : Option (List Token) :=
  let data := if data.length = 0 ∨ data.getLast? ≠ some 10 then data ++ [10] else data
  match Reader.ReadLoop fuel { out := [], data := data, start := 0, pos := 0, size := 0 } with
  | none => none
  | some ir => some ir.out


/-! ## section.go and ini.go -/

/-- What a section stores under a key.  The loader stores a `string` or a
`[]string`; these are the two dynamic types the package tests for. -/
inductive Value where
  | str (s : Bytes)
  | list (l : List Bytes)
  deriving DecidableEq, Repr

/-- A Go map with string keys, as the list of its entries: at most one
entry per key is looked up or changed, and the order of the entries is the
order in which a `range` loop visits them. -/
abbrev GoMap (β : Type) := List (Bytes × β)

namespace GoMap

/-- The lookup `v, ok := m[k]`. -/
def get {β : Type} (m : GoMap β) (k : Bytes) : Option β :=
  match m with
  | [] => none
  | (k1, v) :: rest => if k1 = k then some v else get rest k

/-- The assignment `m[k] = v`. -/
def set {β : Type} (m : GoMap β) (k : Bytes) (v : β) : GoMap β :=
  match m with
  | [] => [(k, v)]
  | (k1, v1) :: rest => if k1 = k then (k, v) :: rest else (k1, v1) :: set rest k v

/-- The keys of the map, in iteration order. -/
def keys {β : Type} (m : GoMap β) : List Bytes := m.map Prod.fst

end GoMap

/-- The type `Section` of section.go. -/
abbrev Section := GoMap Value

/-- The method `Section.S`. -/
def Section.S (s : Section) (key defaultval : Bytes) : Bytes :=
  match GoMap.get s key with
  | some (Value.str str) => str
  | _ => defaultval

/-- The method `Section.List`; the `nil` it returns for a key that is
absent or holds no list is the empty list. -/
def Section.List (s : Section) (key : Bytes) : List Bytes :=
  match GoMap.get s key with
  | some (Value.list l) => l
  | _ => []

/-- The type `File` of ini.go, for the documents whose map is allocated,
as `New` makes it; each section is stored under one name only.  A value
of the type whose map may be `nil` is a `GoFile`. -/
structure File where
  Sections : GoMap Section
  deriving DecidableEq, Repr

/-- The function `New`. -/
def New : File := { Sections := [] }

namespace File

/-- The method `File.Section` on a document whose map is allocated: the
section returned, and the document as the call leaves it.  The method on
any value of the type, with its panic, is `GoFile.Section`. -/
def Section (i : File) (name : Bytes) : File × Ini.Section :=
  match GoMap.get i.Sections name with
  | some s => (i, s)
  | none => ({ Sections := GoMap.set i.Sections name [] }, [])

/-- Whether the document has a section called `name`. -/
def has (i : File) (name : Bytes) : Bool := (GoMap.get i.Sections name).isSome

/-- The section stored under `name`; empty when there is none. -/
def sectionOf (i : File) (name : Bytes) : Ini.Section :=
  (GoMap.get i.Sections name).getD []

/-- The assignment `section[key] = v` on the section stored under `name`. -/
def setKey (i : File) (name key : Bytes) (v : Value) : File :=
  { Sections := GoMap.set i.Sections name (GoMap.set (i.sectionOf name) key v) }

end File

/-- A value of the Go type `File` as a program can hold it: the map
`Sections` is `nil` (here `none`), as in the zero value `File{}`, or an
allocated map. -/
structure GoFile where
  Sections : Option (GoMap Section)
  deriving DecidableEq, Repr

/-- The document `i` as a Go value: its map is allocated. -/
def File.toGo (i : File) : GoFile := { Sections := some i.Sections }

/-- The method `File.Section` on any value of the type: the section
returned and the value as the call leaves it, or `none` when the call
panics.  The lookup `i.Sections[name]` in a `nil` map finds nothing, and
the assignment `i.Sections[name] = s` that follows it panics. -/
def GoFile.Section (i : GoFile) (name : Bytes) : Option (GoFile × Ini.Section) :=
  match i.Sections with
  | none => none
  | some m =>
    match GoMap.get m name with
    | some s => some (i, s)
    | none => some ({ Sections := some (GoMap.set m name []) }, [])

/-- The variables of `Load` that its token handler reads and writes.
The variable `section` refers to a map stored in `i.Sections`; the state
keeps the name it is stored under. -/
structure LoadState where
  i : File
  sectionName : Bytes
  key : Bytes
  deriving DecidableEq, Repr

/-- The token handler that `Load` passes to `Read`. -/
def LoadState.handle (st : LoadState) (tok : Token) : LoadState :=
  let str := TrimSpace tok.2
  match tok.1 with
  | TokSection =>
    { i := (st.i.Section str).1, sectionName := str,
      key := if st.key.length > 0 then [] else st.key }
  | TokKey =>
    { st with key := str, i := st.i.setKey st.sectionName str (Value.str []) }
  | TokKeyList =>
    match GoMap.get (st.i.sectionOf st.sectionName) str with
    | some _ => { st with key := str }
    | none => { st with key := str, i := st.i.setKey st.sectionName str (Value.list []) }
  | TokValue =>
    if st.key.length > 0 then
      match GoMap.get (st.i.sectionOf st.sectionName) st.key with
      | some (Value.list l) =>
        { st with key := [], i := st.i.setKey st.sectionName st.key (Value.list (l ++ [str])) }
      | _ =>
        { st with key := [], i := st.i.setKey st.sectionName st.key (Value.str str) }
    else st

/-- The state in which `Load` starts the reader: the global section is
current and no key is pending. -/
def LoadState.init (i : File) : LoadState :=
  { i := (i.Section []).1, sectionName := [], key := [] }

/-- The method `File.Load` on the contents `data` of the file it reads:
the document after the load, or `none` when `Read` does not return within
`fuel`. -/
def File.Load (fuel : Nat) (i : File) (data : Bytes) : Option File :=
  match Read fuel data with
  | none => none
  | some toks => some (toks.foldl LoadState.handle (LoadState.init i)).i

/-- The lines `writeSection` prints for one key. -/
def writeEntry (key : Bytes) (value : Value) : Bytes :=
  match value with
  | Value.list list => (list.map fun item => key ++ [32, 60, 32] ++ item ++ [10]).flatten
  | Value.str v => key ++ [32, 61, 32] ++ v ++ [10]

/-- The function `writeSection`: the bytes written. -/
def writeSection (name : Bytes) (s : Section) : Bytes :=
  (if name.length > 0 then [91] ++ name ++ [93, 10] else []) ++
    (s.map fun kv => writeEntry kv.1 kv.2).flatten ++ [10]

/-- The method `File.Save`: the document as the call leaves it and the
bytes handed to `ioutil.WriteFile`. -/
def File.Save (i : File) : File × Bytes :=
  let r := i.Section []
  (r.1, writeSection [] r.2 ++
    (r.1.Sections.map fun ns => if ns.1.length = 0 then [] else writeSection ns.1 ns.2).flatten)

/-! ## Notions used in the statements -/

/-- The forms of the key lines for key `key` of section `s` in a token
stream: the types (`TokKey` or `TokKeyList`) of the tokens whose trimmed
name is `key`, emitted while the section named `s` is current, in order.
`cur` is the name of the section that is current at the start. -/
def linesFor (s key : Bytes) : Bytes → List Token → List TokenType
  | _, [] => []
  | cur, (tt, v) :: ts =>
    match tt with
    | TokSection => linesFor s key (TrimSpace v) ts
    | TokValue => linesFor s key cur ts
    | TokKey =>
      if cur = s ∧ TrimSpace v = key then TokKey :: linesFor s key cur ts
      else linesFor s key cur ts
    | TokKeyList =>
      if cur = s ∧ TrimSpace v = key then TokKeyList :: linesFor s key cur ts
      else linesFor s key cur ts


/-- The tag of a stored value: a single string or a list of strings. -/
inductive Tag where
  | Scalar
  | List
  deriving DecidableEq, Repr

/-- The tag of what a lookup returns; `none` for an absent key. -/
def tagOf : Option Value → Option Tag
  | none => none
  | some (Value.str _) => some Tag.Scalar
  | some (Value.list _) => some Tag.List

/-- A line of ini text as `writeSection` prints it: a key line `k d v`
with `d` the byte `<` or `=`, a section header, or a blank line. -/
inductive Line where
  | kv (k : Bytes) (d : Nat) (v : Bytes)
  | header (s : Bytes)
  | blank
  deriving DecidableEq, Repr

namespace Line

/-- The bytes of a line, the line feed included. -/
def render : Line → Bytes
  | kv k d v => k ++ d :: (v ++ [10])
  | header s => 91 :: (s ++ [93, 10])
  | blank => [10]

/-- The tokens a line stands for. -/
def tokens : Line → List Token
  | kv k d v => [(if d = 60 then TokKeyList else TokKey, k), (TokValue, v)]
  | header s => [(TokSection, s)]
  | blank => []

/-- The lines the reader takes as they are meant: the key span is not
empty, starts with a rune that is neither white space nor `[` nor `;` and
holds no `<` or `=`, the value span is not empty and holds no line feed,
and a section name is not empty and holds no `]`. -/
def ok : Line → Prop
  | kv k d v =>
    k ≠ [] ∧ IsSpace (DecodeRune k).1 = false ∧ (DecodeRune k).1 ≠ 91 ∧
      (DecodeRune k).1 ≠ 59 ∧ (∀ x ∈ k, x ∉ [60, 61]) ∧ d ∈ [60, 61] ∧ v ≠ [] ∧ 10 ∉ v
  | header s => s ≠ [] ∧ 93 ∉ s
  | blank => True

end Line

/-- The bytes of a list of lines. -/
def renderLines (ls : List Line) : Bytes := (ls.map Line.render).flatten

/-- The tokens of a list of lines. -/
def tokensOfLines (ls : List Line) : List Token := (ls.map Line.tokens).flatten

/-- The lines `writeSection` prints for one key. -/
def entryLines (key : Bytes) (value : Value) : List Line :=
  match value with
  | Value.list list => list.map fun item => Line.kv (key ++ [32]) 60 (32 :: item)
  | Value.str v => [Line.kv (key ++ [32]) 61 (32 :: v)]

/-- The lines `writeSection` prints. -/
def sectionLines (name : Bytes) (s : Section) : List Line :=
  (if name.length > 0 then [Line.header name] else []) ++
    (s.map fun kv => entryLines kv.1 kv.2).flatten ++ [Line.blank]

/-- The lines `Save` prints. -/
def saveLines (i : File) : List Line :=
  sectionLines [] (i.Section []).2 ++
    ((i.Section []).1.Sections.map fun ns =>
      if ns.1.length = 0 then [] else sectionLines ns.1 ns.2).flatten

/-- The section names a token stream switches to. -/
def sectionNames (toks : List Token) : List Bytes :=
  toks.filterMap fun t => if t.1 = TokSection then some (TrimSpace t.2) else none

/-- A text that is trimmed of white space and holds no line feed. -/
def textOK (v : Bytes) : Prop := TrimSpace v = v ∧ 10 ∉ v

/-- The keys of the round trip: trimmed, without line feed, not empty,
without `<` and `=`, and not starting with `[` or `;`. -/
def keyOK (k : Bytes) : Prop :=
  textOK k ∧ k ≠ [] ∧ 60 ∉ k ∧ 61 ∉ k ∧ k.head? ≠ some 91 ∧ k.head? ≠ some 59

/-- The values of the round trip: a string, or a list of strings that is
not empty, each text trimmed and without line feed. -/
def valueOK : Value → Prop
  | Value.str v => textOK v
  | Value.list l => l ≠ [] ∧ ∀ x ∈ l, textOK x

/-- The sections of the round trip; a map has one entry per key. -/
def sectionOK (s : Section) : Prop :=
  (GoMap.keys s).Nodup ∧ ∀ kv ∈ s, keyOK kv.1 ∧ valueOK kv.2

/-- The section names of the round trip: the empty name of the
global section, or a trimmed name without line feed and `]`. -/
def nameOK (n : Bytes) : Prop := n = [] ∨ (textOK n ∧ 93 ∉ n)

/-- The documents of the round trip. -/
def File.wellFormed (d : File) : Prop :=
  (GoMap.keys d.Sections).Nodup ∧ ∀ ns ∈ d.Sections, nameOK ns.1 ∧ sectionOK ns.2

instance (v : Bytes) : Decidable (textOK v) := by
  unfold textOK
  infer_instance

instance (k : Bytes) : Decidable (keyOK k) := by
  unfold keyOK
  infer_instance

instance (v : Value) : Decidable (valueOK v) := by
  cases v <;> unfold valueOK <;> infer_instance

instance (s : Section) : Decidable (sectionOK s) := by
  unfold sectionOK
  infer_instance

instance (n : Bytes) : Decidable (nameOK n) := by
  unfold nameOK
  infer_instance

instance (d : File) : Decidable d.wellFormed := by
  unfold File.wellFormed
  infer_instance

/-- A document in the manner of the package test: the global key
`randomkey = abc def`, the section `misc` with `url` set to
`http://www.server.com/page?var=value`, the section `graphics` with
`width = 320`, and the section `keys` with the list `auth` of `aaa`,
`bbb`. -/
def testDocument : File :=
  { Sections := [
      ([109, 105, 115, 99], [([117, 114, 108], Value.str [104, 116, 116, 112, 58, 47, 47, 119,
        119, 119, 46, 115, 101, 114, 118, 101, 114, 46, 99, 111, 109, 47, 112, 97, 103, 101, 63,
        118, 97, 114, 61, 118, 97, 108, 117, 101])]),
      ([], [([114, 97, 110, 100, 111, 109, 107, 101, 121],
        Value.str [97, 98, 99, 32, 100, 101, 102])]),
      ([103, 114, 97, 112, 104, 105, 99, 115], [([119, 105, 100, 116, 104],
        Value.str [51, 50, 48])]),
      ([107, 101, 121, 115], [([97, 117, 116, 104],
        Value.list [[97, 97, 97], [98, 98, 98]])])] }

/-! ## The setters and typed accessors of section.go -/

/-- Go's `fmt.Sprint` on one operand that is a string: the string. -/
def fmtSprint (v : Bytes) : Bytes := v

/-- A sequence of strings: Go's `[]string`, and the variadic arguments
of `SetList` when they are strings. -/
abbrev Strings := List Bytes

/-- The method `Section.SetList`, for arguments that are strings. -/
def Section.SetList (s : Section) (key : Bytes) (argv : Strings) : Section :=
  GoMap.set s key (Value.list (argv.map fmtSprint))

/-- The function `lower` of package `strconv`: the byte with the bit 0x20
set, which takes an ASCII capital letter to the small one. -/
def lower (c : Nat) : Nat := c ||| 32

/-- The value of a byte as a digit in the loop of `strconv.ParseUint`:
`0` to `9`, then the letters, capital or small, from 10 on. -/
def digitVal (c : Nat) : Option Nat :=
  if 48 ≤ c ∧ c ≤ 57 then some (c - 48)
  else if 97 ≤ lower c ∧ lower c ≤ 122 then some (lower c - 97 + 10)
  else none

/-- The digit loop of `strconv.ParseUint`, without its range checks.
`base0` tells that the base argument is 0, and then an underscore is
passed over; every other byte is a digit below `base`. -/
def parseDigits (base : Nat) (base0 : Bool) : Bytes → Nat → Option Nat
  | [], acc => some acc
  | c :: t, acc =>
    if c = 95 ∧ base0 = true then parseDigits base base0 t acc
    else
      match digitVal c with
      | some d => if d < base then parseDigits base base0 t (acc * base + d) else none
      | none => none

/-- The loop of `underscoreOK` of package `strconv`.  The state `i` is the
byte the source keeps: `0` (48) after a digit, `_` (95) after an
underscore, `!` (33) after another byte, `^` (94) at the start. -/
def underscoreOKLoop (hex : Bool) : Bytes → Nat → Bool
  | [], i => decide (i ≠ 95)
  | c :: t, i =>
    if (48 ≤ c ∧ c ≤ 57) ∨ (hex = true ∧ 97 ≤ lower c ∧ lower c ≤ 102) then
      underscoreOKLoop hex t 48
    else if c = 95 then
      if i ≠ 48 then false else underscoreOKLoop hex t 95
    else if i = 95 then false
    else underscoreOKLoop hex t 33

/-- The function `underscoreOK` of package `strconv`: every underscore of
`s` stands between two digits, or between a base prefix and a digit. -/
def underscoreOK (s : Bytes) : Bool :=
  let s1 :=
    match s with
    | 45 :: t => t
    | 43 :: t => t
    | _ => s
  match s1 with
  | 48 :: c :: t =>
    if lower c = 98 ∨ lower c = 111 ∨ lower c = 120 then
      underscoreOKLoop (decide (lower c = 120)) t 48
    else underscoreOKLoop false s1 94
  | _ => underscoreOKLoop false s1 94

/-- Go's `strconv.ParseUint(s, 0, bitSize)` without its range checks, as
of Go 1.13: after a leading `0`, and when two bytes at least follow it,
`b` selects base 2, `o` base 8 and `x` base 16, capital or small; a leading
`0` alone selects base 8; anything else is base 10.  Underscores are
passed over by the digit loop and checked by `underscoreOK` at the end. -/
def parseUintBase0 (s : Bytes) : Option Nat :=
  let r : Option Nat :=
    match s with
    | [] => none
    | 48 :: t =>
      match t with
      | c :: _ :: _ =>
        if lower c = 98 then parseDigits 2 true (t.drop 1) 0
        else if lower c = 111 then parseDigits 8 true (t.drop 1) 0
        else if lower c = 120 then parseDigits 16 true (t.drop 1) 0
        else parseDigits 8 true t 0
      | _ => parseDigits 8 true t 0
    | _ => parseDigits 10 true s 0
  match r with
  | none => none
  | some n => if decide (95 ∈ s) && !underscoreOK s then none else some n

/-- Go's `strconv.ParseInt(s, 0, bitSize)`: `none` stands for a non-nil
error (syntax or range), `some n` for the value of the literal `s`, an
optional sign followed by an unsigned literal, when `n` fits a signed
integer of `bitSize` bits.  The range checks of `ParseUint` and `ParseInt`
are the one test at the end: a literal that fails either of them has a
value outside the signed range. -/
def ParseInt (s : Bytes) (bitSize : Nat) : Option Int :=
  let r : Option Int :=
    match s with
    | [] => none
    | 43 :: t => (parseUintBase0 t).map fun un => (un : Int)
    | 45 :: t => (parseUintBase0 t).map fun un => -(un : Int)
    | _ => (parseUintBase0 s).map fun un => (un : Int)
  match r with
  | none => none
  | some n => if -(2 ^ (bitSize - 1) : Int) ≤ n ∧ n ≤ 2 ^ (bitSize - 1) - 1 then some n else none

/-- Go's conversion `int(n)` of an `int64` on a platform whose `int` has
`w` bits: the value modulo `2 ^ w`, as a signed number. -/
def toInt (w : Nat) (n : Int) : Int := (n + 2 ^ (w - 1)) % 2 ^ w - 2 ^ (w - 1)

/-- The method `Section.I`.  `parse s` stands for
`strconv.ParseInt(s, 0, 32)` and `w` for the width of `int`. -/
def Section.I (parse : Bytes → Option Int) (w : Nat) (s : Section) (key : Bytes)
    (defaultval : Int) : Int :=
  match parse (Section.S s key []) with
  | some n => toInt w n
  | none => defaultval

/-! ## Further notions used in the statements -/

/-- The loop behind `isSpaceRun`: the bytes decode, rune after rune, into
white space runes only; `n` bounds the number of runes. -/
def spaceRun : Nat → Bytes → Bool
  | _, [] => true
  | 0, _ :: _ => false
  | n + 1, x :: t =>
    IsSpace (DecodeRune (x :: t)).1 && spaceRun n ((x :: t).drop (DecodeRune (x :: t)).2)

/-- A run of white space: a buffer that holds encoded white space runes
(in the sense of `unicode.IsSpace`) and nothing else. -/
def isSpaceRun (ws : Bytes) : Bool := spaceRun ws.length ws

/-- The values of the lossy round trip: as `valueOK`, but a list may be
empty. -/
def valueLoose : Value → Prop
  | Value.str v => textOK v
  | Value.list l => ∀ x ∈ l, textOK x

/-- The sections of the lossy round trip. -/
def sectionLoose (s : Section) : Prop :=
  (GoMap.keys s).Nodup ∧ ∀ kv ∈ s, keyOK kv.1 ∧ valueLoose kv.2

/-- The documents of the lossy round trip: as `File.wellFormed`, but a
key may hold a list of no elements. -/
def File.wellFormedLoose (d : File) : Prop :=
  (GoMap.keys d.Sections).Nodup ∧ ∀ ns ∈ d.Sections, nameOK ns.1 ∧ sectionLoose ns.2

instance (v : Value) : Decidable (valueLoose v) := by
  cases v <;> unfold valueLoose <;> infer_instance

instance (s : Section) : Decidable (sectionLoose s) := by
  unfold sectionLoose
  infer_instance

instance (d : File) : Decidable d.wellFormedLoose := by
  unfold File.wellFormedLoose
  infer_instance

/-- A section without the keys that hold a list of no elements. -/
def dropEmpty (s : Section) : Section := s.filter fun kv => decide (kv.2 ≠ Value.list [])

/-- A document without the keys that hold a list of no elements. -/
def File.dropEmpty (d : File) : File :=
  { Sections := d.Sections.map fun ns => (ns.1, Ini.dropEmpty ns.2) }

/-- The document of the `SetList` documentation: the section `test` after
`SetList("foo", "a", "b", "c")` and `SetList("bar")`. -/
def setListDocument : File :=
  { Sections := [([116, 101, 115, 116],
      Section.SetList (Section.SetList [] [102, 111, 111] [[97], [98], [99]]) [98, 97, 114] [])] }

/-- The reader `b` stands where the reader `a` stands, in a buffer that
has `pre` in front of the buffer of `a`: same tokens so far, same cursor
but for the length of `pre`. -/
def Reader.Sim (pre : Bytes) (a b : Reader) : Prop :=
  b.data = pre ++ a.data ∧ b.start = a.start + pre.length ∧ b.pos = a.pos + pre.length ∧
    b.out = a.out

/-- Two results of a loop or method that agree: both ran out of fuel, or
both returned, with the same flag, readers that stand at the same place. -/
def Reader.SimRes (pre : Bytes) (x y : Option (Reader × Bool)) : Prop :=
  (x = none ∧ y = none) ∨
    ∃ a b f, x = some (a, f) ∧ y = some (b, f) ∧ Reader.Sim pre a b

/-- A key span of the shape the reader emits: not empty, and its first
rune is not white space. -/
def keySpan (k : Bytes) : Bool := decide (k ≠ []) && !IsSpace (DecodeRune k).1

/-- A value span of the shape the reader emits: not empty, and no line
feed in it. -/
def valueSpan (v : Bytes) : Bool := decide (v ≠ []) && decide (10 ∉ v)

/-- The shape of a token stream, read from the left: every `TokKey` and
`TokKeyList` token has a key span, every `TokValue` token has a value span
and comes right after a `TokKey` or `TokKeyList` token.  The flag tells
whether the token before the stream is a `TokKey` or `TokKeyList` token. -/
def shapeFrom : Bool → List Token → Bool
  | _, [] => true
  | prevKey, (tt, v) :: ts =>
    match tt with
    | TokSection => shapeFrom false ts
    | TokKey => keySpan v && shapeFrom true ts
    | TokKeyList => keySpan v && shapeFrom true ts
    | TokValue => prevKey && valueSpan v && shapeFrom false ts

/-! ## The reader with every cursor operation checked

A second copy of the methods of reader.go, for the statement on cursor
safety.  Each method is the one above with the same name, run on a
`Cursor`: the `Reader` and a record of whether the last operation was a
`next` that returned a rune.  Each operation on the cursor checks what the
source takes for granted, and the run stops with `Run.fault` when a check
fails. -/

/-- The outcome of a checked run: a check failed, the fuel ran out before
any check failed, or the run ended with a result. -/
inductive Run (α : Type) where
  | fault : Run α
  | more : Run α
  | done : α → Run α
  deriving DecidableEq, Repr

/-- Sequencing of checked runs. -/
def Run.bind {α β : Type} (x : Run α) (f : α → Run β) : Run β :=
  match x with
  | Run.fault => Run.fault
  | Run.more => Run.more
  | Run.done a => f a

/-- The outcome of an unchecked run, as a checked one that did not fail. -/
def Run.ofOption {α : Type} : Option α → Run α
  | none => Run.more
  | some a => Run.done a

/-- The bounds `0 <= start <= pos <= len(data)`. -/
def Reader.inv (ir : Reader) : Bool :=
  decide (ir.start ≤ ir.pos) && decide (ir.pos ≤ ir.data.length)

/-- The reader with the record kept for the checks: `adv` is `some p` when
the last operation was a `next` that returned a rune, and `p` is the value
`pos` had before it; after any other operation it is `none`. -/
structure Cursor where
  ir : Reader
  adv : Option Nat
  deriving DecidableEq, Repr

namespace Cursor

/-- The method `next`, checked: the bounds hold afterwards. -/
def next (c : Cursor) : Run (Cursor × Option Nat) :=
  match c.ir.next with
  | (ir1, none) => if ir1.inv then Run.done ({ ir := ir1, adv := none }, none) else Run.fault
  | (ir1, some r) =>
    if ir1.inv then Run.done ({ ir := ir1, adv := some c.ir.pos }, some r) else Run.fault

/-- The method `ignore`, checked: the bounds hold afterwards. -/
def ignore (c : Cursor) : Run Cursor :=
  if c.ir.ignore.inv then Run.done { ir := c.ir.ignore, adv := none } else Run.fault

/-- The method `rewind`, checked: the last operation was a `next` that
returned a rune, `pos` is back at its value before that `next`, and the
bounds hold afterwards. -/
def rewind (c : Cursor) : Run Cursor :=
  match c.adv with
  | none => Run.fault
  | some p =>
    if c.ir.rewind.pos = p ∧ c.ir.rewind.inv = true then
      Run.done { ir := c.ir.rewind, adv := none }
    else Run.fault

/-- The method `skip`, checked. -/
def skip (c : Cursor) : Run Cursor :=
  c.next.bind fun x => x.1.ignore

/-- The method `emit` and every call of `ir.out`, checked: the span
`data[start:pos]` is within the buffer. -/
def emit (c : Cursor) (tt : TokenType) : Run Cursor :=
  if c.ir.inv then Run.done { ir := c.ir.emit tt, adv := none } else Run.fault

/-- The method `accept`, checked. -/
def accept (c : Cursor) (v : Nat) : Run (Cursor × Bool) :=
  c.next.bind fun x =>
    match x with
    | (c1, none) => Run.done (c1, false)
    | (c1, some r) =>
      if v ≠ r then c1.rewind.bind fun c2 => Run.done (c2, false) else Run.done (c1, true)

/-- The `for` loop of `acceptUntil`, checked. -/
def acceptUntilLoop (v : Nat) : Nat → Cursor → Run (Cursor × Bool)
  | 0, _ => Run.more
  | fuel + 1, c =>
    c.next.bind fun x =>
      match x with
      | (c1, none) => Run.done (c1, false)
      | (c1, some r) =>
        if v = r then c1.rewind.bind fun c2 => Run.done (c2, true)
        else acceptUntilLoop v fuel c1

/-- The method `acceptUntil`, checked. -/
def acceptUntil (fuel : Nat) (c : Cursor) (v : Nat) : Run (Cursor × Bool) :=
  let pos := c.ir.pos
  (acceptUntilLoop v fuel c).bind fun x =>
    match x with
    | (c1, false) => Run.done (c1, false)
    | (c1, true) => Run.done (c1, decide (c1.ir.pos > pos))

/-- The `for` loop of `acceptUntilAny`, checked. -/
def acceptUntilAnyLoop (argv : List Nat) : Nat → Cursor → Run (Cursor × Nat × Bool)
  | 0, _ => Run.more
  | fuel + 1, c =>
    c.next.bind fun x =>
      match x with
      | (c1, none) => Run.done (c1, 0, false)
      | (c1, some r) =>
        if Reader.hasRune argv r then c1.rewind.bind fun c2 => Run.done (c2, r, true)
        else acceptUntilAnyLoop argv fuel c1

/-- The method `acceptUntilAny`, checked. -/
def acceptUntilAny (fuel : Nat) (c : Cursor) (argv : List Nat) : Run (Cursor × Nat × Bool) :=
  let pos := c.ir.pos
  (acceptUntilAnyLoop argv fuel c).bind fun x =>
    match x with
    | (c1, r, false) => Run.done (c1, r, false)
    | (c1, r, true) => Run.done (c1, r, decide (c1.ir.pos > pos))

/-- The `for` loop of `acceptSpace`, checked. -/
def acceptSpaceLoop : Nat → Cursor → Run (Cursor × Bool)
  | 0, _ => Run.more
  | fuel + 1, c =>
    c.next.bind fun x =>
      match x with
      | (c1, none) => Run.done (c1, false)
      | (c1, some r) =>
        if !IsSpace r then c1.rewind.bind fun c2 => Run.done (c2, true)
        else acceptSpaceLoop fuel c1

/-- The method `acceptSpace`, checked. -/
def acceptSpace (fuel : Nat) (c : Cursor) : Run (Cursor × Bool) :=
  let pos := c.ir.pos
  (acceptSpaceLoop fuel c).bind fun x =>
    match x with
    | (c1, false) => Run.done (c1, false)
    | (c1, true) => Run.done (c1, decide (c1.ir.pos > pos))

/-- The loop of `comment`, checked. -/
def commentLoop : Nat → Cursor → Run Cursor
  | 0, _ => Run.more
  | fuel + 1, c =>
    (c.acceptUntil (fuel + 1) 10).bind fun x =>
      match x with
      | (c1, true) => Run.done c1
      | (c1, false) => c1.skip.bind fun c2 => commentLoop fuel c2

/-- The method `comment`, checked. -/
def comment (fuel : Nat) (c : Cursor) : Run (Cursor × Bool) :=
  (c.accept 59).bind fun x =>
    match x with
    | (c1, true) =>
      (commentLoop fuel c1).bind fun c2 => c2.skip.bind fun c3 => Run.done (c3, true)
    | (c1, false) => Run.done (c1, false)

/-- The method `value`, checked. -/
def value (fuel : Nat) (c : Cursor) : Run (Cursor × Bool) :=
  (c.acceptUntil fuel 10).bind fun x =>
    match x with
    | (c1, false) => Run.done (c1, false)
    | (c1, true) =>
      (c1.emit TokValue).bind fun c2 => c2.ignore.bind fun c3 => Run.done (c3, true)

/-- The method `section`, checked. -/
def «section» (fuel : Nat) (c : Cursor) : Run (Cursor × Bool) :=
  (c.acceptSpace fuel).bind fun x =>
    x.1.ignore.bind fun c2 =>
      (c2.accept 91).bind fun y =>
        match y with
        | (c3, false) => Run.done (c3, false)
        | (c3, true) =>
          c3.ignore.bind fun c4 =>
            (c4.acceptUntil fuel 93).bind fun z =>
              match z with
              | (c5, false) => Run.done (c5, false)
              | (c5, true) =>
                (c5.emit TokSection).bind fun c6 =>
                  c6.ignore.bind fun c7 => c7.skip.bind fun c8 => Run.done (c8, true)

/-- The method `key`, checked. -/
def key (fuel : Nat) (c : Cursor) : Run (Cursor × Bool) :=
  (c.acceptSpace fuel).bind fun x =>
    x.1.ignore.bind fun c2 =>
      (c2.acceptUntilAny fuel [60, 61]).bind fun y =>
        match y with
        | (c3, _, false) => Run.done (c3, false)
        | (c3, r, true) =>
          (if r = 60 then c3.emit TokKeyList else c3.emit TokKey).bind fun c4 =>
            c4.ignore.bind fun c5 => c5.skip.bind fun c6 => c6.value fuel

/-- The main loop of `Read`, checked. -/
def ReadLoop : Nat → Cursor → Run Cursor
  | 0, _ => Run.more
  | fuel + 1, c =>
    (c.comment (fuel + 1)).bind fun x =>
      match x with
      | (c1, true) => ReadLoop fuel c1
      | (c1, false) =>
        (c1.«section» (fuel + 1)).bind fun y =>
          match y with
          | (c2, true) => ReadLoop fuel c2
          | (c2, false) =>
            (c2.key (fuel + 1)).bind fun z =>
              match z with
              | (c3, true) => ReadLoop fuel c3
              | (c3, false) => Run.done c3

/-- The method `Read`, checked from the first state on: the tokens handed
to the handler, `Run.more` when `fuel` loop iterations do not suffice and
no check failed, `Run.fault` when a check failed. -/
def Read (fuel : Nat) (data : Bytes) : Run (List Token) :=
  let data := if data.length = 0 ∨ data.getLast? ≠ some 10 then data ++ [10] else data
  let ir : Reader := { out := [], data := data, start := 0, pos := 0, size := 0 }
  if ir.inv then
    (ReadLoop fuel { ir := ir, adv := none }).bind fun c => Run.done c.ir.out
  else Run.fault

/-- A checked run and an unchecked one agree: both ran out of fuel, or
both ended, with the same reader, within bounds, and the same result. -/
def Agree {β : Type} (x : Run (Cursor × β)) (y : Option (Reader × β)) : Prop :=
  (x = Run.more ∧ y = none) ∨
  ∃ c b, x = Run.done (c, b) ∧ y = some (c.ir, b) ∧ c.ir.inv = true

/-- The relation `Agree` for the loops that return the reader only. -/
def AgreeR (x : Run Cursor) (y : Option Reader) : Prop :=
  (x = Run.more ∧ y = none) ∨ ∃ c, x = Run.done c ∧ y = some c.ir ∧ c.ir.inv = true

end Cursor
/-! ## Facts about the library functions -/

theorem DecodeRune_ascii (a : Nat) (t : Bytes) (ha : a < 0x80) :
    DecodeRune (a :: t) = (a, 1) := by
  simp [DecodeRune, ha]

theorem DecodeRune_size_pos (x : Nat) (t : Bytes) : 1 ≤ (DecodeRune (x :: t)).2 := by
  simp only [DecodeRune]
  split_ifs <;> (try simp) <;> split <;> (try simp) <;> split_ifs <;> simp

theorem DecodeRune_size_le (p : Bytes) : (DecodeRune p).2 ≤ p.length := by
  cases p with
  | nil => simp [DecodeRune]
  | cons x t =>
    simp only [DecodeRune]
    split_ifs <;> (try simp) <;> split <;> (try simp) <;> split_ifs <;> simp

/-- A rune decoded from a byte of 0x80 or more is itself 0x80 or more. -/
theorem DecodeRune_high (x : Nat) (t : Bytes) (hx : 0x80 ≤ x) :
    0x80 ≤ (DecodeRune (x :: t)).1 := by
  simp only [DecodeRune]
  split_ifs <;> (try simp [RuneError]) <;> (try omega) <;> split <;> (try simp [RuneError]) <;>
    split_ifs <;> (try simp [RuneError]) <;>
    (simp only [acceptLo, acceptHi, isCont, Bool.or_eq_true, decide_eq_true_eq, not_or, not_lt,
      Bool.not_eq_true, Bool.and_eq_true, Bool.not_eq_true', Bool.and_eq_false_iff] at *) <;>
    (try split_ifs at *) <;> omega

/-- Decoding never reads past an ASCII byte: the first rune of a non-empty
`xs` is the same whatever follows `xs`, when that starts with an ASCII byte. -/
theorem DecodeRune_append_ascii (xs : Bytes) (a : Nat) (rest : Bytes) (hxs : xs ≠ [])
    (ha : a < 0x80) : DecodeRune (xs ++ a :: rest) = DecodeRune xs := by
  have hc : isCont a = false := by simp [isCont]; omega
  have hlo : ∀ p0, a < acceptLo p0 := by
    intro p0; unfold acceptLo; split_ifs <;> omega
  rcases xs with _ | ⟨x, _ | ⟨y, _ | ⟨z, _ | ⟨w, t⟩⟩⟩⟩
  · exact absurd rfl hxs
  all_goals
    rcases rest with _ | ⟨r1, _ | ⟨r2, rest⟩⟩ <;>
    simp only [DecodeRune, List.cons_append, List.nil_append, hc, hlo] <;>
    simp

/-! ## The cursor -/

namespace Reader

theorem next_eof (ir : Reader) (h : ir.data.length ≤ ir.pos) : ir.next = (ir, none) := by
  simp [next, h]

theorem next_some (ir : Reader) (x : Nat) (t : Bytes) (h : ir.data.drop ir.pos = x :: t) :
    ir.next = ({ ir with size := (DecodeRune (x :: t)).2,
                         pos := ir.pos + (DecodeRune (x :: t)).2 },
               some (DecodeRune (x :: t)).1) := by
  have hlt : ¬ ir.data.length ≤ ir.pos := by
    intro hle
    rw [List.drop_eq_nil_of_le hle] at h
    exact List.noConfusion h
  simp [next, hlt, h]

/-- The loop of `acceptUntil` stops at the first byte equal to an ASCII
delimiter `v`: if the input at the cursor is `xs ++ v :: rest` with no `v`
in `xs`, the cursor ends on that `v`. -/
theorem acceptUntilLoop_find (v : Nat) (hv : v < 0x80) (rest : Bytes) :
    ∀ (n : Nat) (xs : Bytes) (ir : Reader) (fuel : Nat), xs.length = n → v ∉ xs →
      ir.data.drop ir.pos = xs ++ v :: rest → xs.length < fuel →
      acceptUntilLoop v fuel ir =
        some ({ ir with size := 1, pos := ir.pos + xs.length }, true) := by
  intro n
  induction n using Nat.strong_induction_on with
  | _ n ih =>
    intro xs ir fuel hn hnot hdrop hfuel
    obtain ⟨f, rfl⟩ : ∃ f, fuel = f + 1 := ⟨fuel - 1, by omega⟩
    cases xs with
    | nil =>
      simp only [List.nil_append] at hdrop
      simp [acceptUntilLoop, next_some ir v rest hdrop, DecodeRune_ascii v rest hv, rewind]
    | cons x t =>
      have hd : DecodeRune (x :: t ++ v :: rest) = DecodeRune (x :: t) :=
        DecodeRune_append_ascii (x :: t) v rest (by simp) hv
      have hsz1 := DecodeRune_size_pos x t
      have hsz2 := DecodeRune_size_le (x :: t)
      have hne : v ≠ (DecodeRune (x :: t)).1 := by
        by_cases hx : x < 0x80
        · rw [DecodeRune_ascii x t hx]
          intro h
          exact hnot (by simp [h])
        · have := DecodeRune_high x t (by omega)
          omega
      rw [List.cons_append] at hdrop hd
      rw [acceptUntilLoop, next_some ir x _ hdrop, hd]
      simp only [hne, if_false]
      have hdrop2 : List.drop (ir.pos + (DecodeRune (x :: t)).2) ir.data =
          (x :: t).drop (DecodeRune (x :: t)).2 ++ v :: rest := by
        rw [← List.drop_drop, hdrop, ← List.cons_append, List.drop_append_of_le_length hsz2]
      have hlen : ((x :: t).drop (DecodeRune (x :: t)).2).length
          = (x :: t).length - (DecodeRune (x :: t)).2 := List.length_drop _ _
      have hnot2 : v ∉ (x :: t).drop (DecodeRune (x :: t)).2 :=
        fun h => hnot (List.mem_of_mem_drop h)
      rw [ih _ (by omega) _ { ir with size := (DecodeRune (x :: t)).2,
                                       pos := ir.pos + (DecodeRune (x :: t)).2 } f rfl hnot2
            hdrop2 (by omega)]
      simp only [hlen, Option.some.injEq, Prod.mk.injEq, and_true, Reader.mk.injEq, true_and]
      omega

theorem hasRune_iff (argv : List Nat) (r : Nat) : hasRune argv r = true ↔ r ∈ argv := by
  induction argv with
  | nil => simp [hasRune]
  | cons a t ih =>
    simp only [hasRune, List.mem_cons]
    split_ifs with h
    · simp [h]
    · rw [ih]
      constructor
      · exact fun h1 => Or.inr h1
      · rintro (h1 | h1)
        · exact absurd h1.symm h
        · exact h1

/-- The loop of `acceptUntilAny` stops at the first byte that is one of the
ASCII delimiters `argv`, and returns that delimiter. -/
theorem acceptUntilAnyLoop_find (argv : List Nat) (hargv : ∀ a ∈ argv, a < 0x80) (d : Nat)
    (hd : d ∈ argv) (rest : Bytes) :
    ∀ (n : Nat) (xs : Bytes) (ir : Reader) (fuel : Nat), xs.length = n →
      (∀ x ∈ xs, x ∉ argv) →
      ir.data.drop ir.pos = xs ++ d :: rest → xs.length < fuel →
      acceptUntilAnyLoop argv fuel ir =
        some ({ ir with size := 1, pos := ir.pos + xs.length }, d, true) := by
  intro n
  induction n using Nat.strong_induction_on with
  | _ n ih =>
    intro xs ir fuel hn hnot hdrop hfuel
    obtain ⟨f, rfl⟩ : ∃ f, fuel = f + 1 := ⟨fuel - 1, by omega⟩
    have hdlt := hargv d hd
    cases xs with
    | nil =>
      simp only [List.nil_append] at hdrop
      have hr : hasRune argv d = true := (hasRune_iff argv d).2 hd
      simp [acceptUntilAnyLoop, next_some ir d rest hdrop, DecodeRune_ascii d rest hdlt, rewind,
        hr]
    | cons x t =>
      have hdec : DecodeRune (x :: t ++ d :: rest) = DecodeRune (x :: t) :=
        DecodeRune_append_ascii (x :: t) d rest (by simp) hdlt
      have hsz1 := DecodeRune_size_pos x t
      have hsz2 := DecodeRune_size_le (x :: t)
      have hne : hasRune argv (DecodeRune (x :: t)).1 = false := by
        rw [Bool.eq_false_iff]
        intro h
        have hmem := (hasRune_iff _ _).1 h
        by_cases hx : x < 0x80
        · rw [DecodeRune_ascii x t hx] at hmem
          exact hnot x (by simp) hmem
        · have h1 := DecodeRune_high x t (by omega)
          have h2 := hargv _ hmem
          omega
      rw [List.cons_append] at hdrop hdec
      rw [acceptUntilAnyLoop, next_some ir x _ hdrop, hdec]
      simp only [hne, Bool.false_eq_true, if_false]
      have hdrop2 : List.drop (ir.pos + (DecodeRune (x :: t)).2) ir.data =
          (x :: t).drop (DecodeRune (x :: t)).2 ++ d :: rest := by
        rw [← List.drop_drop, hdrop, ← List.cons_append, List.drop_append_of_le_length hsz2]
      have hlen : ((x :: t).drop (DecodeRune (x :: t)).2).length
          = (x :: t).length - (DecodeRune (x :: t)).2 := List.length_drop _ _
      have hnot2 : ∀ y ∈ (x :: t).drop (DecodeRune (x :: t)).2, y ∉ argv :=
        fun y h => hnot y (List.mem_of_mem_drop h)
      rw [ih _ (by omega) _ { ir with size := (DecodeRune (x :: t)).2,
                                       pos := ir.pos + (DecodeRune (x :: t)).2 } f rfl hnot2
            hdrop2 (by omega)]
      simp only [hlen, Option.some.injEq, Prod.mk.injEq, and_true, Reader.mk.injEq, true_and]
      omega

/-- ASCII white space: tab, line feed, vertical tab, form feed, carriage
return and space. -/
theorem IsSpace_ascii (x : Nat) (h : (9 ≤ x ∧ x ≤ 13) ∨ x = 32) : IsSpace x = true := by
  simp only [IsSpace, Bool.or_eq_true, Bool.and_eq_true, decide_eq_true_eq]
  omega

/-- The loop of `acceptSpace` runs over a stretch `ws` of ASCII white space
and stops at the rune after it, or at the end of input. -/
theorem acceptSpaceLoop_run (rest : Bytes)
    (hrest : rest = [] ∨ IsSpace (DecodeRune rest).1 = false) :
    ∀ (ws : Bytes) (ir : Reader) (fuel : Nat),
      (∀ x ∈ ws, (9 ≤ x ∧ x ≤ 13) ∨ x = 32) →
      ir.data.drop ir.pos = ws ++ rest → ws.length < fuel →
      ∃ ir1 b, acceptSpaceLoop fuel ir = some (ir1, b) ∧ ir1.out = ir.out ∧
        ir1.data = ir.data ∧ ir1.pos = ir.pos + ws.length := by
  intro ws
  induction ws with
  | nil =>
    intro ir fuel _ hdrop hfuel
    obtain ⟨f, rfl⟩ : ∃ f, fuel = f + 1 := ⟨fuel - 1, by omega⟩
    simp only [List.nil_append] at hdrop
    cases rest with
    | nil =>
      have hle : ir.data.length ≤ ir.pos := by
        have := congrArg List.length hdrop
        simp at this
        omega
      exact ⟨ir, false, by simp [acceptSpaceLoop, next_eof ir hle], rfl, rfl, rfl⟩
    | cons x t =>
      have hsp : IsSpace (DecodeRune (x :: t)).1 = false := by
        rcases hrest with h | h
        · exact List.noConfusion h
        · exact h
      refine ⟨({ ir with size := (DecodeRune (x :: t)).2,
                         pos := ir.pos + (DecodeRune (x :: t)).2 } : Reader).rewind,
        true, ?_, rfl, rfl, ?_⟩
      · simp [acceptSpaceLoop, next_some ir x t hdrop, hsp]
      · simp [rewind]
  | cons w ws ih =>
    intro ir fuel hws hdrop hfuel
    obtain ⟨f, rfl⟩ : ∃ f, fuel = f + 1 := ⟨fuel - 1, by omega⟩
    have hw := hws w (by simp)
    have hwlt : w < 0x80 := by omega
    rw [List.cons_append] at hdrop
    have hdrop2 : List.drop (ir.pos + 1) ir.data = ws ++ rest := by
      rw [← List.drop_drop, hdrop]
      rfl
    obtain ⟨ir1, b, h1, h2, h3, h4⟩ := ih { ir with size := 1, pos := ir.pos + 1 } f
      (fun x hx => hws x (by simp [hx])) hdrop2 (by simp at hfuel; omega)
    refine ⟨ir1, b, ?_, h2, h3, ?_⟩
    · simp only [acceptSpaceLoop, next_some ir w _ hdrop, DecodeRune_ascii w _ hwlt,
        IsSpace_ascii w hw]
      exact h1
    · rw [h4]
      simp
      omega

end Reader

namespace Reader

theorem acceptUntil_find (v : Nat) (hv : v < 0x80) (rest xs : Bytes) (ir : Reader) (fuel : Nat)
    (hnot : v ∉ xs) (hdrop : ir.data.drop ir.pos = xs ++ v :: rest) (hfuel : xs.length < fuel) :
    ir.acceptUntil fuel v =
      some ({ ir with size := 1, pos := ir.pos + xs.length }, decide (0 < xs.length)) := by
  simp [acceptUntil, acceptUntilLoop_find v hv rest _ xs ir fuel rfl hnot hdrop hfuel]

theorem acceptUntilAny_find (argv : List Nat) (hargv : ∀ a ∈ argv, a < 0x80) (d : Nat)
    (hd : d ∈ argv) (rest xs : Bytes) (ir : Reader) (fuel : Nat)
    (hnot : ∀ x ∈ xs, x ∉ argv) (hdrop : ir.data.drop ir.pos = xs ++ d :: rest)
    (hfuel : xs.length < fuel) :
    ir.acceptUntilAny fuel argv =
      some ({ ir with size := 1, pos := ir.pos + xs.length }, d, decide (0 < xs.length)) := by
  simp [acceptUntilAny,
    acceptUntilAnyLoop_find argv hargv d hd rest _ xs ir fuel rfl hnot hdrop hfuel]

theorem acceptSpace_run (rest ws : Bytes) (ir : Reader) (fuel : Nat)
    (hrest : rest = [] ∨ IsSpace (DecodeRune rest).1 = false)
    (hws : ∀ x ∈ ws, (9 ≤ x ∧ x ≤ 13) ∨ x = 32)
    (hdrop : ir.data.drop ir.pos = ws ++ rest) (hfuel : ws.length < fuel) :
    ∃ ir1 b, ir.acceptSpace fuel = some (ir1, b) ∧ ir1.out = ir.out ∧
      ir1.data = ir.data ∧ ir1.pos = ir.pos + ws.length := by
  obtain ⟨ir1, b, h1, h2, h3, h4⟩ := acceptSpaceLoop_run rest hrest ws ir fuel hws hdrop hfuel
  cases b with
  | false => exact ⟨ir1, false, by simp [acceptSpace, h1], h2, h3, h4⟩
  | true => exact ⟨ir1, decide (ir1.pos > ir.pos), by simp only [acceptSpace, h1], h2, h3, h4⟩

/-- The method `accept` leaves the cursor where it was when the input is at
its end or the next rune is not `v`. -/
theorem accept_miss (v : Nat) (ir : Reader) (rest : Bytes)
    (hdrop : ir.data.drop ir.pos = rest)
    (hrest : rest = [] ∨ (DecodeRune rest).1 ≠ v) :
    ∃ ir1, ir.accept v = (ir1, false) ∧ ir1.out = ir.out ∧ ir1.data = ir.data ∧
      ir1.pos = ir.pos := by
  cases rest with
  | nil =>
    have hle : ir.data.length ≤ ir.pos := by
      have := congrArg List.length hdrop
      simp at this
      omega
    exact ⟨ir, by simp [accept, next_eof ir hle], rfl, rfl, rfl⟩
  | cons x t =>
    have hne : v ≠ (DecodeRune (x :: t)).1 := by
      rcases hrest with h | h
      · exact List.noConfusion h
      · exact fun e => h e.symm
    refine ⟨({ ir with size := (DecodeRune (x :: t)).2,
                       pos := ir.pos + (DecodeRune (x :: t)).2 } : Reader).rewind,
      ?_, rfl, rfl, ?_⟩
    · simp [accept, next_some ir x t hdrop, hne]
    · simp [rewind]

theorem accept_hit (v : Nat) (hv : v < 0x80) (ir : Reader) (rest : Bytes)
    (hdrop : ir.data.drop ir.pos = v :: rest) :
    ir.accept v = ({ ir with size := 1, pos := ir.pos + 1 }, true) := by
  simp [accept, next_some ir v rest hdrop, DecodeRune_ascii v rest hv]

theorem comment_miss (fuel : Nat) (ir : Reader) (rest : Bytes)
    (hdrop : ir.data.drop ir.pos = rest)
    (hrest : rest = [] ∨ (DecodeRune rest).1 ≠ 59) :
    ∃ ir1, ir.comment fuel = some (ir1, false) ∧ ir1.out = ir.out ∧ ir1.data = ir.data ∧
      ir1.pos = ir.pos := by
  obtain ⟨ir1, h1, h2, h3, h4⟩ := accept_miss 59 ir rest hdrop hrest
  exact ⟨ir1, by simp [comment, h1], h2, h3, h4⟩

/-- The span between `start` and `pos` once `xs` has been scanned from a
cursor whose `start` was its `pos`. -/
theorem span_eq (data xs rest : Bytes) (p : Nat) (h : data.drop p = xs ++ rest) :
    (data.drop p).take (p + xs.length - p) = xs := by
  rw [h]
  simp

/-- The method `section` on a line that is no section header: white space
is skipped and nothing else happens. -/
theorem section_miss (fuel : Nat) (ir : Reader) (ws rest : Bytes)
    (hws : ∀ x ∈ ws, (9 ≤ x ∧ x ≤ 13) ∨ x = 32)
    (hdrop : ir.data.drop ir.pos = ws ++ rest)
    (hrest : rest = [] ∨ (IsSpace (DecodeRune rest).1 = false ∧ (DecodeRune rest).1 ≠ 91))
    (hfuel : ws.length < fuel) :
    ∃ ir1, ir.«section» fuel = some (ir1, false) ∧ ir1.out = ir.out ∧ ir1.data = ir.data ∧
      ir1.pos = ir.pos + ws.length := by
  obtain ⟨ir1, b, h1, h2, h3, h4⟩ := acceptSpace_run rest ws ir fuel
    (hrest.imp id And.left) hws hdrop hfuel
  have hdrop1 : ir1.ignore.data.drop ir1.ignore.pos = rest := by
    show ir1.data.drop ir1.pos = rest
    rw [h3, h4, ← List.drop_drop, hdrop]
    simp
  obtain ⟨ir2, g1, g2, g3, g4⟩ := accept_miss 91 ir1.ignore rest hdrop1 (hrest.imp id And.right)
  refine ⟨ir2, ?_, ?_, ?_, ?_⟩
  · simp [«section», h1, g1]
  · rw [g2]; exact h2
  · rw [g3]; exact h3
  · rw [g4]; exact h4

end Reader

namespace Reader

theorem drop_length_le (data xs : Bytes) (p : Nat) (h : data.drop p = xs) :
    p + xs.length ≤ data.length ∨ xs = [] := by
  by_cases hp : p ≤ data.length
  · left
    have := congrArg List.length h
    simp at this
    omega
  · right
    rw [← h]
    exact List.drop_eq_nil_of_le (by omega)

/-- The method `value` on a non-empty rest of line `v`. -/
theorem value_line (fuel : Nat) (ir : Reader) (v rest : Bytes)
    (hstart : ir.start = ir.pos)
    (hdrop : ir.data.drop ir.pos = v ++ 10 :: rest)
    (hv : v ≠ []) (hnl : 10 ∉ v) (hfuel : v.length < fuel) :
    ∃ ir1, ir.value fuel = some (ir1, true) ∧ ir1.out = ir.out ++ [(TokValue, v)] ∧
      ir1.data = ir.data ∧ ir1.pos = ir.pos + v.length := by
  have hpos : 0 < v.length := List.length_pos.2 hv
  refine ⟨(({ ir with size := 1, pos := ir.pos + v.length } : Reader).emit TokValue).ignore,
    ?_, ?_, rfl, rfl⟩
  · simp [value, acceptUntil_find 10 (by omega) rest v ir fuel hnl hdrop hfuel, hpos]
  · simp only [ignore, emit, hstart]
    rw [span_eq ir.data v _ ir.pos hdrop]

/-- The method `key` on a line `k d v` with `d` one of `<`, `=`: two
tokens are emitted and the cursor ends on the line feed. -/
theorem key_line (fuel : Nat) (ir : Reader) (ws k v rest : Bytes) (d : Nat)
    (hws : ∀ x ∈ ws, (9 ≤ x ∧ x ≤ 13) ∨ x = 32)
    (hdrop : ir.data.drop ir.pos = ws ++ (k ++ d :: (v ++ 10 :: rest)))
    (hk : k ≠ []) (hksp : IsSpace (DecodeRune k).1 = false)
    (hkd : ∀ x ∈ k, x ∉ [60, 61]) (hd : d ∈ [60, 61])
    (hv : v ≠ []) (hnl : 10 ∉ v) (hfuel : ir.data.length - ir.pos < fuel) :
    ∃ ir1, ir.key fuel = some (ir1, true) ∧
      ir1.out = ir.out ++ [(if d = 60 then TokKeyList else TokKey, k), (TokValue, v)] ∧
      ir1.data = ir.data ∧ ir1.pos = ir.pos + ws.length + k.length + 1 + v.length := by
  have hdlt : d < 0x80 := by
    simp only [List.mem_cons, List.mem_singleton, List.not_mem_nil, or_false] at hd
    omega
  have hlen : ir.pos + (ws ++ (k ++ d :: (v ++ 10 :: rest))).length ≤ ir.data.length := by
    rcases drop_length_le _ _ _ hdrop with h | h
    · exact h
    · simp at h
  simp only [List.length_append, List.length_cons] at hlen
  have hsp : IsSpace (DecodeRune (k ++ d :: (v ++ 10 :: rest))).1 = false := by
    rw [DecodeRune_append_ascii k d _ hk hdlt]
    exact hksp
  obtain ⟨ir1, b, h1, h2, h3, h4⟩ := acceptSpace_run _ ws ir fuel (Or.inr hsp) hws hdrop
    (by omega)
  have hdrop1 : ir1.ignore.data.drop ir1.ignore.pos = k ++ d :: (v ++ 10 :: rest) := by
    show ir1.data.drop ir1.pos = _
    rw [h3, h4, ← List.drop_drop, hdrop]
    simp
  have hkpos : 0 < k.length := List.length_pos.2 hk
  have h5 := acceptUntilAny_find [60, 61] (by simp) d hd _ k ir1.ignore fuel hkd hdrop1
    (by omega)
  -- the state after the key token, `ignore` and `skip`
  have hspan : (ir1.data.drop ir1.pos).take (ir1.pos + k.length - ir1.pos) = k :=
    span_eq ir1.data k _ ir1.pos hdrop1
  have hdrop2 : ir1.data.drop (ir1.pos + k.length) = d :: (v ++ 10 :: rest) := by
    have : ir1.data.drop ir1.pos = k ++ d :: (v ++ 10 :: rest) := hdrop1
    rw [← List.drop_drop, this]
    simp
  have hdrop3 : ir1.data.drop (ir1.pos + k.length + 1) = v ++ 10 :: rest := by
    rw [← List.drop_drop, hdrop2]
    rfl
  let tt : TokenType := if d = 60 then TokKeyList else TokKey
  let ir4 : Reader := { out := ir1.out ++ [(tt, k)], data := ir1.data,
                        start := ir1.pos + k.length + 1, pos := ir1.pos + k.length + 1,
                        size := 1 }
  let ir3 : Reader := { ir1.ignore with size := 1, pos := ir1.ignore.pos + k.length }
  have hskip : ((if d = 60 then ir3.emit TokKeyList else ir3.emit TokKey).ignore).skip = ir4 := by
    have hn := next_some { out := ir1.out ++ [(tt, k)], data := ir1.data,
                           start := ir1.pos + k.length, pos := ir1.pos + k.length,
                           size := 1 } d _ hdrop2
    rw [DecodeRune_ascii d _ hdlt] at hn
    by_cases h60 : d = 60
    · simp only [h60, if_true, emit, ignore, skip, hspan, tt, ir3, ir4] at hn ⊢
      rw [hn]
    · simp only [h60, if_false, emit, ignore, skip, hspan, tt, ir3, ir4] at hn ⊢
      rw [hn]
  obtain ⟨ir5, g1, g2, g3, g4⟩ := value_line fuel ir4 v rest rfl hdrop3 hv hnl (by omega)
  refine ⟨ir5, ?_, ?_, ?_, ?_⟩
  · simp only [key, h1, h5, hkpos, decide_True]
    rw [hskip]
    exact g1
  · rw [g2]
    simp [ir4, tt, h2]
  · rw [g3]; exact h3
  · rw [g4]
    simp only [ir4, h4]

end Reader

namespace Reader

/-- The method `section` on a header line `[s]`: one token is emitted and
the cursor ends after the closing bracket. -/
theorem section_line (fuel : Nat) (ir : Reader) (ws s rest : Bytes)
    (hws : ∀ x ∈ ws, (9 ≤ x ∧ x ≤ 13) ∨ x = 32)
    (hdrop : ir.data.drop ir.pos = ws ++ 91 :: (s ++ 93 :: rest))
    (hs : s ≠ []) (hns : 93 ∉ s) (hfuel : ir.data.length - ir.pos < fuel) :
    ∃ ir1, ir.«section» fuel = some (ir1, true) ∧ ir1.out = ir.out ++ [(TokSection, s)] ∧
      ir1.data = ir.data ∧ ir1.pos = ir.pos + ws.length + 1 + s.length + 1 := by
  have hlen : ir.pos + (ws ++ 91 :: (s ++ 93 :: rest)).length ≤ ir.data.length := by
    rcases drop_length_le _ _ _ hdrop with h | h
    · exact h
    · simp at h
  simp only [List.length_append, List.length_cons] at hlen
  have hsp : IsSpace (DecodeRune (91 :: (s ++ 93 :: rest))).1 = false := by
    rw [DecodeRune_ascii 91 _ (by omega)]
    decide
  obtain ⟨ir1, b, h1, h2, h3, h4⟩ := acceptSpace_run _ ws ir fuel (Or.inr hsp) hws hdrop
    (by omega)
  have hdrop1 : ir1.ignore.data.drop ir1.ignore.pos = 91 :: (s ++ 93 :: rest) := by
    show ir1.data.drop ir1.pos = _
    rw [h3, h4, ← List.drop_drop, hdrop]
    simp
  have h5 := accept_hit 91 (by omega) ir1.ignore _ hdrop1
  have hdrop2 : ir1.data.drop (ir1.pos + 1) = s ++ 93 :: rest := by
    have : ir1.data.drop ir1.pos = 91 :: (s ++ 93 :: rest) := hdrop1
    rw [← List.drop_drop, this]
    rfl
  let ir4 : Reader := { out := ir1.out, data := ir1.data, start := ir1.pos + 1,
                        pos := ir1.pos + 1, size := 1 }
  have h6 := acceptUntil_find 93 (by omega) rest s ir4 fuel hns hdrop2 (by omega)
  have hspos : 0 < s.length := List.length_pos.2 hs
  have hspan : (ir1.data.drop (ir1.pos + 1)).take (ir1.pos + 1 + s.length - (ir1.pos + 1)) = s :=
    span_eq ir1.data s _ (ir1.pos + 1) hdrop2
  have hdrop3 : ir1.data.drop (ir1.pos + 1 + s.length) = 93 :: rest := by
    rw [← List.drop_drop, hdrop2]
    simp
  have hn := next_some { out := ir1.out ++ [(TokSection, s)], data := ir1.data,
                         start := ir1.pos + 1 + s.length, pos := ir1.pos + 1 + s.length,
                         size := 1 } 93 _ hdrop3
  rw [DecodeRune_ascii 93 _ (by omega)] at hn
  refine ⟨{ out := ir1.out ++ [(TokSection, s)], data := ir1.data,
            start := ir1.pos + 1 + s.length + 1, pos := ir1.pos + 1 + s.length + 1,
            size := 1 }, ?_, ?_, h3, ?_⟩
  · simp only [«section», h1, h5]
    have h7 : ({ ir1.ignore with size := 1, pos := ir1.ignore.pos + 1 } : Reader).ignore = ir4 := rfl
    rw [h7, h6]
    simp only [hspos, decide_True, emit, ignore, skip, ir4, hspan]
    rw [hn]
  · simp [h2]
  · simp only [h4]

/-- A line that starts with white space, or with a rune other than `;`,
is no comment. -/
theorem comment_miss_ws (fuel : Nat) (ir : Reader) (ws rest : Bytes)
    (hws : ∀ x ∈ ws, (9 ≤ x ∧ x ≤ 13) ∨ x = 32)
    (hdrop : ir.data.drop ir.pos = ws ++ rest)
    (hrest : ws = [] → rest = [] ∨ (DecodeRune rest).1 ≠ 59) :
    ∃ ir1, ir.comment fuel = some (ir1, false) ∧ ir1.out = ir.out ∧ ir1.data = ir.data ∧
      ir1.pos = ir.pos := by
  apply comment_miss fuel ir _ hdrop
  cases ws with
  | nil => simpa using hrest rfl
  | cons w t =>
    right
    have hw := hws w (by simp)
    rw [List.cons_append, DecodeRune_ascii w _ (by omega)]
    omega

/-- One turn of the main loop over a key line. -/
theorem ReadLoop_key_line (fuel : Nat) (ir : Reader) (ws k v rest : Bytes) (d : Nat)
    (hws : ∀ x ∈ ws, (9 ≤ x ∧ x ≤ 13) ∨ x = 32)
    (hdrop : ir.data.drop ir.pos = ws ++ (k ++ d :: (v ++ 10 :: rest)))
    (hk : k ≠ []) (hksp : IsSpace (DecodeRune k).1 = false)
    (hkb : (DecodeRune k).1 ≠ 91) (hkc : ws = [] → (DecodeRune k).1 ≠ 59)
    (hkd : ∀ x ∈ k, x ∉ [60, 61]) (hd : d ∈ [60, 61])
    (hv : v ≠ []) (hnl : 10 ∉ v) (hfuel : ir.data.length - ir.pos ≤ fuel) :
    ∃ ir1, ReadLoop (fuel + 1) ir = ReadLoop fuel ir1 ∧
      ir1.out = ir.out ++ [(if d = 60 then TokKeyList else TokKey, k), (TokValue, v)] ∧
      ir1.data = ir.data ∧ ir1.pos = ir.pos + ws.length + k.length + 1 + v.length := by
  have hdlt : d < 0x80 := by
    simp only [List.mem_cons, List.mem_singleton, List.not_mem_nil, or_false] at hd
    omega
  have hdec : DecodeRune (k ++ d :: (v ++ 10 :: rest)) = DecodeRune k :=
    DecodeRune_append_ascii k d _ hk hdlt
  obtain ⟨ia, a1, a2, a3, a4⟩ := comment_miss_ws (fuel + 1) ir ws _ hws hdrop
    (fun h => Or.inr (by rw [hdec]; exact hkc h))
  have hdropa : ia.data.drop ia.pos = ws ++ (k ++ d :: (v ++ 10 :: rest)) := by
    rw [a3, a4]; exact hdrop
  obtain ⟨ib, b1, b2, b3, b4⟩ := section_miss (fuel + 1) ia ws _ hws hdropa
    (Or.inr (by rw [hdec]; exact ⟨hksp, hkb⟩))
    (by
      have := drop_length_le _ _ _ hdropa
      simp only [List.length_append] at this
      rcases this with h | h
      · rw [a3, a4] at h; omega
      · simp at h)
  have hdropb : ib.data.drop ib.pos = [] ++ (k ++ d :: (v ++ 10 :: rest)) := by
    rw [b3, b4, ← List.drop_drop, hdropa]
    simp
  obtain ⟨ic, c1, c2, c3, c4⟩ := key_line (fuel + 1) ib [] k v rest d (by simp) hdropb hk hksp
    hkd hd hv hnl (by rw [b3, a3, b4, a4]; omega)
  refine ⟨ic, ?_, ?_, ?_, ?_⟩
  · simp only [ReadLoop, a1, b1, c1]
  · rw [c2, b2, a2]
  · rw [c3, b3, a3]
  · rw [c4, b4, a4]
    simp

/-- One turn of the main loop over a section header. -/
theorem ReadLoop_section_line (fuel : Nat) (ir : Reader) (ws s rest : Bytes)
    (hws : ∀ x ∈ ws, (9 ≤ x ∧ x ≤ 13) ∨ x = 32)
    (hdrop : ir.data.drop ir.pos = ws ++ 91 :: (s ++ 93 :: rest))
    (hs : s ≠ []) (hns : 93 ∉ s) (hfuel : ir.data.length - ir.pos ≤ fuel) :
    ∃ ir1, ReadLoop (fuel + 1) ir = ReadLoop fuel ir1 ∧
      ir1.out = ir.out ++ [(TokSection, s)] ∧
      ir1.data = ir.data ∧ ir1.pos = ir.pos + ws.length + 1 + s.length + 1 := by
  obtain ⟨ia, a1, a2, a3, a4⟩ := comment_miss_ws (fuel + 1) ir ws _ hws hdrop
    (fun _ => Or.inr (by rw [DecodeRune_ascii 91 _ (by omega)]; omega))
  have hdropa : ia.data.drop ia.pos = ws ++ 91 :: (s ++ 93 :: rest) := by
    rw [a3, a4]; exact hdrop
  obtain ⟨ib, b1, b2, b3, b4⟩ := section_line (fuel + 1) ia ws s rest hws hdropa hs hns
    (by rw [a3, a4]; omega)
  refine ⟨ib, ?_, ?_, ?_, ?_⟩
  · simp only [ReadLoop, a1, b1]
  · rw [b2, a2]
  · rw [b3, a3]
  · rw [b4, a4]

/-- The last turn of the main loop: only white space is left. -/
theorem ReadLoop_end (fuel : Nat) (ir : Reader) (ws : Bytes)
    (hws : ∀ x ∈ ws, (9 ≤ x ∧ x ≤ 13) ∨ x = 32)
    (hdrop : ir.data.drop ir.pos = ws) (hfuel : ir.data.length - ir.pos ≤ fuel) :
    ∃ ir1, ReadLoop (fuel + 1) ir = some ir1 ∧ ir1.out = ir.out := by
  have hdrop0 : ir.data.drop ir.pos = ws ++ [] := by simpa using hdrop
  obtain ⟨ia, a1, a2, a3, a4⟩ := comment_miss_ws (fuel + 1) ir ws [] hws hdrop0
    (fun _ => Or.inl rfl)
  have hdropa : ia.data.drop ia.pos = ws ++ [] := by
    rw [a3, a4]; exact hdrop0
  have hwl : ws.length ≤ ir.data.length - ir.pos := by
    have := congrArg List.length hdrop
    simp at this
    omega
  obtain ⟨ib, b1, b2, b3, b4⟩ := section_miss (fuel + 1) ia ws [] hws hdropa (Or.inl rfl)
    (by omega)
  have hdropb : ib.data.drop ib.pos = [] ++ [] := by
    rw [b3, b4, ← List.drop_drop, hdropa]
    simp
  obtain ⟨ic, b, c1, c2, c3, c4⟩ := acceptSpace_run [] [] ib (fuel + 1) (Or.inl rfl) (by simp)
    hdropb (by simp)
  have hle : ic.ignore.data.length ≤ ic.ignore.pos := by
    show ic.data.length ≤ ic.pos
    have := congrArg List.length hdropb
    simp at this
    rw [c3, c4]
    simp
    omega
  refine ⟨ic.ignore, ?_, ?_⟩
  · simp [ReadLoop, a1, b1, key, c1, acceptUntilAny, acceptUntilAnyLoop, next_eof _ hle]
  · show ic.out = ir.out
    rw [c2, b2, a2]

end Reader

/-! ## Reading whole buffers -/

theorem Read_of_newline (fuel : Nat) (data : Bytes) (h : data.getLast? = some 10) :
    Read fuel data =
      (Reader.ReadLoop fuel { out := [], data := data, start := 0, pos := 0, size := 0 }).map
        (fun ir => ir.out) := by
  have hne : data ≠ [] := by
    intro h0
    rw [h0] at h
    simp at h
  have hl : ¬ (data.length = 0 ∨ data.getLast? ≠ some 10) := by
    simp [h, hne]
  simp only [Read, hl, if_false]
  cases Reader.ReadLoop fuel { out := [], data := data, start := 0, pos := 0, size := 0 } <;> rfl

theorem drop_append_eq (xs ys : Bytes) (n : Nat) (h : n = xs.length) :
    (xs ++ ys).drop n = ys := by
  subst h
  exact List.drop_left xs ys

/-- A buffer holding one key line. -/
theorem Read_one_line (fuel : Nat) (k v : Bytes) (d : Nat) (hd : d ∈ [60, 61]) (hk : k ≠ [])
    (hkd : ∀ x ∈ k, x ∉ [60, 61]) (hsp : IsSpace (DecodeRune k).1 = false)
    (hb : (DecodeRune k).1 ≠ 91) (hc : (DecodeRune k).1 ≠ 59) (hv : v ≠ []) (hnl : 10 ∉ v)
    (hfuel : (k ++ d :: (v ++ [10])).length < fuel) :
    Read fuel (k ++ d :: (v ++ [10])) =
      some [(if d = 60 then TokKeyList else TokKey, k), (TokValue, v)] := by
  have hdata : k ++ d :: (v ++ [10]) = (k ++ d :: v) ++ [10] := by simp
  rw [Read_of_newline fuel _ (by rw [hdata]; exact List.getLast?_concat _)]
  obtain ⟨f, rfl⟩ : ∃ f, fuel = f + 1 := ⟨fuel - 1, by omega⟩
  simp only [List.length_append, List.length_cons, List.length_nil] at hfuel
  obtain ⟨f, rfl⟩ : ∃ g, f = g + 1 := ⟨f - 1, by omega⟩
  obtain ⟨ir1, h1, h2, h3, h4⟩ := Reader.ReadLoop_key_line (f + 1)
    { out := [], data := k ++ d :: (v ++ [10]), start := 0, pos := 0, size := 0 } [] k v [] d
    (by simp) (by simp) hk hsp hb (fun _ => hc) hkd hd hv hnl (by simp; omega)
  have hdrop : ir1.data.drop ir1.pos = [10] := by
    rw [h3, h4]
    show List.drop _ (k ++ d :: (v ++ [10])) = [10]
    rw [hdata]
    exact drop_append_eq _ _ _ (by simp; omega)
  obtain ⟨ir2, g1, g2⟩ := Reader.ReadLoop_end f ir1 [10] (by simp) hdrop
    (by rw [h3, h4]; simp; omega)
  rw [h1, g1]
  simp [g2, h2]

/-- C3 (key/value line scanning).  For a key text `k` that is non-empty,
holds neither `<` (60) nor `=` (61) and whose first rune is not white
space, `[` (91) or `;` (59), and a non-empty value text `v` without a line
feed (10), `Read` on `k = v` followed by a line feed emits exactly the
tokens `Key(k)`, `Value(v)`, and on `k < v` exactly `KeyList(k)`,
`Value(v)`, whatever `v` holds besides.  The fuel is any number above the
length of the buffer. -/
theorem Read_key_value_line (k v : Bytes) (hk : k ≠ []) (h60 : 60 ∉ k) (h61 : 61 ∉ k)
    (hsp : IsSpace (DecodeRune k).1 = false) (hb : (DecodeRune k).1 ≠ 91)
    (hc : (DecodeRune k).1 ≠ 59) (hv : v ≠ []) (hnl : 10 ∉ v) (fuel : Nat)
    (hfuel : k.length + v.length + 2 < fuel) :
    Read fuel (k ++ 61 :: (v ++ [10])) = some [(TokKey, k), (TokValue, v)] ∧
    Read fuel (k ++ 60 :: (v ++ [10])) = some [(TokKeyList, k), (TokValue, v)] := by
  have hkd : ∀ x ∈ k, x ∉ [60, 61] := by
    intro x hx hm
    simp only [List.mem_cons, List.mem_singleton, List.not_mem_nil, or_false] at hm
    rcases hm with rfl | rfl
    · exact h60 hx
    · exact h61 hx
  constructor
  · have := Read_one_line fuel k v 61 (by simp) hk hkd hsp hb hc hv hnl (by simp; omega)
    simpa using this
  · have := Read_one_line fuel k v 60 (by simp) hk hkd hsp hb hc hv hnl (by simp; omega)
    simpa using this

/-- The line `url = http://www.server.com/page?var=value` of the package
test: the key span is `url ` and the value span keeps its `=`. -/
theorem Read_key_value_line_witness :
    Read 50 ([117, 114, 108, 32] ++ 61 :: ([32, 104, 116, 116, 112, 58, 47, 47, 119, 119, 119,
        46, 115, 101, 114, 118, 101, 114, 46, 99, 111, 109, 47, 112, 97, 103, 101, 63, 118, 97,
        114, 61, 118, 97, 108, 117, 101] ++ [10])) =
      some [(TokKey, [117, 114, 108, 32]),
        (TokValue, [32, 104, 116, 116, 112, 58, 47, 47, 119, 119, 119,
        46, 115, 101, 114, 118, 101, 114, 46, 99, 111, 109, 47, 112, 97, 103, 101, 63, 118, 97,
        114, 61, 118, 97, 108, 117, 101])] :=
  (Read_key_value_line [117, 114, 108, 32] [32, 104, 116, 116, 112, 58, 47, 47, 119, 119, 119,
        46, 115, 101, 114, 118, 101, 114, 46, 99, 111, 109, 47, 112, 97, 103, 101, 63, 118, 97,
        114, 61, 118, 97, 108, 117, 101] (by decide) (by decide) (by decide) (by decide)
        (by decide) (by decide) (by decide) (by decide) 50 (by decide)).1

namespace Reader

/-- The method `key` on a line `k d` whose value is empty: the key token
is emitted, `value` finds nothing before the line feed, and `key` returns
false. -/
theorem key_only (fuel : Nat) (ir : Reader) (ws k rest : Bytes) (d : Nat)
    (hws : ∀ x ∈ ws, (9 ≤ x ∧ x ≤ 13) ∨ x = 32)
    (hdrop : ir.data.drop ir.pos = ws ++ (k ++ d :: 10 :: rest))
    (hk : k ≠ []) (hksp : IsSpace (DecodeRune k).1 = false)
    (hkd : ∀ x ∈ k, x ∉ [60, 61]) (hd : d ∈ [60, 61])
    (hfuel : ir.data.length - ir.pos < fuel) :
    ∃ ir1, ir.key fuel = some (ir1, false) ∧
      ir1.out = ir.out ++ [(if d = 60 then TokKeyList else TokKey, k)] := by
  have hdlt : d < 0x80 := by
    simp only [List.mem_cons, List.mem_singleton, List.not_mem_nil, or_false] at hd
    omega
  have hlen : ir.pos + (ws ++ (k ++ d :: 10 :: rest)).length ≤ ir.data.length := by
    rcases drop_length_le _ _ _ hdrop with h | h
    · exact h
    · simp at h
  simp only [List.length_append, List.length_cons] at hlen
  have hsp : IsSpace (DecodeRune (k ++ d :: 10 :: rest)).1 = false := by
    rw [DecodeRune_append_ascii k d _ hk hdlt]
    exact hksp
  obtain ⟨ir1, b, h1, h2, h3, h4⟩ := acceptSpace_run _ ws ir fuel (Or.inr hsp) hws hdrop
    (by omega)
  have hdrop1 : ir1.ignore.data.drop ir1.ignore.pos = k ++ d :: 10 :: rest := by
    show ir1.data.drop ir1.pos = _
    rw [h3, h4, ← List.drop_drop, hdrop]
    simp
  have hkpos : 0 < k.length := List.length_pos.2 hk
  have h5 := acceptUntilAny_find [60, 61] (by simp) d hd _ k ir1.ignore fuel hkd hdrop1
    (by omega)
  have hspan : (ir1.data.drop ir1.pos).take (ir1.pos + k.length - ir1.pos) = k :=
    span_eq ir1.data k _ ir1.pos hdrop1
  have hdrop2 : ir1.data.drop (ir1.pos + k.length) = d :: 10 :: rest := by
    have : ir1.data.drop ir1.pos = k ++ d :: 10 :: rest := hdrop1
    rw [← List.drop_drop, this]
    simp
  have hdrop3 : ir1.data.drop (ir1.pos + k.length + 1) = [] ++ 10 :: rest := by
    rw [← List.drop_drop, hdrop2]
    rfl
  let tt : TokenType := if d = 60 then TokKeyList else TokKey
  let ir4 : Reader := { out := ir1.out ++ [(tt, k)], data := ir1.data,
                        start := ir1.pos + k.length + 1, pos := ir1.pos + k.length + 1,
                        size := 1 }
  let ir3 : Reader := { ir1.ignore with size := 1, pos := ir1.ignore.pos + k.length }
  have hskip : ((if d = 60 then ir3.emit TokKeyList else ir3.emit TokKey).ignore).skip = ir4 := by
    have hn := next_some { out := ir1.out ++ [(tt, k)], data := ir1.data,
                           start := ir1.pos + k.length, pos := ir1.pos + k.length,
                           size := 1 } d _ hdrop2
    rw [DecodeRune_ascii d _ hdlt] at hn
    by_cases h60 : d = 60
    · simp only [h60, if_true, emit, ignore, skip, hspan, tt, ir3, ir4] at hn ⊢
      rw [hn]
    · simp only [h60, if_false, emit, ignore, skip, hspan, tt, ir3, ir4] at hn ⊢
      rw [hn]
  have h6 := acceptUntil_find 10 (by omega) rest [] ir4 fuel (by simp) hdrop3 (by simp; omega)
  refine ⟨{ ir4 with size := 1, pos := ir4.pos + ([] : Bytes).length }, ?_, ?_⟩
  · simp only [key, h1, h5, hkpos, decide_True]
    rw [hskip]
    simp only [value, h6]
    simp
  · simp [ir4, tt, h2]

/-- The main loop stops after a key line whose value is empty, whatever
follows that line. -/
theorem ReadLoop_key_only (fuel : Nat) (ir : Reader) (ws k rest : Bytes) (d : Nat)
    (hws : ∀ x ∈ ws, (9 ≤ x ∧ x ≤ 13) ∨ x = 32)
    (hdrop : ir.data.drop ir.pos = ws ++ (k ++ d :: 10 :: rest))
    (hk : k ≠ []) (hksp : IsSpace (DecodeRune k).1 = false)
    (hkb : (DecodeRune k).1 ≠ 91) (hkc : ws = [] → (DecodeRune k).1 ≠ 59)
    (hkd : ∀ x ∈ k, x ∉ [60, 61]) (hd : d ∈ [60, 61])
    (hfuel : ir.data.length - ir.pos ≤ fuel) :
    ∃ ir1, ReadLoop (fuel + 1) ir = some ir1 ∧
      ir1.out = ir.out ++ [(if d = 60 then TokKeyList else TokKey, k)] := by
  have hdlt : d < 0x80 := by
    simp only [List.mem_cons, List.mem_singleton, List.not_mem_nil, or_false] at hd
    omega
  have hdec : DecodeRune (k ++ d :: 10 :: rest) = DecodeRune k :=
    DecodeRune_append_ascii k d _ hk hdlt
  obtain ⟨ia, a1, a2, a3, a4⟩ := comment_miss_ws (fuel + 1) ir ws _ hws hdrop
    (fun h => Or.inr (by rw [hdec]; exact hkc h))
  have hdropa : ia.data.drop ia.pos = ws ++ (k ++ d :: 10 :: rest) := by
    rw [a3, a4]; exact hdrop
  obtain ⟨ib, b1, b2, b3, b4⟩ := section_miss (fuel + 1) ia ws _ hws hdropa
    (Or.inr (by rw [hdec]; exact ⟨hksp, hkb⟩))
    (by
      have := drop_length_le _ _ _ hdropa
      simp only [List.length_append] at this
      rcases this with h | h
      · rw [a3, a4] at h; omega
      · simp at h)
  have hdropb : ib.data.drop ib.pos = [] ++ (k ++ d :: 10 :: rest) := by
    rw [b3, b4, ← List.drop_drop, hdropa]
    simp
  obtain ⟨ic, c1, c2⟩ := key_only (fuel + 1) ib [] k rest d (by simp) hdropb hk hksp
    hkd hd (by rw [b3, a3, b4, a4]; omega)
  refine ⟨ic, ?_, ?_⟩
  · simp only [ReadLoop, a1, b1, c1]
  · rw [c2, b2, a2]

end Reader

theorem Read_append_newline (fuel : Nat) (data : Bytes) (h : data.getLast? ≠ some 10) :
    Read fuel data =
      (Reader.ReadLoop fuel { out := [], data := data ++ [10], start := 0, pos := 0,
                              size := 0 }).map (fun ir => ir.out) := by
  have hl : data.length = 0 ∨ data.getLast? ≠ some 10 := Or.inr h
  simp only [Read, hl, if_true]
  cases Reader.ReadLoop fuel { out := [], data := data ++ [10], start := 0, pos := 0,
                               size := 0 } <;> rfl

/-- A buffer that ends after the `=` or `<` of its only line. -/
theorem Read_key_only (fuel : Nat) (k : Bytes) (d : Nat) (hd : d ∈ [60, 61]) (hk : k ≠ [])
    (hkd : ∀ x ∈ k, x ∉ [60, 61]) (hsp : IsSpace (DecodeRune k).1 = false)
    (hb : (DecodeRune k).1 ≠ 91) (hc : (DecodeRune k).1 ≠ 59)
    (hfuel : k.length + 2 < fuel) :
    Read fuel (k ++ [d]) = some [(if d = 60 then TokKeyList else TokKey, k)] := by
  have hlast : (k ++ [d]).getLast? ≠ some 10 := by
    rw [List.getLast?_concat]
    simp only [List.mem_cons, List.mem_singleton, List.not_mem_nil, or_false] at hd
    intro h
    injection h with h
    omega
  rw [Read_append_newline fuel _ hlast]
  obtain ⟨f, rfl⟩ : ∃ f, fuel = f + 1 := ⟨fuel - 1, by omega⟩
  obtain ⟨ir1, h1, h2⟩ := Reader.ReadLoop_key_only f
    { out := [], data := k ++ [d] ++ [10], start := 0, pos := 0, size := 0 } [] k [] d
    (by simp) (by simp) hk hsp hb (fun _ => hc) hkd hd (by simp; omega)
  rw [h1]
  simp [h2]

/-! ## `TrimSpace` -/

theorem trimLeftSpace_suffix : ∀ (n : Nat) (s : Bytes), ∃ pre, s = pre ++ trimLeftSpace n s := by
  intro n
  induction n with
  | zero => intro s; exact ⟨[], rfl⟩
  | succ n ih =>
    intro s
    cases s with
    | nil => exact ⟨[], rfl⟩
    | cons a t =>
      simp only [trimLeftSpace]
      split_ifs with h
      · obtain ⟨pre, hpre⟩ := ih ((a :: t).drop (DecodeRune (a :: t)).2)
        refine ⟨(a :: t).take (DecodeRune (a :: t)).2 ++ pre, ?_⟩
        rw [List.append_assoc, ← hpre, List.take_append_drop]
      · exact ⟨[], rfl⟩

theorem trimLeftSpace_length_le (n : Nat) (s : Bytes) : (trimLeftSpace n s).length ≤ s.length := by
  obtain ⟨pre, h⟩ := trimLeftSpace_suffix n s
  have := congrArg List.length h
  simp at this
  omega

theorem trimRightLen_le : ∀ (n : Nat) (s : Bytes), trimRightLen n s ≤ s.length := by
  intro n
  induction n with
  | zero => intro s; exact Nat.le_refl _
  | succ n ih =>
    intro s
    cases s with
    | nil => simp [trimRightLen]
    | cons a t =>
      simp only [trimRightLen]
      split_ifs with h
      · refine Nat.le_trans (ih _) ?_
        simp
      · exact Nat.le_refl _

/-- A trimmed text is left alone by both halves of `TrimSpace`. -/
theorem TrimSpace_fixed (x : Bytes) (h : TrimSpace x = x) :
    trimLeftSpace x.length x = x ∧ trimRightLen x.length x = x.length := by
  have h1 := trimLeftSpace_length_le x.length x
  have h2 := trimRightLen_le (trimLeftSpace x.length x).length (trimLeftSpace x.length x)
  have h3 := congrArg List.length h
  simp only [TrimSpace, List.length_take] at h3
  obtain ⟨pre, hpre⟩ := trimLeftSpace_suffix x.length x
  have h4 := congrArg List.length hpre
  simp only [List.length_append] at h4
  have hpre0 : pre = [] := List.length_eq_zero.1 (by omega)
  have hl : trimLeftSpace x.length x = x := by
    rw [hpre0] at hpre
    simpa using hpre.symm
  refine ⟨hl, ?_⟩
  rw [hl] at h2 h3
  omega

/-- The first rune of a non-empty trimmed text is not white space. -/
theorem TrimSpace_first (x : Bytes) (h : TrimSpace x = x) (hx : x ≠ []) :
    IsSpace (DecodeRune x).1 = false := by
  have hl := (TrimSpace_fixed x h).1
  cases x with
  | nil => exact absurd rfl hx
  | cons a t =>
    by_contra hsp
    have hsp' : IsSpace (DecodeRune (a :: t)).1 = true := by simpa using hsp
    simp only [List.length_cons, trimLeftSpace, hsp', if_true] at hl
    have h1 := trimLeftSpace_length_le t.length ((a :: t).drop (DecodeRune (a :: t)).2)
    have h2 := DecodeRune_size_pos a t
    have h3 := congrArg List.length hl
    simp only [List.length_drop, List.length_cons] at h1 h3
    omega

theorem DecodeLastRune_space (x : Bytes) : DecodeLastRune (x ++ [32]) = (32, 1) := by
  simp [DecodeLastRune, List.getD_eq_getElem?_getD]

/-- `TrimSpace` removes the space `writeSection` puts after a key. -/
theorem TrimSpace_append_space (x : Bytes) (h : TrimSpace x = x) (hx : x ≠ []) :
    TrimSpace (x ++ [32]) = x := by
  obtain ⟨hl, hr⟩ := TrimSpace_fixed x h
  have hsp := TrimSpace_first x h hx
  have hleft : trimLeftSpace (x ++ [32]).length (x ++ [32]) = x ++ [32] := by
    cases x with
    | nil => exact absurd rfl hx
    | cons a t =>
      have hd : DecodeRune (a :: t ++ [32]) = DecodeRune (a :: t) :=
        DecodeRune_append_ascii (a :: t) 32 [] (by simp) (by omega)
      rw [List.cons_append] at hd
      simp only [List.cons_append, List.length_cons, trimLeftSpace, hd, hsp]
      simp
  have hright : trimRightLen (x ++ [32]).length (x ++ [32]) = x.length := by
    cases x with
    | nil => exact absurd rfl hx
    | cons a t =>
      have hd := DecodeLastRune_space (a :: t)
      rw [List.cons_append] at hd
      simp only [List.cons_append, List.length_cons, List.length_append, List.length_nil,
        trimRightLen, hd]
      have hsp32 : IsSpace 32 = true := by decide
      simp only [hsp32, if_true]
      have : List.take (t.length + 0 + 1 + 1 - 1) (a :: (t ++ [32])) = a :: t := by
        show List.take (t.length + 1) ((a :: t) ++ [32]) = a :: t
        exact List.take_left' (by simp)
      rw [this]
      simpa using hr
  simp only [TrimSpace]
  rw [hleft, hright]
  exact List.take_left' rfl

/-- `TrimSpace` removes the space `writeSection` puts before a value. -/
theorem TrimSpace_cons_space (x : Bytes) (h : TrimSpace x = x) : TrimSpace (32 :: x) = x := by
  have hleft : trimLeftSpace (32 :: x).length (32 :: x) = trimLeftSpace x.length x := by
    have hsp32 : IsSpace 32 = true := by decide
    simp [trimLeftSpace, DecodeRune_ascii 32 x (by omega), hsp32]
  simp only [TrimSpace] at h ⊢
  rw [hleft]
  exact h

/-- A text that does not start with the ASCII byte `c` does not start
with the rune `c` either. -/
theorem first_rune_ne (x : Bytes) (c : Nat) (hc : c < 0x80) (h : x.head? ≠ some c) :
    (DecodeRune x).1 ≠ c := by
  cases x with
  | nil => simp [DecodeRune, RuneError]; omega
  | cons a t =>
    by_cases ha : a < 0x80
    · rw [DecodeRune_ascii a t ha]
      intro e
      have e' : a = c := e
      exact h (by simp [e'])
    · have := DecodeRune_high a t (by omega)
      omega

/-! ## Reading a buffer line by line -/

theorem renderLines_cons (l : Line) (ls : List Line) :
    renderLines (l :: ls) = l.render ++ renderLines ls := by
  simp [renderLines]

theorem tokensOfLines_cons (l : Line) (ls : List Line) :
    tokensOfLines (l :: ls) = l.tokens ++ tokensOfLines ls := by
  simp [tokensOfLines]

/-- The main loop over well-formed lines: from a cursor that stands before
a stretch of ASCII white space followed by the lines, it emits the tokens
of the lines and returns. -/
theorem ReadLoop_lines : ∀ (ls : List Line), (∀ l ∈ ls, l.ok) →
    ∀ (ir : Reader) (ws : Bytes) (fuel : Nat),
      (∀ x ∈ ws, (9 ≤ x ∧ x ≤ 13) ∨ x = 32) →
      ir.data.drop ir.pos = ws ++ renderLines ls →
      ir.data.length - ir.pos < fuel →
      ∃ ir1, Reader.ReadLoop fuel ir = some ir1 ∧ ir1.out = ir.out ++ tokensOfLines ls := by
  intro ls
  induction ls with
  | nil =>
    intro _ ir ws fuel hws hdrop hfuel
    obtain ⟨f, rfl⟩ : ∃ f, fuel = f + 1 := ⟨fuel - 1, by omega⟩
    obtain ⟨ir1, h1, h2⟩ := Reader.ReadLoop_end f ir ws hws (by simpa [renderLines] using hdrop)
      (by omega)
    exact ⟨ir1, h1, by simp [h2, tokensOfLines]⟩
  | cons l ls ih =>
    intro hok ir ws fuel hws hdrop hfuel
    have hokl := hok l (by simp)
    have hokls : ∀ l ∈ ls, l.ok := fun x hx => hok x (by simp [hx])
    rw [renderLines_cons] at hdrop
    rw [tokensOfLines_cons]
    have hlen : ir.pos + (ws ++ (l.render ++ renderLines ls)).length ≤ ir.data.length := by
      rcases Reader.drop_length_le _ _ _ hdrop with h | h
      · exact h
      · cases l <;> simp [Line.render] at h
    simp only [List.length_append] at hlen
    cases l with
    | blank =>
      have hdrop1 : ir.data.drop ir.pos = (ws ++ [10]) ++ renderLines ls := by
        rw [hdrop]
        simp [Line.render]
      obtain ⟨ir1, h1, h2⟩ := ih hokls ir (ws ++ [10]) fuel
        (by
          intro x hx
          rcases List.mem_append.1 hx with h | h
          · exact hws x h
          · simp at h; omega)
        hdrop1 hfuel
      exact ⟨ir1, h1, by simp [h2, Line.tokens]⟩
    | header s =>
      obtain ⟨f, rfl⟩ : ∃ f, fuel = f + 1 := ⟨fuel - 1, by omega⟩
      obtain ⟨hs, hns⟩ := hokl
      have hdrop1 : ir.data.drop ir.pos = ws ++ 91 :: (s ++ 93 :: (10 :: renderLines ls)) := by
        rw [hdrop]
        simp [Line.render]
      obtain ⟨ia, a1, a2, a3, a4⟩ := Reader.ReadLoop_section_line f ir ws s _ hws hdrop1 hs hns
        (by omega)
      simp only [Line.render, List.length_cons, List.length_append, List.length_nil] at hlen
      have hdropa : ia.data.drop ia.pos = [10] ++ renderLines ls := by
        rw [a3, a4]
        have : ir.pos + ws.length + 1 + s.length + 1 = ir.pos + (ws ++ 91 :: (s ++ [93])).length := by
          simp; omega
        rw [this, ← List.drop_drop, hdrop1]
        have : ws ++ 91 :: (s ++ 93 :: 10 :: renderLines ls)
            = (ws ++ 91 :: (s ++ [93])) ++ (10 :: renderLines ls) := by simp
        rw [this, List.drop_left]
        rfl
      obtain ⟨ir1, h1, h2⟩ := ih hokls ia [10] f (by simp) hdropa (by rw [a3, a4]; omega)
      exact ⟨ir1, by rw [a1]; exact h1, by rw [h2, a2]; simp [Line.tokens]⟩
    | kv k d v =>
      obtain ⟨f, rfl⟩ : ∃ f, fuel = f + 1 := ⟨fuel - 1, by omega⟩
      obtain ⟨hk, hksp, hkb, hkc, hkd, hd, hv, hnl⟩ := hokl
      have hdrop1 : ir.data.drop ir.pos = ws ++ (k ++ d :: (v ++ 10 :: renderLines ls)) := by
        rw [hdrop]
        simp [Line.render]
      obtain ⟨ia, a1, a2, a3, a4⟩ := Reader.ReadLoop_key_line f ir ws k v _ d hws hdrop1 hk hksp
        hkb (fun _ => hkc) hkd hd hv hnl (by omega)
      simp only [Line.render, List.length_cons, List.length_append, List.length_nil] at hlen
      have hdropa : ia.data.drop ia.pos = [10] ++ renderLines ls := by
        rw [a3, a4]
        have : ir.pos + ws.length + k.length + 1 + v.length
            = ir.pos + (ws ++ (k ++ d :: v)).length := by
          simp; omega
        rw [this, ← List.drop_drop, hdrop1]
        have : ws ++ (k ++ d :: (v ++ 10 :: renderLines ls))
            = (ws ++ (k ++ d :: v)) ++ (10 :: renderLines ls) := by simp
        rw [this, List.drop_left]
        rfl
      obtain ⟨ir1, h1, h2⟩ := ih hokls ia [10] f (by simp) hdropa (by rw [a3, a4]; omega)
      exact ⟨ir1, by rw [a1]; exact h1, by rw [h2, a2]; simp [Line.tokens]⟩

theorem renderLines_getLast : ∀ (ls : List Line), ls ≠ [] →
    (renderLines ls).getLast? = some 10 := by
  intro ls
  induction ls with
  | nil => intro h; exact absurd rfl h
  | cons l ls ih =>
    intro _
    rw [renderLines_cons]
    by_cases hls : ls = []
    · subst hls
      cases l with
      | blank => simp [renderLines, Line.render]
      | header s =>
        have : Line.render (Line.header s) ++ renderLines [] = (91 :: (s ++ [93])) ++ [10] := by
          simp [renderLines, Line.render]
        rw [this]
        exact List.getLast?_concat _
      | kv k d v =>
        have : Line.render (Line.kv k d v) ++ renderLines [] = (k ++ d :: v) ++ [10] := by
          simp [renderLines, Line.render]
        rw [this]
        exact List.getLast?_concat _
    · have h1 := ih hls
      have hne : renderLines ls ≠ [] := by
        intro h0
        rw [h0] at h1
        simp at h1
      rw [List.getLast?_append_of_ne_nil _ hne]
      exact h1

/-- `Read` on a buffer made of well-formed lines emits their tokens. -/
theorem Read_lines (ls : List Line) (hok : ∀ l ∈ ls, l.ok) (hne : ls ≠ []) (fuel : Nat)
    (hfuel : (renderLines ls).length < fuel) :
    Read fuel (renderLines ls) = some (tokensOfLines ls) := by
  rw [Read_of_newline fuel _ (renderLines_getLast ls hne)]
  obtain ⟨ir1, h1, h2⟩ := ReadLoop_lines ls hok
    { out := [], data := renderLines ls, start := 0, pos := 0, size := 0 } [] fuel (by simp)
    (by simp) (by simpa using hfuel)
  rw [h1]
  simp [h2]

/-! ## The document model -/

namespace GoMap

theorem get_set_self {β : Type} (m : GoMap β) (k : Bytes) (v : β) :
    get (set m k v) k = some v := by
  induction m with
  | nil => simp [set, get]
  | cons e rest ih =>
    obtain ⟨k1, v1⟩ := e
    by_cases h : k1 = k
    · simp [set, get, h]
    · simp [set, get, h, ih]

theorem get_set_other {β : Type} (m : GoMap β) (k k2 : Bytes) (v : β) (h : k2 ≠ k) :
    get (set m k v) k2 = get m k2 := by
  induction m with
  | nil =>
    have h1 : ¬ k = k2 := fun e => h e.symm
    simp [set, get, h1]
  | cons e rest ih =>
    obtain ⟨k1, v1⟩ := e
    by_cases h1 : k1 = k
    · have h2 : ¬ k = k2 := fun e => h e.symm
      have h3 : ¬ k1 = k2 := fun e => h (h1 ▸ e).symm
      simp [set, get, h1, h2]
    · by_cases h2 : k1 = k2
      · subst h2
        simp [set, get, h1]
      · simp [set, get, h1, h2, ih]

end GoMap

namespace File

theorem sectionOf_setKey_self (i : File) (n k : Bytes) (v : Value) :
    (i.setKey n k v).sectionOf n = GoMap.set (i.sectionOf n) k v := by
  simp [setKey, sectionOf, GoMap.get_set_self]

theorem sectionOf_setKey_other (i : File) (n n2 k : Bytes) (v : Value) (h : n2 ≠ n) :
    (i.setKey n k v).sectionOf n2 = i.sectionOf n2 := by
  simp [setKey, sectionOf, GoMap.get_set_other _ _ _ _ h]

/-- An assignment `section[key] = v` changes the value under `key` of
that section and nothing else. -/
theorem get_setKey (i : File) (n k n2 k2 : Bytes) (v : Value) :
    GoMap.get ((i.setKey n k v).sectionOf n2) k2 =
      if n2 = n ∧ k2 = k then some v else GoMap.get (i.sectionOf n2) k2 := by
  by_cases hn : n2 = n
  · subst hn
    rw [sectionOf_setKey_self]
    by_cases hk : k2 = k
    · subst hk
      simp [GoMap.get_set_self]
    · simp [hk, GoMap.get_set_other _ _ _ _ hk]
  · rw [sectionOf_setKey_other _ _ _ _ _ hn]
    simp [hn]

theorem has_setKey (i : File) (n k n2 : Bytes) (v : Value) :
    (i.setKey n k v).has n2 = (i.has n2 || decide (n2 = n)) := by
  by_cases hn : n2 = n
  · subst hn
    simp [setKey, has, GoMap.get_set_self]
  · simp [setKey, has, GoMap.get_set_other _ _ _ _ hn, hn]

/-- The method `Section` changes the contents of no section: the one it
may add is empty. -/
theorem sectionOf_Section (i : File) (n n2 : Bytes) :
    (i.Section n).1.sectionOf n2 = i.sectionOf n2 := by
  unfold Section
  cases h : GoMap.get i.Sections n with
  | some s => rfl
  | none =>
    by_cases hn : n2 = n
    · subst hn
      simp [sectionOf, GoMap.get_set_self, h]
    · simp [sectionOf, GoMap.get_set_other _ _ _ _ hn]

theorem has_Section (i : File) (n n2 : Bytes) :
    (i.Section n).1.has n2 = (i.has n2 || decide (n2 = n)) := by
  unfold Section
  cases h : GoMap.get i.Sections n with
  | some s =>
    by_cases hn : n2 = n
    · subst hn
      simp [has, h]
    · simp [has, hn]
  | none =>
    by_cases hn : n2 = n
    · subst hn
      simp [has, GoMap.get_set_self]
    · simp [has, GoMap.get_set_other _ _ _ _ hn, hn]

theorem Section_snd (i : File) (n : Bytes) : (i.Section n).2 = i.sectionOf n := by
  unfold Section sectionOf
  cases h : GoMap.get i.Sections n <;> rfl

end File

/-- The method `Section` on a document whose map is allocated.  If the
name is present, the stored section is returned and the document is
unchanged.  If it is absent, the section returned is empty, the document
maps the name to it afterwards, and every other name is mapped as before.
A second call returns the same section as the first and leaves the
document as the first call left it. -/
theorem Section_allocated (d : File) (n : Bytes) :
    (∀ s, GoMap.get d.Sections n = some s → d.Section n = (d, s)) ∧
    (GoMap.get d.Sections n = none →
      (d.Section n).2 = [] ∧ GoMap.get (d.Section n).1.Sections n = some [] ∧
      ∀ m, m ≠ n → GoMap.get (d.Section n).1.Sections m = GoMap.get d.Sections m) ∧
    (d.Section n).1.Section n = ((d.Section n).1, (d.Section n).2) := by
  refine ⟨?_, ?_, ?_⟩
  · intro s h
    simp [File.Section, h]
  · intro h
    refine ⟨by simp [File.Section, h], by simp [File.Section, h, GoMap.get_set_self], ?_⟩
    intro m hm
    simp [File.Section, h, GoMap.get_set_other _ _ _ _ hm]
  · cases h : GoMap.get d.Sections n with
    | some s => simp [File.Section, h]
    | none => simp [File.Section, h, GoMap.get_set_self]

/-- The method `Section` on a value whose map is allocated is the method
on the document. -/
theorem GoFile.Section_toGo (d : File) (n : Bytes) :
    d.toGo.Section n = some ((d.Section n).1.toGo, (d.Section n).2) := by
  cases h : GoMap.get d.Sections n with
  | some s => simp [GoFile.Section, File.toGo, File.Section, h]
  | none => simp [GoFile.Section, File.toGo, File.Section, h]

/-- The method `Section` panics on a value whose map is `nil`, whatever
the name. -/
theorem GoFile.Section_nil (n : Bytes) : GoFile.Section { Sections := none } n = none := rfl

/-- C6 as stated fails for the zero value of the type `File`, whose map
`Sections` is `nil`: the call `Section("")` panics. -/
theorem Section_nil_counterexample : GoFile.Section { Sections := none } [] = none := rfl

/-- C6 (section get-or-create), for the values whose map is allocated.
For every value `d` of the type `File` whose map `Sections` is allocated,
as `New` makes it, and every name `n`, the empty name included, the call
`Section(n)` does not panic.  If the name is present, the stored section
is returned and `d` is unchanged.  If it is absent, the section returned
is empty, the map of the value afterwards is allocated and maps the name
to it, and every other name is mapped as before.  A second call returns
the same section as the first and leaves the value as the first call left
it.  The call is the method `File.Section` of the documents. -/
theorem Section_get_or_create (d : GoFile) (m : GoMap Section) (hm : d.Sections = some m)
    (n : Bytes) :
    ∃ d1 s, d.Section n = some (d1, s) ∧
      (∀ s0, GoMap.get m n = some s0 → d1 = d ∧ s = s0) ∧
      (GoMap.get m n = none →
        s = [] ∧ ∃ m1, d1.Sections = some m1 ∧ GoMap.get m1 n = some [] ∧
          ∀ k, k ≠ n → GoMap.get m1 k = GoMap.get m k) ∧
      d1.Section n = some (d1, s) ∧
      d1 = (File.Section { Sections := m } n).1.toGo ∧
      s = (File.Section { Sections := m } n).2 := by
  obtain ⟨ms⟩ := d
  simp only at hm
  subst hm
  have hgo := GoFile.Section_toGo { Sections := m } n
  have hal := Section_allocated { Sections := m } n
  refine ⟨_, _, hgo, ?_, ?_, ?_, rfl, rfl⟩
  · intro s0 h0
    have := hal.1 s0 h0
    rw [this]
    exact ⟨rfl, rfl⟩
  · intro h0
    obtain ⟨g1, g2, g3⟩ := hal.2.1 h0
    exact ⟨g1, _, rfl, g2, g3⟩
  · rw [GoFile.Section_toGo, hal.2.2]

/-- The global section of a new document, asked for twice. -/
theorem Section_get_or_create_witness :
    ∃ d1 s, New.toGo.Section [] = some (d1, s) ∧
      (∀ s0, GoMap.get New.Sections [] = some s0 → d1 = New.toGo ∧ s = s0) ∧
      (GoMap.get New.Sections [] = none →
        s = [] ∧ ∃ m1, d1.Sections = some m1 ∧ GoMap.get m1 [] = some [] ∧
          ∀ k, k ≠ [] → GoMap.get m1 k = GoMap.get New.Sections k) ∧
      d1.Section [] = some (d1, s) ∧
      d1 = (File.Section { Sections := New.Sections } []).1.toGo ∧
      s = (File.Section { Sections := New.Sections } []).2 :=
  Section_get_or_create New.toGo New.Sections rfl []


/-! ## The token handler of `Load` -/

namespace LoadState

theorem handle_TokSection (st : LoadState) (v : Bytes) :
    st.handle (TokSection, v) =
      { i := (st.i.Section (TrimSpace v)).1, sectionName := TrimSpace v, key := [] } := by
  cases hk : st.key with
  | nil => simp [handle, hk]
  | cons a t => simp [handle, hk]

theorem handle_TokKey (st : LoadState) (v : Bytes) :
    st.handle (TokKey, v) =
      { st with key := TrimSpace v,
                i := st.i.setKey st.sectionName (TrimSpace v) (Value.str []) } := rfl

/-- What the section named `s` holds under `k` after one token. -/
theorem get_handle (st : LoadState) (tok : Token) (s k : Bytes) :
    GoMap.get ((st.handle tok).i.sectionOf s) k =
      match tok.1 with
      | TokSection => GoMap.get (st.i.sectionOf s) k
      | TokKey =>
        if st.sectionName = s ∧ TrimSpace tok.2 = k then some (Value.str [])
        else GoMap.get (st.i.sectionOf s) k
      | TokKeyList =>
        if st.sectionName = s ∧ TrimSpace tok.2 = k then
          match GoMap.get (st.i.sectionOf s) k with
          | none => some (Value.list [])
          | some x => some x
        else GoMap.get (st.i.sectionOf s) k
      | TokValue =>
        if st.sectionName = s ∧ st.key = k ∧ k ≠ [] then
          match GoMap.get (st.i.sectionOf s) k with
          | some (Value.list l) => some (Value.list (l ++ [TrimSpace tok.2]))
          | _ => some (Value.str (TrimSpace tok.2))
        else GoMap.get (st.i.sectionOf s) k := by
  obtain ⟨tt, v⟩ := tok
  cases tt with
  | TokSection =>
    rw [handle_TokSection]
    simp [File.sectionOf_Section]
  | TokKey =>
    rw [handle_TokKey]
    simp only [File.get_setKey]
    by_cases h : s = st.sectionName ∧ k = TrimSpace v
    · obtain ⟨h1, h2⟩ := h
      subst h1 h2
      simp
    · have h' : ¬ (st.sectionName = s ∧ TrimSpace v = k) := fun ⟨a, b⟩ => h ⟨a.symm, b.symm⟩
      simp [h, h']
  | TokKeyList =>
    by_cases h : st.sectionName = s ∧ TrimSpace v = k
    · obtain ⟨h1, h2⟩ := h
      subst h1 h2
      simp only [handle]
      cases hg : GoMap.get (st.i.sectionOf st.sectionName) (TrimSpace v) with
      | none => simp [File.get_setKey]
      | some x => simp [hg]
    · have h' : ¬ (s = st.sectionName ∧ k = TrimSpace v) := fun ⟨a, b⟩ => h ⟨a.symm, b.symm⟩
      simp only [handle]
      cases hg : GoMap.get (st.i.sectionOf st.sectionName) (TrimSpace v) with
      | none => simp [File.get_setKey, h, h']
      | some x => simp [h]
  | TokValue =>
    simp only [handle]
    cases hk : st.key with
    | nil =>
      have h : ¬ (st.sectionName = s ∧ [] = k ∧ k ≠ []) := fun ⟨_, b, c⟩ => c b.symm
      simp [h]
    | cons a t =>
      by_cases h : st.sectionName = s ∧ a :: t = k
      · obtain ⟨h1, h2⟩ := h
        subst h1 h2
        simp only [List.length_cons, gt_iff_lt, Nat.zero_lt_succ, if_true]
        cases hg : GoMap.get (st.i.sectionOf st.sectionName) (a :: t) with
        | none => simp [File.get_setKey]
        | some x =>
          cases x with
          | str x => simp [File.get_setKey]
          | list l => simp [File.get_setKey]
      · have h' : ¬ (s = st.sectionName ∧ k = a :: t) := fun ⟨a, b⟩ => h ⟨a.symm, b.symm⟩
        have h'' : ¬ (st.sectionName = s ∧ a :: t = k ∧ k ≠ []) := fun ⟨a, b, _⟩ => h ⟨a, b⟩
        simp only [List.length_cons, gt_iff_lt, Nat.zero_lt_succ, if_true]
        cases hg : GoMap.get (st.i.sectionOf st.sectionName) (a :: t) with
        | none => simp [File.get_setKey, h', h'']
        | some x =>
          cases x with
          | str x => simp [File.get_setKey, h', h'']
          | list l => simp [File.get_setKey, h', h'']

theorem sectionName_handle (st : LoadState) (tok : Token) :
    (st.handle tok).sectionName =
      if tok.1 = TokSection then TrimSpace tok.2 else st.sectionName := by
  obtain ⟨tt, v⟩ := tok
  cases tt with
  | TokSection => simp [handle_TokSection]
  | TokKey => simp [handle_TokKey]
  | TokKeyList =>
    simp only [handle]
    cases GoMap.get (st.i.sectionOf st.sectionName) (TrimSpace v) <;> simp
  | TokValue =>
    simp only [handle]
    cases hk : st.key with
    | nil => simp
    | cons a t =>
      simp only [List.length_cons, gt_iff_lt, Nat.zero_lt_succ, if_true]
      split <;> simp

theorem key_handle (st : LoadState) (tok : Token) :
    (st.handle tok).key =
      match tok.1 with
      | TokSection => []
      | TokKey => TrimSpace tok.2
      | TokKeyList => TrimSpace tok.2
      | TokValue => [] := by
  obtain ⟨tt, v⟩ := tok
  cases tt with
  | TokSection => simp [handle_TokSection]
  | TokKey => simp [handle_TokKey]
  | TokKeyList =>
    simp only [handle]
    cases GoMap.get (st.i.sectionOf st.sectionName) (TrimSpace v) <;> simp
  | TokValue =>
    simp only [handle]
    cases hk : st.key with
    | nil => simp [hk]
    | cons a t =>
      simp only [List.length_cons, gt_iff_lt, Nat.zero_lt_succ, if_true]
      split <;> simp

theorem has_handle (st : LoadState) (tok : Token) (s : Bytes) (h : st.i.has s = true) :
    (st.handle tok).i.has s = true := by
  obtain ⟨tt, v⟩ := tok
  cases tt with
  | TokSection => simp [handle_TokSection, File.has_Section, h]
  | TokKey => simp [handle_TokKey, File.has_setKey, h]
  | TokKeyList =>
    simp only [handle]
    cases GoMap.get (st.i.sectionOf st.sectionName) (TrimSpace v) <;>
      simp [File.has_setKey, h]
  | TokValue =>
    simp only [handle]
    split_ifs
    · split <;> simp [File.has_setKey, h]
    · exact h

end LoadState

/-! ## Folding the handler over a token stream -/

theorem foldl_has (s : Bytes) : ∀ (toks : List Token) (st : LoadState), st.i.has s = true →
    (toks.foldl LoadState.handle st).i.has s = true := by
  intro toks
  induction toks with
  | nil => intro st h; exact h
  | cons t ts ih =>
    intro st h
    exact ih _ (LoadState.has_handle st t s h)

theorem get_handle_isSome (st : LoadState) (tok : Token) (s k : Bytes)
    (h : (GoMap.get (st.i.sectionOf s) k).isSome = true) :
    (GoMap.get ((st.handle tok).i.sectionOf s) k).isSome = true := by
  rw [LoadState.get_handle]
  obtain ⟨tt, v⟩ := tok
  cases hg : GoMap.get (st.i.sectionOf s) k with
  | none => rw [hg] at h; exact absurd h (by simp)
  | some x =>
    cases tt with
    | TokSection => simp
    | TokKey =>
      simp only
      split_ifs <;> simp
    | TokKeyList =>
      simp only
      split_ifs <;> simp
    | TokValue =>
      simp only
      split_ifs
      · cases x <;> simp
      · simp

theorem foldl_isSome (s k : Bytes) : ∀ (toks : List Token) (st : LoadState),
    (GoMap.get (st.i.sectionOf s) k).isSome = true →
    (GoMap.get ((toks.foldl LoadState.handle st).i.sectionOf s) k).isSome = true := by
  intro toks
  induction toks with
  | nil => intro st h; exact h
  | cons t ts ih =>
    intro st h
    exact ih _ (get_handle_isSome st t s k h)

/-- A pair of section and key for which the stream has no key line, and
which is not the pending key, keeps its value. -/
theorem foldl_frame (s k : Bytes) : ∀ (toks : List Token) (st : LoadState),
    linesFor s k st.sectionName toks = [] →
    (st.sectionName = s → st.key = k → k = []) →
    GoMap.get ((toks.foldl LoadState.handle st).i.sectionOf s) k =
      GoMap.get (st.i.sectionOf s) k := by
  intro toks
  induction toks with
  | nil => intro st _ _; rfl
  | cons t ts ih =>
    intro st hL hpend
    obtain ⟨tt, v⟩ := t
    rw [List.foldl_cons]
    cases tt with
    | TokSection =>
      simp only [linesFor] at hL
      rw [ih (st.handle (TokSection, v))
        (by rw [LoadState.sectionName_handle]; simpa using hL)
        (by intro _ h; rw [LoadState.key_handle] at h; exact h.symm)]
      rw [LoadState.get_handle]
    | TokKey =>
      simp only [linesFor] at hL
      by_cases hc : st.sectionName = s ∧ TrimSpace v = k
      · simp [hc] at hL
      · simp only [hc, if_false] at hL
        rw [ih (st.handle (TokKey, v))
          (by rw [LoadState.sectionName_handle]; simpa using hL)
          (by
            intro h1 h2
            rw [LoadState.sectionName_handle] at h1
            rw [LoadState.key_handle] at h2
            exact absurd ⟨by simpa using h1, h2⟩ hc)]
        rw [LoadState.get_handle]
        simp [hc]
    | TokKeyList =>
      simp only [linesFor] at hL
      by_cases hc : st.sectionName = s ∧ TrimSpace v = k
      · simp [hc] at hL
      · simp only [hc, if_false] at hL
        rw [ih (st.handle (TokKeyList, v))
          (by rw [LoadState.sectionName_handle]; simpa using hL)
          (by
            intro h1 h2
            rw [LoadState.sectionName_handle] at h1
            rw [LoadState.key_handle] at h2
            exact absurd ⟨by simpa using h1, h2⟩ hc)]
        rw [LoadState.get_handle]
        simp [hc]
    | TokValue =>
      simp only [linesFor] at hL
      rw [ih (st.handle (TokValue, v))
        (by rw [LoadState.sectionName_handle]; simpa using hL)
        (by intro _ h; rw [LoadState.key_handle] at h; exact h.symm)]
      rw [LoadState.get_handle]
      have hc : ¬ (st.sectionName = s ∧ st.key = k ∧ k ≠ []) :=
        fun ⟨a, b, c⟩ => c (hpend a b)
      simp [hc]

/-- The tag a pair of section and key ends with, from the tag it starts
with and the forms of its key lines: a `=` line anywhere makes it a
scalar; otherwise a scalar stays one and anything else becomes a list. -/
theorem foldl_tag (s k : Bytes) : ∀ (toks : List Token) (st : LoadState),
    (st.sectionName = s → st.key = k → k ≠ [] → GoMap.get (st.i.sectionOf s) k ≠ none) →
    tagOf (GoMap.get ((toks.foldl LoadState.handle st).i.sectionOf s) k) =
      if TokKey ∈ linesFor s k st.sectionName toks then some Tag.Scalar
      else if linesFor s k st.sectionName toks = [] then tagOf (GoMap.get (st.i.sectionOf s) k)
      else if tagOf (GoMap.get (st.i.sectionOf s) k) = some Tag.Scalar then some Tag.Scalar
      else some Tag.List := by
  intro toks
  induction toks with
  | nil => intro st _; simp [linesFor]
  | cons t ts ih =>
    intro st hpend
    obtain ⟨tt, v⟩ := t
    rw [List.foldl_cons]
    cases tt with
    | TokSection =>
      rw [ih (st.handle (TokSection, v))
        (by intro _ h hk; rw [LoadState.key_handle] at h; exact absurd h.symm hk)]
      simp [LoadState.sectionName_handle, LoadState.get_handle, linesFor]
    | TokKey =>
      by_cases hc : st.sectionName = s ∧ TrimSpace v = k
      · rw [ih (st.handle (TokKey, v))
          (by intro _ _ _; rw [LoadState.get_handle]; simp [hc])]
        simp [LoadState.sectionName_handle, LoadState.get_handle, linesFor, hc, tagOf]
      · rw [ih (st.handle (TokKey, v))
          (by
            intro h1 h2
            rw [LoadState.sectionName_handle] at h1
            rw [LoadState.key_handle] at h2
            exact absurd ⟨by simpa using h1, h2⟩ hc)]
        simp [LoadState.sectionName_handle, LoadState.get_handle, linesFor, hc]
    | TokKeyList =>
      by_cases hc : st.sectionName = s ∧ TrimSpace v = k
      · rw [ih (st.handle (TokKeyList, v))
          (by
            intro _ _ _
            rw [LoadState.get_handle]
            simp only [hc, and_self, if_true]
            cases GoMap.get (st.i.sectionOf s) k <;> simp)]
        simp only [LoadState.sectionName_handle, LoadState.get_handle, linesFor, hc, and_self,
          if_true, if_false, List.mem_cons, false_or, reduceCtorEq]
        cases hg : GoMap.get (st.i.sectionOf s) k with
        | none => simp [tagOf]
        | some x => cases x <;> simp [tagOf]
      · rw [ih (st.handle (TokKeyList, v))
          (by
            intro h1 h2
            rw [LoadState.sectionName_handle] at h1
            rw [LoadState.key_handle] at h2
            exact absurd ⟨by simpa using h1, h2⟩ hc)]
        simp [LoadState.sectionName_handle, LoadState.get_handle, linesFor, hc]
    | TokValue =>
      rw [ih (st.handle (TokValue, v))
        (by intro _ h hk; rw [LoadState.key_handle] at h; exact absurd h.symm hk)]
      simp only [LoadState.sectionName_handle, LoadState.get_handle, linesFor, if_false,
        reduceCtorEq]
      by_cases hc : st.sectionName = s ∧ st.key = k ∧ k ≠ []
      · have hne := hpend hc.1 hc.2.1 hc.2.2
        simp only [hc, and_self, if_true, ne_eq, not_false_eq_true]
        cases hg : GoMap.get (st.i.sectionOf s) k with
        | none => exact absurd hg hne
        | some x => cases x <;> simp [tagOf]
      · simp only [hc, if_false]

/-! ## Loading into a document -/

theorem Load_eq (fuel : Nat) (d : File) (data : Bytes) (toks : List Token)
    (h : Read fuel data = some toks) :
    d.Load fuel data = some (toks.foldl LoadState.handle (LoadState.init d)).i := by
  simp [File.Load, h]

/-- C7 (load merges and never clears).  When loading `data` into `d`
returns `d1`, with `toks` the tokens the reader emits: every section of
`d` is a section of `d1`; every key present in a section of `d` is present
in that section of `d1`; and every pair of a section name `s` and a key
`k` for which `toks` holds no Key or KeyList token of trimmed name `k`
emitted while `s` is current has in `d1` exactly the value it has in `d`. -/
theorem Load_merges (d : File) (data : Bytes) (fuel : Nat) (toks : List Token) (d1 : File)
    (hread : Read fuel data = some toks) (hload : d.Load fuel data = some d1) :
    (∀ s, d.has s = true → d1.has s = true) ∧
    (∀ s k, (GoMap.get (d.sectionOf s) k).isSome = true →
      (GoMap.get (d1.sectionOf s) k).isSome = true) ∧
    (∀ s k, linesFor s k [] toks = [] →
      GoMap.get (d1.sectionOf s) k = GoMap.get (d.sectionOf s) k) := by
  rw [Load_eq fuel d data toks hread] at hload
  injection hload with hload
  subst hload
  refine ⟨?_, ?_, ?_⟩
  · intro s hs
    apply foldl_has
    simp [LoadState.init, File.has_Section, hs]
  · intro s k hk
    apply foldl_isSome
    simpa [LoadState.init, File.sectionOf_Section] using hk
  · intro s k hL
    rw [foldl_frame s k toks (LoadState.init d) hL (fun _ h => h.symm)]
    simp [LoadState.init, File.sectionOf_Section]

/-- Loading `a = 2` into a document that holds `a = 1` and `b = 3` in its
global section and `k = v` in section `s`. -/
theorem Load_merges_witness :
    (∀ s, File.has { Sections := [([], [([97], Value.str [49]), ([98], Value.str [51])]),
        ([115], [([107], Value.str [118])])] } s = true →
      File.has { Sections := [([], [([97], Value.str [50]), ([98], Value.str [51])]),
        ([115], [([107], Value.str [118])])] } s = true) ∧
    (∀ s k, (GoMap.get (File.sectionOf { Sections := [([], [([97], Value.str [49]),
        ([98], Value.str [51])]), ([115], [([107], Value.str [118])])] } s) k).isSome = true →
      (GoMap.get (File.sectionOf { Sections := [([], [([97], Value.str [50]),
        ([98], Value.str [51])]), ([115], [([107], Value.str [118])])] } s) k).isSome = true) ∧
    (∀ s k, linesFor s k [] [(TokKey, [97]), (TokValue, [50])] = [] →
      GoMap.get (File.sectionOf { Sections := [([], [([97], Value.str [50]),
        ([98], Value.str [51])]), ([115], [([107], Value.str [118])])] } s) k =
      GoMap.get (File.sectionOf { Sections := [([], [([97], Value.str [49]),
        ([98], Value.str [51])]), ([115], [([107], Value.str [118])])] } s) k) :=
  Load_merges
    { Sections := [([], [([97], Value.str [49]), ([98], Value.str [51])]),
        ([115], [([107], Value.str [118])])] }
    [97, 61, 50, 10] 10 [(TokKey, [97]), (TokValue, [50])]
    { Sections := [([], [([97], Value.str [50]), ([98], Value.str [51])]),
        ([115], [([107], Value.str [118])])] }
    (by decide) (by decide)

/-- C8 (key without value).  Handling a `Key(name)` token leaves the
empty scalar string under the trimmed name in the current section,
whatever was held there before.  So a key line for which no `Value` token
arrives is visible with value `""`: for a key text `k` that is not empty,
holds no `<` or `=` and starts with a rune that is neither white space
nor `[` nor `;`, `Read` on the input `k=` emits the one token `Key(k)`,
and loading that input into a new document returns a document whose
global section maps the trimmed `k` to `""`. -/
theorem Key_without_value (st : LoadState) (name k : Bytes) (fuel : Nat)
    (hk : k ≠ []) (h60 : 60 ∉ k) (h61 : 61 ∉ k)
    (hsp : IsSpace (DecodeRune k).1 = false) (hb : (DecodeRune k).1 ≠ 91)
    (hc : (DecodeRune k).1 ≠ 59) (hfuel : k.length + 2 < fuel) :
    GoMap.get ((st.handle (TokKey, name)).i.sectionOf st.sectionName) (TrimSpace name) =
      some (Value.str []) ∧
    Read fuel (k ++ [61]) = some [(TokKey, k)] ∧
    ∃ d1, New.Load fuel (k ++ [61]) = some d1 ∧
      GoMap.get (d1.sectionOf []) (TrimSpace k) = some (Value.str []) := by
  have hkd : ∀ x ∈ k, x ∉ [60, 61] := by
    intro x hx hm
    simp only [List.mem_cons, List.mem_singleton, List.not_mem_nil, or_false] at hm
    rcases hm with rfl | rfl
    · exact h60 hx
    · exact h61 hx
  have hread : Read fuel (k ++ [61]) = some [(TokKey, k)] := by
    have := Read_key_only fuel k 61 (by simp) hk hkd hsp hb hc hfuel
    simpa using this
  refine ⟨?_, hread, _, Load_eq fuel New _ _ hread, ?_⟩
  · rw [LoadState.get_handle]
    simp
  · simp only [List.foldl_cons, List.foldl_nil]
    rw [LoadState.get_handle]
    simp [LoadState.init]

/-- The input `k=` loaded into a new document. -/
theorem Key_without_value_witness :
    ∃ d1, New.Load 4 [107, 61] = some d1 ∧
      GoMap.get (d1.sectionOf []) (TrimSpace [107]) = some (Value.str []) :=
  (Key_without_value (LoadState.init New) [107] [107] 4 (by decide) (by decide) (by decide)
    (by decide) (by decide) (by decide) (by decide)).2.2

/-- C9 as stated fails: in the input `k<a`, `k=b` the first line for `k`
uses `<`, and the loaded key holds the scalar `b`, not a list. -/
theorem Load_first_form_counterexample :
    Read 10 [107, 60, 97, 10, 107, 61, 98, 10] =
      some [(TokKeyList, [107]), (TokValue, [97]), (TokKey, [107]), (TokValue, [98])] ∧
    (linesFor [] [107] []
      [(TokKeyList, [107]), (TokValue, [97]), (TokKey, [107]), (TokValue, [98])]).head? =
      some TokKeyList ∧
    New.Load 10 [107, 60, 97, 10, 107, 61, 98, 10] =
      some { Sections := [([], [([107], Value.str [98])])] } := by
  decide

/-- C9, amended.  When loading `data` into a new document returns `d1`,
with `toks` the tokens the reader emits, the tag of what section `s` holds
under key `k` in `d1` is fixed by the forms of the key lines for `k` in
`s`: a scalar if any of them uses `=`, a list if there are such lines and
all of them use `<`, and the key is absent if there is no such line. -/
theorem Load_value_tag (data : Bytes) (fuel : Nat) (toks : List Token) (d1 : File)
    (hread : Read fuel data = some toks) (hload : New.Load fuel data = some d1)
    (s k : Bytes) :
    tagOf (GoMap.get (d1.sectionOf s) k) =
      if TokKey ∈ linesFor s k [] toks then some Tag.Scalar
      else if linesFor s k [] toks = [] then none
      else some Tag.List := by
  rw [Load_eq fuel New data toks hread] at hload
  injection hload with hload
  subst hload
  have hinit : GoMap.get ((LoadState.init New).i.sectionOf s) k = none := by
    simp only [LoadState.init, File.sectionOf_Section]
    rfl
  rw [foldl_tag s k toks (LoadState.init New) (fun _ h hk => absurd h.symm hk), hinit]
  simp [LoadState.init, tagOf]

/-- The input `k=a`, `k<b`: one of the lines for `k` uses `=`, and the
loaded key is a scalar. -/
theorem Load_value_tag_witness :
    tagOf (GoMap.get (File.sectionOf { Sections := [([], [([107], Value.str [98])])] } [])
      [107]) =
      if TokKey ∈ linesFor [] [107] []
          [(TokKey, [107]), (TokValue, [97]), (TokKeyList, [107]), (TokValue, [98])]
      then some Tag.Scalar
      else if linesFor [] [107] []
          [(TokKey, [107]), (TokValue, [97]), (TokKeyList, [107]), (TokValue, [98])] = []
      then none
      else some Tag.List :=
  Load_value_tag [107, 61, 97, 10, 107, 60, 98, 10] 10
    [(TokKey, [107]), (TokValue, [97]), (TokKeyList, [107]), (TokValue, [98])]
    { Sections := [([], [([107], Value.str [98])])] } (by decide) (by decide) [] [107]

/-- C10 as stated fails: a `KeyList(k)` token handled while the scalar
`a` is held under `k` in the current section leaves that scalar in place,
and the input `k=a`, `k<b` loads as the scalar `b`, not as a list. -/
theorem KeyList_scalar_counterexample :
    GoMap.get ((LoadState.handle
        { i := { Sections := [([], [([107], Value.str [97])])] }, sectionName := [], key := [] }
        (TokKeyList, [107])).i.sectionOf []) [107] = some (Value.str [97]) ∧
    New.Load 10 [107, 61, 97, 10, 107, 60, 98, 10] =
      some { Sections := [([], [([107], Value.str [98])])] } := by
  decide

/-- C10, amended.  After a `KeyList(name)` token is handled, the pending
key is the trimmed name, the current section is the same, and it holds
under the trimmed name: an empty list when the key was absent, and what
it held before otherwise, be it a list or a scalar.  So when a key with a
non-empty trimmed name is written first with `=` and then with `<`, it
ends as a scalar holding the trimmed `<` value. -/
theorem KeyList_reconciliation (st : LoadState) (name : Bytes) :
    (st.handle (TokKeyList, name)).key = TrimSpace name ∧
    (st.handle (TokKeyList, name)).sectionName = st.sectionName ∧
    GoMap.get ((st.handle (TokKeyList, name)).i.sectionOf st.sectionName) (TrimSpace name) =
      (match GoMap.get (st.i.sectionOf st.sectionName) (TrimSpace name) with
       | none => some (Value.list [])
       | some x => some x) ∧
    ∀ a b : Bytes, TrimSpace name ≠ [] →
      GoMap.get (((((st.handle (TokKey, name)).handle (TokValue, a)).handle
        (TokKeyList, name)).handle (TokValue, b)).i.sectionOf st.sectionName) (TrimSpace name) =
        some (Value.str (TrimSpace b)) := by
  refine ⟨?_, ?_, ?_, ?_⟩
  · rw [LoadState.key_handle]
  · rw [LoadState.sectionName_handle]
    simp
  · rw [LoadState.get_handle]
    simp
  · intro a b hne
    simp only [LoadState.get_handle, LoadState.sectionName_handle, LoadState.key_handle]
    simp [hne]

/-- The key `k` written as `k=a` and then as `k<b`, from the start state
of a load into a new document. -/
theorem KeyList_reconciliation_witness :
    GoMap.get ((((((LoadState.init New).handle (TokKey, [107])).handle (TokValue, [97])).handle
        (TokKeyList, [107])).handle (TokValue, [98])).i.sectionOf (LoadState.init New).sectionName)
        (TrimSpace [107]) = some (Value.str (TrimSpace [98])) :=
  (KeyList_reconciliation (LoadState.init New) [107]).2.2.2 [97] [98] (by decide)

/-! ## Comment lines -/

namespace Reader

/-- At the end of input the loop of `comment` never ends: `acceptUntil`
returns false and `skip` does nothing, whatever the fuel. -/
theorem commentLoop_eof : ∀ (fuel : Nat) (ir : Reader), ir.data.length ≤ ir.pos →
    commentLoop fuel ir = none := by
  intro fuel
  induction fuel with
  | zero => intro ir _; rfl
  | succ f ih =>
    intro ir h
    have h1 : ir.acceptUntil (f + 1) 10 = some (ir, false) := by
      simp [acceptUntil, acceptUntilLoop, next_eof ir h]
    have h2 : ir.skip = ir.ignore := by
      simp [skip, next_eof ir h]
    simp only [commentLoop, h1, h2]
    exact ih ir.ignore h

/-- A comment line with an empty body that ends the input: `comment`
does not return. -/
theorem comment_empty_eof (fuel : Nat) (ir : Reader)
    (hdrop : ir.data.drop ir.pos = [59, 10]) : ir.comment fuel = none := by
  have hlen : ir.pos + 2 = ir.data.length := by
    have := congrArg List.length hdrop
    simp at this
    omega
  have h1 := accept_hit 59 (by omega) ir [10] hdrop
  have hloop : commentLoop fuel { ir with size := 1, pos := ir.pos + 1 } = none := by
    cases fuel with
    | zero => rfl
    | succ f =>
      have hdrop1 : List.drop (ir.pos + 1) ir.data = [] ++ 10 :: [] := by
        rw [← List.drop_drop, hdrop]
        rfl
      have h2 := acceptUntil_find 10 (by omega) [] []
        { ir with size := 1, pos := ir.pos + 1 } (f + 1) (by simp) hdrop1 (by simp)
      simp only [commentLoop, h2, List.length_nil, Nat.lt_irrefl, decide_False]
      apply commentLoop_eof
      have hn := next_some { ir with size := 1, pos := ir.pos + 1 } 10 []
        (by simpa using hdrop1)
      rw [DecodeRune_ascii 10 [] (by omega)] at hn
      simp only [List.length_nil, Nat.add_zero, skip, hn, ignore]
      show ir.data.length ≤ ir.pos + 1 + 1
      omega
  simp [comment, h1, hloop]

end Reader

/-- C5 fails on the code: on the input `;` (a comment line with an empty
body, the line feed being the one `Read` appends) `Read` returns for no
amount of fuel, that is, the loop of `comment` runs forever. -/
theorem Read_empty_comment_diverges (fuel : Nat) : Read fuel [59] = none := by
  cases fuel with
  | zero => rfl
  | succ f =>
    have h := Reader.comment_empty_eof (f + 1)
      { out := [], data := [59, 10], start := 0, pos := 0, size := 0 } rfl
    simp only [Read]
    simp [Reader.ReadLoop, h]

/-- C4 fails on the code.  A comment line after a key line is not
skipped: in `a=b`, `;x`, `c=d` the comment becomes part of the next key,
while `a=b`, `c=d` gives the key `c`.  A comment line with an empty body
swallows the line after it: `;`, `a=b` gives no token, while `a=b` gives
two. -/
theorem Read_comment_not_skipped :
    Read 20 ([97, 61, 98, 10] ++ [59] ++ [120] ++ [10] ++ [99, 61, 100, 10]) =
      some [(TokKey, [97]), (TokValue, [98]), (TokKey, [59, 120, 10, 99]), (TokValue, [100])] ∧
    Read 20 ([97, 61, 98, 10] ++ [99, 61, 100, 10]) =
      some [(TokKey, [97]), (TokValue, [98]), (TokKey, [99]), (TokValue, [100])] ∧
    Read 20 ([97, 61, 98, 10] ++ [59] ++ [120] ++ [10] ++ [99, 61, 100, 10]) ≠
      Read 20 ([97, 61, 98, 10] ++ [99, 61, 100, 10]) ∧
    Read 20 ([] ++ [59] ++ [] ++ [10] ++ [97, 61, 98, 10]) = some [] ∧
    Read 20 ([] ++ [97, 61, 98, 10]) = some [(TokKey, [97]), (TokValue, [98])] ∧
    Read 20 ([] ++ [59] ++ [] ++ [10] ++ [97, 61, 98, 10]) ≠ Read 20 ([] ++ [97, 61, 98, 10]) := by
  decide

/-! ## The tokens of saved text, folded -/

theorem foldl_sectionName (toks : List Token) (h : ∀ t ∈ toks, t.1 ≠ TokSection) :
    ∀ st : LoadState, (toks.foldl LoadState.handle st).sectionName = st.sectionName := by
  induction toks with
  | nil => intro st; rfl
  | cons t ts ih =>
    intro st
    rw [List.foldl_cons, ih (fun x hx => h x (by simp [hx])), LoadState.sectionName_handle]
    simp [h t (by simp)]

/-- A key line `key = v` of saved text sets the key to the scalar `v`. -/
theorem fold_scalar (st : LoadState) (key v : Bytes) (hk : TrimSpace key = key)
    (hkne : key ≠ []) (hv : TrimSpace v = v) (s2 k2 : Bytes) :
    GoMap.get (((st.handle (TokKey, key ++ [32])).handle (TokValue, 32 :: v)).i.sectionOf s2) k2 =
      if s2 = st.sectionName ∧ k2 = key then some (Value.str v)
      else GoMap.get (st.i.sectionOf s2) k2 := by
  simp only [LoadState.get_handle, LoadState.sectionName_handle, LoadState.key_handle,
    TrimSpace_append_space key hk hkne, TrimSpace_cons_space v hv]
  by_cases h : s2 = st.sectionName ∧ k2 = key
  · obtain ⟨h1, h2⟩ := h
    subst h1 h2
    simp [hkne]
  · have h1 : ¬ (st.sectionName = s2 ∧ key = k2) := fun ⟨a, b⟩ => h ⟨a.symm, b.symm⟩
    have h2 : ¬ (st.sectionName = s2 ∧ key = k2 ∧ k2 ≠ []) := fun ⟨a, b, _⟩ => h ⟨a.symm, b.symm⟩
    simp [h, h1, h2]

/-- A key line `key < item` of saved text appends `item` to the list the
key holds, an absent key counting as the empty list. -/
theorem fold_item (st : LoadState) (key item : Bytes) (acc : List Bytes)
    (hk : TrimSpace key = key) (hkne : key ≠ []) (hv : TrimSpace item = item)
    (hacc : GoMap.get (st.i.sectionOf st.sectionName) key = some (Value.list acc) ∨
      (acc = [] ∧ GoMap.get (st.i.sectionOf st.sectionName) key = none)) (s2 k2 : Bytes) :
    GoMap.get (((st.handle (TokKeyList, key ++ [32])).handle
        (TokValue, 32 :: item)).i.sectionOf s2) k2 =
      if s2 = st.sectionName ∧ k2 = key then some (Value.list (acc ++ [item]))
      else GoMap.get (st.i.sectionOf s2) k2 := by
  simp only [LoadState.get_handle, LoadState.sectionName_handle, LoadState.key_handle,
    TrimSpace_append_space key hk hkne, TrimSpace_cons_space item hv]
  by_cases h : s2 = st.sectionName ∧ k2 = key
  · obtain ⟨h1, h2⟩ := h
    subst h1 h2
    rcases hacc with h | ⟨h0, h⟩
    · simp [hkne, h]
    · simp [hkne, h, h0]
  · have h1 : ¬ (st.sectionName = s2 ∧ key = k2) := fun ⟨a, b⟩ => h ⟨a.symm, b.symm⟩
    have h2 : ¬ (st.sectionName = s2 ∧ key = k2 ∧ k2 ≠ []) := fun ⟨a, b, _⟩ => h ⟨a.symm, b.symm⟩
    simp [h, h1, h2]

theorem tokensOfLines_append (a b : List Line) :
    tokensOfLines (a ++ b) = tokensOfLines a ++ tokensOfLines b := by
  simp [tokensOfLines]

theorem renderLines_append (a b : List Line) :
    renderLines (a ++ b) = renderLines a ++ renderLines b := by
  simp [renderLines]

/-- The key lines `key < item` of a list, in order, append its items. -/
theorem fold_items (key : Bytes) (hk : TrimSpace key = key) (hkne : key ≠ []) :
    ∀ (items : List Bytes) (st : LoadState) (acc : List Bytes),
      (∀ x ∈ items, TrimSpace x = x) → items ≠ [] →
      (GoMap.get (st.i.sectionOf st.sectionName) key = some (Value.list acc) ∨
        (acc = [] ∧ GoMap.get (st.i.sectionOf st.sectionName) key = none)) →
      ((tokensOfLines (entryLines key (Value.list items))).foldl LoadState.handle st).sectionName
          = st.sectionName ∧
      ∀ s2 k2, GoMap.get (((tokensOfLines (entryLines key (Value.list items))).foldl
          LoadState.handle st).i.sectionOf s2) k2 =
        if s2 = st.sectionName ∧ k2 = key then some (Value.list (acc ++ items))
        else GoMap.get (st.i.sectionOf s2) k2 := by
  intro items
  induction items with
  | nil => intro _ _ _ h; exact absurd rfl h
  | cons item rest ih =>
    intro st acc htrim _ hacc
    have hstep := fold_item st key item acc hk hkne (htrim item (by simp)) hacc
    have htoks : tokensOfLines (entryLines key (Value.list (item :: rest))) =
        (TokKeyList, key ++ [32]) :: (TokValue, 32 :: item) ::
          tokensOfLines (entryLines key (Value.list rest)) := by
      simp [entryLines, tokensOfLines, Line.tokens]
    rw [htoks]
    simp only [List.foldl_cons]
    have hname : ((st.handle (TokKeyList, key ++ [32])).handle
        (TokValue, 32 :: item)).sectionName = st.sectionName := by
      simp [LoadState.sectionName_handle]
    by_cases hrest : rest = []
    · subst hrest
      simp only [entryLines, List.map_nil, tokensOfLines, List.flatten_nil, List.foldl_nil]
      exact ⟨hname, hstep⟩
    · obtain ⟨i1, i2⟩ := ih ((st.handle (TokKeyList, key ++ [32])).handle (TokValue, 32 :: item))
        (acc ++ [item]) (fun x hx => htrim x (by simp [hx])) hrest
        (Or.inl (by rw [hname, hstep]; simp))
      refine ⟨by rw [i1, hname], ?_⟩
      intro s2 k2
      rw [i2, hname, hstep]
      by_cases h : s2 = st.sectionName ∧ k2 = key
      · simp [h]
      · simp [h]

/-- The lines of one key of saved text set the key to its value. -/
theorem fold_entry (st : LoadState) (key : Bytes) (value : Value) (hk : keyOK key)
    (hv : valueOK value)
    (habs : GoMap.get (st.i.sectionOf st.sectionName) key = none) :
    ((tokensOfLines (entryLines key value)).foldl LoadState.handle st).sectionName
        = st.sectionName ∧
    ∀ s2 k2, GoMap.get (((tokensOfLines (entryLines key value)).foldl
        LoadState.handle st).i.sectionOf s2) k2 =
      if s2 = st.sectionName ∧ k2 = key then some value
      else GoMap.get (st.i.sectionOf s2) k2 := by
  obtain ⟨⟨hkt, _⟩, hkne, _⟩ := hk
  cases value with
  | str v =>
    have htoks : tokensOfLines (entryLines key (Value.str v)) =
        [(TokKey, key ++ [32]), (TokValue, 32 :: v)] := by
      simp [entryLines, tokensOfLines, Line.tokens]
    rw [htoks]
    simp only [List.foldl_cons, List.foldl_nil]
    exact ⟨by simp [LoadState.sectionName_handle],
      fold_scalar st key v hkt hkne hv.1⟩
  | list l =>
    obtain ⟨hl, hall⟩ := hv
    have := fold_items key hkt hkne l st [] (fun x hx => (hall x hx).1) hl (Or.inr ⟨rfl, habs⟩)
    simpa using this

theorem renderLines_entryLines (key : Bytes) (value : Value) :
    renderLines (entryLines key value) = writeEntry key value := by
  cases value with
  | str v => simp [entryLines, renderLines, Line.render, writeEntry]
  | list l =>
    simp only [entryLines, renderLines, writeEntry, List.map_map]
    congr 1
    apply List.map_congr_left
    intro item _
    simp [Line.render]

theorem entryLines_ok (key : Bytes) (value : Value) (hk : keyOK key) (hv : valueOK value) :
    ∀ l ∈ entryLines key value, l.ok := by
  obtain ⟨⟨hkt, _⟩, hkne, h60, h61, hb, hc⟩ := hk
  have hdec : DecodeRune (key ++ [32]) = DecodeRune key :=
    DecodeRune_append_ascii key 32 [] hkne (by omega)
  have hkey : ∀ (d : Nat) (item : Bytes), d ∈ [60, 61] → 10 ∉ item →
      (Line.kv (key ++ [32]) d (32 :: item)).ok := by
    intro d item hd hitem
    refine ⟨by simp, ?_, ?_, ?_, ?_, hd, by simp, ?_⟩
    · rw [hdec]; exact TrimSpace_first key hkt hkne
    · rw [hdec]; exact first_rune_ne key 91 (by omega) hb
    · rw [hdec]; exact first_rune_ne key 59 (by omega) hc
    · intro x hx hm
      simp only [List.mem_cons, List.mem_singleton, List.not_mem_nil, or_false] at hm
      rcases List.mem_append.1 hx with h | h
      · rcases hm with rfl | rfl
        · exact h60 h
        · exact h61 h
      · simp at h
        omega
    · intro h
      rcases List.mem_cons.1 h with h | h
      · omega
      · exact hitem h
  intro l hl
  cases value with
  | str v =>
    simp only [entryLines, List.mem_singleton] at hl
    subst hl
    exact hkey 61 v (by simp) hv.2
  | list items =>
    simp only [entryLines, List.mem_map] at hl
    obtain ⟨item, hitem, rfl⟩ := hl
    exact hkey 60 item (by simp) (hv.2 item hitem).2

/-- C2 (list accumulation order).  For a section name `s` that is not
empty, is trimmed and holds no `]`, a key `k` that is not empty, is
trimmed, holds no `<`, `=` or line feed and does not start with `[` or
`;`, and a non-empty sequence `vs` of trimmed values without line feed:
loading the text `[s]` followed by the lines `k < v`, one for each `v` of
`vs` in order, into a new document returns a document in which
`Section(s).List(k)` is `vs`, in that order. -/
theorem Load_list_order (s k : Bytes) (vs : List Bytes) (hs : s ≠ []) (hst : TrimSpace s = s)
    (hsb : 93 ∉ s) (hk : keyOK k) (hvs : vs ≠ []) (hv : ∀ v ∈ vs, textOK v) (fuel : Nat)
    (hfuel : ([91] ++ s ++ [93, 10] ++
      (vs.map fun v => k ++ [32, 60, 32] ++ v ++ [10]).flatten).length < fuel) :
    ∃ d1, New.Load fuel ([91] ++ s ++ [93, 10] ++
        (vs.map fun v => k ++ [32, 60, 32] ++ v ++ [10]).flatten) = some d1 ∧
      Section.List (d1.Section s).2 k = vs := by
  have htext : [91] ++ s ++ [93, 10] ++ (vs.map fun v => k ++ [32, 60, 32] ++ v ++ [10]).flatten
      = renderLines (Line.header s :: entryLines k (Value.list vs)) := by
    rw [renderLines_cons, renderLines_entryLines]
    simp [Line.render, writeEntry]
  have hval : valueOK (Value.list vs) := ⟨hvs, hv⟩
  have hok : ∀ l ∈ Line.header s :: entryLines k (Value.list vs), l.ok := by
    intro l hl
    rcases List.mem_cons.1 hl with h | h
    · subst h
      exact ⟨hs, hsb⟩
    · exact entryLines_ok k _ hk hval l h
  rw [htext] at hfuel ⊢
  have hread := Read_lines _ hok (by simp) fuel hfuel
  refine ⟨_, Load_eq fuel New _ _ hread, ?_⟩
  rw [tokensOfLines_cons]
  simp only [Line.tokens, List.singleton_append, List.foldl_cons]
  have hst1 : ((LoadState.init New).handle (TokSection, s)).sectionName = s := by
    simp [LoadState.sectionName_handle, hst]
  have habs : GoMap.get (((LoadState.init New).handle (TokSection, s)).i.sectionOf
      ((LoadState.init New).handle (TokSection, s)).sectionName) k = none := by
    rw [LoadState.get_handle]
    simp only [LoadState.init, File.sectionOf_Section]
    rfl
  obtain ⟨_, h2⟩ := fold_entry _ k (Value.list vs) hk hval habs
  rw [File.Section_snd]
  simp only [Section.List, h2 s k, hst1]
  simp

/-- The example of the package documentation: section `keys`, key `auth`,
values `aaa`, `bbb`, `ccc`. -/
theorem Load_list_order_witness :
    ∃ d1, New.Load 50 ([91] ++ [107, 101, 121, 115] ++ [93, 10] ++
        ([[97, 97, 97], [98, 98, 98], [99, 99, 99]].map fun v =>
          [97, 117, 116, 104] ++ [32, 60, 32] ++ v ++ [10]).flatten) = some d1 ∧
      Section.List (d1.Section [107, 101, 121, 115]).2 [97, 117, 116, 104] =
        [[97, 97, 97], [98, 98, 98], [99, 99, 99]] :=
  Load_list_order [107, 101, 121, 115] [97, 117, 116, 104]
    [[97, 97, 97], [98, 98, 98], [99, 99, 99]] (by decide) (by decide) (by decide)
    ⟨⟨by decide, by decide⟩, by decide, by decide, by decide, by decide, by decide⟩
    (by decide) (fun v hv => by
      simp only [List.mem_cons, List.mem_singleton, List.not_mem_nil, or_false] at hv
      rcases hv with rfl | rfl | rfl <;> exact ⟨by decide, by decide⟩)
    50 (by decide)

namespace GoMap

theorem get_eq_none_iff {β : Type} (m : GoMap β) (k : Bytes) :
    get m k = none ↔ k ∉ keys m := by
  induction m with
  | nil => simp [get, keys]
  | cons e rest ih =>
    obtain ⟨k1, v1⟩ := e
    by_cases h : k1 = k
    · simp [get, keys, h]
    · have h' : ¬ k = k1 := fun e => h e.symm
      simp only [get, h, if_false, ih]
      simp [keys, h']

theorem get_some_mem {β : Type} (m : GoMap β) (k : Bytes) (v : β) (h : get m k = some v) :
    (k, v) ∈ m := by
  induction m with
  | nil => simp [get] at h
  | cons e rest ih =>
    obtain ⟨k1, v1⟩ := e
    by_cases h1 : k1 = k
    · simp only [get, h1, if_true, Option.some.injEq] at h
      simp [h1, h]
    · simp only [get, h1, if_false] at h
      exact List.mem_cons_of_mem _ (ih h)

theorem isSome_get_iff {β : Type} (m : GoMap β) (k : Bytes) :
    (get m k).isSome = true ↔ k ∈ keys m := by
  cases h : get m k with
  | none =>
    have := (get_eq_none_iff m k).1 h
    simp [this]
  | some v =>
    have : ¬ (k ∉ keys m) := fun hn => by
      rw [(get_eq_none_iff m k).2 hn] at h
      exact Option.noConfusion h
    simp only [Option.isSome_some, true_iff]
    exact Classical.not_not.1 this

theorem set_absent {β : Type} (m : GoMap β) (k : Bytes) (v : β) (h : get m k = none) :
    set m k v = m ++ [(k, v)] := by
  induction m with
  | nil => rfl
  | cons e rest ih =>
    obtain ⟨k1, v1⟩ := e
    by_cases h1 : k1 = k
    · simp [get, h1] at h
    · simp only [get, h1, if_false] at h
      simp [set, h1, ih h]

end GoMap

/-- The key lines of a section of saved text, loaded into a section that
holds none of its keys, store each key with its value. -/
theorem fold_entries : ∀ (es : Section) (st : LoadState), sectionOK es →
    (∀ k ∈ GoMap.keys es, GoMap.get (st.i.sectionOf st.sectionName) k = none) →
    ((tokensOfLines (es.map fun kv => entryLines kv.1 kv.2).flatten).foldl
        LoadState.handle st).sectionName = st.sectionName ∧
    ∀ s2 k2, GoMap.get (((tokensOfLines (es.map fun kv => entryLines kv.1 kv.2).flatten).foldl
        LoadState.handle st).i.sectionOf s2) k2 =
      if s2 = st.sectionName ∧ (GoMap.get es k2).isSome = true then GoMap.get es k2
      else GoMap.get (st.i.sectionOf s2) k2 := by
  intro es
  induction es with
  | nil =>
    intro st _ _
    simp [tokensOfLines, GoMap.get]
  | cons e rest ih =>
    intro st hok habs
    obtain ⟨key, value⟩ := e
    obtain ⟨hnodup, hall⟩ := hok
    have hkv := hall (key, value) (by simp)
    have hnot : key ∉ GoMap.keys rest := by
      simp only [GoMap.keys, List.map_cons, List.nodup_cons] at hnodup
      exact hnodup.1
    have hrestok : sectionOK rest := by
      refine ⟨?_, fun kv h => hall kv (by simp [h])⟩
      simp only [GoMap.keys, List.map_cons, List.nodup_cons] at hnodup
      exact hnodup.2
    simp only [List.map_cons, List.flatten_cons, tokensOfLines_append, List.foldl_append]
    obtain ⟨e1, e2⟩ := fold_entry st key value hkv.1 hkv.2 (habs key (by simp [GoMap.keys]))
    have habs1 : ∀ k ∈ GoMap.keys rest,
        GoMap.get (((tokensOfLines (entryLines key value)).foldl LoadState.handle st).i.sectionOf
          ((tokensOfLines (entryLines key value)).foldl LoadState.handle st).sectionName) k
          = none := by
      intro k hk
      rw [e1, e2]
      have hne : k ≠ key := fun h => hnot (h ▸ hk)
      simp only [hne, and_false, if_false]
      exact habs k (by simp [GoMap.keys] at hk ⊢; exact Or.inr hk)
    obtain ⟨r1, r2⟩ := ih _ hrestok habs1
    refine ⟨by rw [r1, e1], ?_⟩
    intro s2 k2
    rw [r2, e1, e2]
    by_cases hs : s2 = st.sectionName
    · by_cases hk : k2 = key
      · subst hk
        have : GoMap.get rest k2 = none := (GoMap.get_eq_none_iff rest k2).2 hnot
        simp [hs, GoMap.get, this]
      · have hk' : ¬ key = k2 := fun h => hk h.symm
        simp [hs, GoMap.get, hk, hk']
    · simp [hs]

theorem tokensOfLines_sectionLines (name : Bytes) (s : Section) :
    tokensOfLines (sectionLines name s) =
      (if name.length > 0 then [(TokSection, name)] else []) ++
        tokensOfLines (s.map fun kv => entryLines kv.1 kv.2).flatten := by
  simp only [sectionLines, tokensOfLines_append]
  split_ifs <;> simp [tokensOfLines, Line.tokens]

/-- The sections of saved text, loaded into a document whose sections of
these names hold no key, store each section with its keys. -/
theorem fold_sections : ∀ (ss : GoMap Section) (st : LoadState), (GoMap.keys ss).Nodup →
    (∀ ns ∈ ss, nameOK ns.1 ∧ sectionOK ns.2) →
    (∀ n ∈ GoMap.keys ss, n ≠ [] → ∀ k, GoMap.get (st.i.sectionOf n) k = none) →
    ∀ s2 k2, GoMap.get (((tokensOfLines (ss.map fun ns =>
        if ns.1.length = 0 then [] else sectionLines ns.1 ns.2).flatten).foldl
        LoadState.handle st).i.sectionOf s2) k2 =
      if s2 ≠ [] ∧ (GoMap.get ss s2).isSome = true then
        GoMap.get ((GoMap.get ss s2).getD []) k2
      else GoMap.get (st.i.sectionOf s2) k2 := by
  intro ss
  induction ss with
  | nil =>
    intro st _ _ _ s2 k2
    simp [tokensOfLines, GoMap.get]
  | cons e rest ih =>
    intro st hnodup hall hempty s2 k2
    obtain ⟨name, sec⟩ := e
    have hns := hall (name, sec) (by simp)
    simp only [GoMap.keys, List.map_cons, List.nodup_cons] at hnodup
    have hnot : name ∉ GoMap.keys rest := hnodup.1
    have hrest : ∀ ns ∈ rest, nameOK ns.1 ∧ sectionOK ns.2 := fun ns h => hall ns (by simp [h])
    simp only [List.map_cons, List.flatten_cons, tokensOfLines_append, List.foldl_append]
    by_cases hname : name = []
    · subst hname
      simp only [List.length_nil, if_true, tokensOfLines, List.map_nil, List.flatten_nil,
        List.foldl_nil]
      have := ih st hnodup.2 hrest
        (fun n hn hne k => hempty n (by simp [GoMap.keys] at hn ⊢; exact Or.inr hn) hne k) s2 k2
      simp only [tokensOfLines] at this
      rw [this]
      by_cases hs : s2 = []
      · simp [hs]
      · have hs' : ¬ [] = s2 := fun h => hs h.symm
        simp [hs, GoMap.get, hs']
    · have hlen : ¬ name.length = 0 := fun h => hname (List.length_eq_zero.1 h)
      have hpos : name.length > 0 := by omega
      have htrim : TrimSpace name = name := by
        rcases hns.1 with h | h
        · exact absurd h hname
        · exact h.1.1
      simp only [hlen, if_false, tokensOfLines_sectionLines, hpos, if_true, List.singleton_append,
        List.foldl_cons, List.foldl_append]
      have hst1 : (st.handle (TokSection, name)).sectionName = name := by
        simp [LoadState.sectionName_handle, htrim]
      have hget1 : ∀ a b, GoMap.get ((st.handle (TokSection, name)).i.sectionOf a) b =
          GoMap.get (st.i.sectionOf a) b := by
        intro a b
        rw [LoadState.get_handle]
      obtain ⟨e1, e2⟩ := fold_entries sec (st.handle (TokSection, name)) hns.2
        (by
          intro k _
          rw [hst1, hget1]
          exact hempty name (by simp [GoMap.keys]) hname k)
      rw [ih _ hnodup.2 hrest
        (by
          intro n hn hne k
          rw [e2, hst1, hget1]
          have : n ≠ name := fun h => hnot (h ▸ hn)
          simp only [this, false_and, if_false]
          exact hempty n (by simp [GoMap.keys] at hn ⊢; exact Or.inr hn) hne k) s2 k2]
      rw [e2, hst1, hget1]
      by_cases hs : s2 = name
      · subst hs
        have hrn : GoMap.get rest s2 = none := (GoMap.get_eq_none_iff rest s2).2 hnot
        have hold : GoMap.get (st.i.sectionOf s2) k2 = none :=
          hempty s2 (by simp [GoMap.keys]) hname k2
        cases hg : GoMap.get sec k2 with
        | none => simp [GoMap.get, hrn, hname, hg, hold]
        | some v => simp [GoMap.get, hrn, hname, hg]
      · have hs' : ¬ name = s2 := fun h => hs h.symm
        simp [hs, GoMap.get, hs']

/-! ## Save followed by Load -/

theorem has_handle_eq (st : LoadState) (tok : Token) (h : st.i.has st.sectionName = true)
    (n : Bytes) :
    (st.handle tok).i.has n =
      (st.i.has n || (decide (tok.1 = TokSection) && decide (n = TrimSpace tok.2))) := by
  obtain ⟨tt, v⟩ := tok
  cases tt with
  | TokSection => simp [LoadState.handle_TokSection, File.has_Section]
  | TokKey =>
    simp only [LoadState.handle_TokKey, File.has_setKey]
    by_cases hn : n = st.sectionName
    · subst hn; simp [h]
    · simp [hn]
  | TokKeyList =>
    simp only [LoadState.handle]
    cases GoMap.get (st.i.sectionOf st.sectionName) (TrimSpace v) with
    | some x => simp
    | none =>
      simp only [File.has_setKey]
      by_cases hn : n = st.sectionName
      · subst hn; simp [h]
      · simp [hn]
  | TokValue =>
    simp only [LoadState.handle]
    cases hk : st.key with
    | nil => simp
    | cons a t =>
      simp only [List.length_cons, gt_iff_lt, Nat.zero_lt_succ, if_true]
      by_cases hn : n = st.sectionName
      · subst hn; split <;> simp [File.has_setKey, h]
      · split <;> simp [File.has_setKey, hn]

theorem has_sectionName_handle (st : LoadState) (tok : Token)
    (h : st.i.has st.sectionName = true) :
    (st.handle tok).i.has (st.handle tok).sectionName = true := by
  rw [has_handle_eq st tok h, LoadState.sectionName_handle]
  by_cases ht : tok.1 = TokSection
  · simp [ht]
  · simp [ht, h]

theorem sectionNames_cons (t : Token) (ts : List Token) :
    sectionNames (t :: ts) =
      (if t.1 = TokSection then [TrimSpace t.2] else []) ++ sectionNames ts := by
  by_cases h : t.1 = TokSection
  · simp [sectionNames, List.filterMap_cons, h]
  · simp [sectionNames, List.filterMap_cons, h]

/-- The sections of a document after a load are those it had and those
the token stream names. -/
theorem foldl_has_eq : ∀ (toks : List Token) (st : LoadState),
    st.i.has st.sectionName = true →
    ∀ n, (toks.foldl LoadState.handle st).i.has n =
      (st.i.has n || decide (n ∈ sectionNames toks)) := by
  intro toks
  induction toks with
  | nil => intro st _ n; simp [sectionNames]
  | cons t ts ih =>
    intro st h n
    rw [List.foldl_cons, ih _ (has_sectionName_handle st t h), has_handle_eq st t h]
    rw [sectionNames_cons]
    by_cases ht : t.1 = TokSection
    · by_cases hn : n = TrimSpace t.2
      · simp [ht, hn]
      · simp [ht, hn]
    · simp [ht]

theorem mem_sectionNames_lines (n : Bytes) : ∀ (ls : List Line),
    n ∈ sectionNames (tokensOfLines ls) ↔ ∃ s, Line.header s ∈ ls ∧ TrimSpace s = n := by
  intro ls
  induction ls with
  | nil => simp [sectionNames, tokensOfLines]
  | cons l ls ih =>
    have hcons : ∀ a b : List Token, sectionNames (a ++ b) = sectionNames a ++ sectionNames b := by
      intro a b
      simp [sectionNames]
    rw [tokensOfLines_cons, hcons, List.mem_append, ih]
    cases l with
    | blank => simp [Line.tokens, sectionNames]
    | header s =>
      have h1 : sectionNames (Line.header s).tokens = [TrimSpace s] := by
        simp [Line.tokens, sectionNames_cons, sectionNames]
      rw [h1]
      constructor
      · rintro (h | ⟨s1, h1, h2⟩)
        · exact ⟨s, List.mem_cons_self _ _, (List.mem_singleton.1 h).symm⟩
        · exact ⟨s1, List.mem_cons_of_mem _ h1, h2⟩
      · rintro ⟨s1, h1, h2⟩
        rcases List.mem_cons.1 h1 with h1 | h1
        · injection h1 with h1
          subst h1
          exact Or.inl (List.mem_singleton.2 h2.symm)
        · exact Or.inr ⟨s1, h1, h2⟩
    | kv k d v =>
      have h1 : sectionNames (Line.kv k d v).tokens = [] := by
        by_cases hd : d = 60
        · simp [Line.tokens, sectionNames_cons, sectionNames, hd]
        · simp [Line.tokens, sectionNames_cons, sectionNames, hd]
      simp [h1]

theorem header_not_mem_entryLines (s key : Bytes) (value : Value) :
    Line.header s ∉ entryLines key value := by
  cases value <;> simp [entryLines]

theorem header_mem_sectionLines (s name : Bytes) (sec : Section) :
    Line.header s ∈ sectionLines name sec ↔ name ≠ [] ∧ s = name := by
  have h1 : Line.header s ∉ (sec.map fun kv => entryLines kv.1 kv.2).flatten := by
    intro h
    obtain ⟨l, hl, hs⟩ := List.mem_flatten.1 h
    obtain ⟨kv, _, rfl⟩ := List.mem_map.1 hl
    exact header_not_mem_entryLines s kv.1 kv.2 hs
  simp only [sectionLines, List.mem_append, h1, or_false, List.mem_singleton, reduceCtorEq]
  cases name with
  | nil => simp
  | cons a t => simp

theorem entries_ok (s : Section) (h : sectionOK s) :
    ∀ l ∈ (s.map fun kv => entryLines kv.1 kv.2).flatten, l.ok := by
  intro l hl
  obtain ⟨x, hx, hlx⟩ := List.mem_flatten.1 hl
  obtain ⟨kv, hkv, rfl⟩ := List.mem_map.1 hx
  exact entryLines_ok kv.1 kv.2 (h.2 kv hkv).1 (h.2 kv hkv).2 l hlx

theorem sectionLines_ok (name : Bytes) (s : Section) (hn : nameOK name) (h : sectionOK s) :
    ∀ l ∈ sectionLines name s, l.ok := by
  intro l hl
  simp only [sectionLines, List.mem_append, List.mem_singleton] at hl
  rcases hl with (hl | hl) | hl
  · cases name with
    | nil => simp at hl
    | cons a t =>
      simp only [List.length_cons, gt_iff_lt, Nat.zero_lt_succ, if_true, List.mem_singleton] at hl
      subst hl
      rcases hn with h0 | h0
      · exact absurd h0 (by simp)
      · exact ⟨by simp, h0.2⟩
  · exact entries_ok s h l hl
  · subst hl
    trivial

theorem renderLines_sectionLines (name : Bytes) (s : Section) :
    renderLines (sectionLines name s) = writeSection name s := by
  simp only [sectionLines, writeSection, renderLines_append]
  congr 1
  · congr 1
    · split_ifs <;> simp [renderLines, Line.render]
    · induction s with
      | nil => simp [renderLines]
      | cons e rest ih =>
        simp only [List.map_cons, List.flatten_cons, renderLines_append, ih,
          renderLines_entryLines]

theorem renderLines_saveLines (d : File) : renderLines (saveLines d) = (d.Save).2 := by
  simp only [saveLines, File.Save, renderLines_append, renderLines_sectionLines]
  congr 1
  induction (d.Section []).1.Sections with
  | nil => simp [renderLines]
  | cons e rest ih =>
    simp only [List.map_cons, List.flatten_cons, renderLines_append, ih]
    congr 1
    split_ifs
    · simp [renderLines]
    · exact renderLines_sectionLines _ _

theorem sectionOK_nil : sectionOK [] := by
  simp [sectionOK, GoMap.keys]

theorem sectionOK_sectionOf (d : File) (h : d.wellFormed) (n : Bytes) :
    sectionOK (d.sectionOf n) := by
  unfold File.sectionOf
  cases hg : GoMap.get d.Sections n with
  | none => exact sectionOK_nil
  | some s => exact (h.2 (n, s) (GoMap.get_some_mem _ _ _ hg)).2

theorem wellFormed_Section_global (d : File) (h : d.wellFormed) :
    (d.Section []).1.wellFormed := by
  unfold File.Section
  cases hg : GoMap.get d.Sections [] with
  | some s => exact h
  | none =>
    simp only [GoMap.set_absent _ _ _ hg]
    refine ⟨?_, ?_⟩
    · simp only [GoMap.keys, List.map_append, List.map_cons, List.map_nil]
      rw [List.nodup_append]
      refine ⟨h.1, by simp, ?_⟩
      intro a ha hb
      simp only [List.mem_singleton] at hb
      subst hb
      exact (GoMap.get_eq_none_iff _ _).1 hg ha
    · intro ns hns
      rcases List.mem_append.1 hns with h1 | h1
      · exact h.2 ns h1
      · simp only [List.mem_singleton] at h1
        subst h1
        exact ⟨Or.inl rfl, sectionOK_nil⟩

theorem saveLines_ok (d : File) (h : d.wellFormed) : ∀ l ∈ saveLines d, l.ok := by
  intro l hl
  have hwf := wellFormed_Section_global d h
  simp only [saveLines, List.mem_append] at hl
  rcases hl with hl | hl
  · rw [File.Section_snd] at hl
    exact sectionLines_ok [] _ (Or.inl rfl) (sectionOK_sectionOf d h []) l hl
  · obtain ⟨x, hx, hlx⟩ := List.mem_flatten.1 hl
    obtain ⟨ns, hns, rfl⟩ := List.mem_map.1 hx
    by_cases h0 : ns.1.length = 0
    · simp [h0] at hlx
    · simp only [h0, if_false] at hlx
      exact sectionLines_ok ns.1 ns.2 (hwf.2 ns hns).1 (hwf.2 ns hns).2 l hlx

theorem header_mem_saveLines (d : File) (s : Bytes) :
    Line.header s ∈ saveLines d ↔ s ≠ [] ∧ s ∈ GoMap.keys (d.Section []).1.Sections := by
  simp only [saveLines, List.mem_append, header_mem_sectionLines, ne_eq, not_true_eq_false,
    false_and, false_or]
  constructor
  · intro h
    obtain ⟨x, hx, hsx⟩ := List.mem_flatten.1 h
    obtain ⟨ns, hns, rfl⟩ := List.mem_map.1 hx
    by_cases h0 : ns.1.length = 0
    · simp [h0] at hsx
    · simp only [h0, if_false] at hsx
      obtain ⟨h1, h2⟩ := (header_mem_sectionLines s ns.1 ns.2).1 hsx
      subst h2
      exact ⟨h1, List.mem_map.2 ⟨ns, hns, rfl⟩⟩
  · rintro ⟨h1, h2⟩
    obtain ⟨ns, hns, rfl⟩ := List.mem_map.1 h2
    apply List.mem_flatten.2
    refine ⟨sectionLines ns.1 ns.2, List.mem_map.2 ⟨ns, hns, ?_⟩, ?_⟩
    · have h0 : ¬ ns.1.length = 0 := fun h => h1 (List.length_eq_zero.1 h)
      simp [h0]
    · exact (header_mem_sectionLines ns.1 ns.1 ns.2).2 ⟨h1, rfl⟩

theorem init_New_get (s2 k2 : Bytes) :
    GoMap.get ((LoadState.init New).i.sectionOf s2) k2 = none := by
  simp only [LoadState.init, File.sectionOf_Section]
  rfl

/-- C1 (round trip).  Let `d` be a document whose values are strings or
non-empty lists of strings, in which every section name, key, scalar value
and list element is trimmed of white space and holds no line feed, the
names of the sections other than the global one hold no `]`, and the keys
are not empty, hold no `<` or `=` and do not start with `[` or `;`.  The
entries of `d.Sections` and of each section stand in the order in which
`Save` iterates over the maps, which is any order.  Then loading the text
that `Save` writes into a new document returns a document `d1` that has
the section names of `d` and the global name `""`, and in which every
name and key is mapped as in `d`: the same keys, each with an equal string
or an equal list in the same order. -/
theorem Save_Load_roundtrip (d : File) (hwf : d.wellFormed) (fuel : Nat)
    (hfuel : (d.Save).2.length < fuel) :
    ∃ d1, New.Load fuel (d.Save).2 = some d1 ∧
      (∀ n, d1.has n = true ↔ (d.has n = true ∨ n = [])) ∧
      (∀ n k, GoMap.get (d1.sectionOf n) k = GoMap.get (d.sectionOf n) k) := by
  have hwf1 := wellFormed_Section_global d hwf
  rw [← renderLines_saveLines] at hfuel ⊢
  have hne : saveLines d ≠ [] := by
    simp [saveLines, sectionLines]
  have hread := Read_lines (saveLines d) (saveLines_ok d hwf) hne fuel hfuel
  refine ⟨_, Load_eq fuel New _ _ hread, ?_, ?_⟩
  · intro n
    have hinit : (LoadState.init New).i.has (LoadState.init New).sectionName = true := by
      simp [LoadState.init, File.has_Section]
    rw [foldl_has_eq _ _ hinit n]
    have h0 : (LoadState.init New).i.has n = decide (n = []) := by
      simp only [LoadState.init, File.has_Section]
      simp [File.has, New, GoMap.get]
    rw [h0]
    simp only [Bool.or_eq_true, decide_eq_true_eq, mem_sectionNames_lines, header_mem_saveLines]
    have hkeys : ∀ s, s ∈ GoMap.keys (d.Section []).1.Sections ↔
        (d.has s = true ∨ s = []) := by
      intro s
      rw [← GoMap.isSome_get_iff]
      have := File.has_Section d [] s
      simp only [File.has] at this ⊢
      rw [this]
      simp
    constructor
    · rintro (h | ⟨s, ⟨h1, h2⟩, h3⟩)
      · exact Or.inr h
      · have htrim : TrimSpace s = s := by
          obtain ⟨ns, hns, rfl⟩ := List.mem_map.1 h2
          rcases (hwf1.2 ns hns).1 with h | h
          · exact absurd h h1
          · exact h.1.1
        rw [htrim] at h3
        subst h3
        rcases (hkeys s).1 h2 with h | h
        · exact Or.inl h
        · exact absurd h h1
    · rintro (h | h)
      · by_cases hn : n = []
        · exact Or.inl hn
        · right
          have hmem := (hkeys n).2 (Or.inl h)
          refine ⟨n, ⟨hn, hmem⟩, ?_⟩
          obtain ⟨ns, hns, rfl⟩ := List.mem_map.1 hmem
          rcases (hwf1.2 ns hns).1 with h | h
          · exact absurd h hn
          · exact h.1.1
      · exact Or.inl h
  · intro n k
    simp only [saveLines, tokensOfLines_append, List.foldl_append, tokensOfLines_sectionLines,
      List.length_nil, gt_iff_lt, Nat.lt_irrefl, if_false, List.nil_append]
    rw [File.Section_snd]
    obtain ⟨e1, e2⟩ := fold_entries (d.sectionOf []) (LoadState.init New)
      (sectionOK_sectionOf d hwf []) (fun k _ => init_New_get _ k)
    have hst1 : ((tokensOfLines ((d.sectionOf []).map fun kv =>
        entryLines kv.1 kv.2).flatten).foldl LoadState.handle (LoadState.init New)).sectionName
        = [] := by
      rw [e1]; rfl
    rw [fold_sections (d.Section []).1.Sections _ hwf1.1 hwf1.2
      (by
        intro m _ hm k
        rw [e2]
        have : ¬ (m = (LoadState.init New).sectionName) := hm
        simp only [this, false_and, if_false]
        exact init_New_get m k) n k]
    rw [e2]
    have hsec : ∀ m, m ≠ [] →
        GoMap.get (d.Section []).1.Sections m = GoMap.get d.Sections m := by
      intro m hm
      unfold File.Section
      cases hg : GoMap.get d.Sections [] with
      | some s => rfl
      | none => exact GoMap.get_set_other _ _ _ _ hm
    by_cases hn : n = []
    · subst hn
      have hname : (LoadState.init New).sectionName = [] := rfl
      simp only [ne_eq, not_true_eq_false, false_and, if_false, hname, true_and, init_New_get]
      cases hg : GoMap.get (d.sectionOf []) k with
      | none => simp
      | some v => simp
    · have hname : ¬ (n = (LoadState.init New).sectionName) := hn
      simp only [ne_eq, hn, not_false_eq_true, true_and, hname, false_and, if_false,
        init_New_get, hsec n hn]
      unfold File.sectionOf
      cases hg : GoMap.get d.Sections n with
      | none => simp [GoMap.get]
      | some s => simp

set_option maxRecDepth 100000 in
/-- The round trip of the test document. -/
theorem Save_Load_roundtrip_witness :
    ∃ d1, New.Load 200 (testDocument.Save).2 = some d1 ∧
      (∀ n, d1.has n = true ↔ (testDocument.has n = true ∨ n = [])) ∧
      (∀ n k, GoMap.get (d1.sectionOf n) k = GoMap.get (testDocument.sectionOf n) k) :=
  Save_Load_roundtrip testDocument (by decide) 200 (by decide)

/-! ## Setters and typed accessors -/

/-- C14 (SetList replaces outright).  After `SetList(k, xs...)` with
strings `xs`, possibly none, `List(k)` returns exactly `xs` in order
whatever `k` held before, `S(k, d)` returns `d` for every default `d`, and
every other key is mapped as before. -/
theorem SetList_replaces (s : Section) (k : Bytes) (xs : Strings) :
    Section.List (Section.SetList s k xs) k = xs ∧
    (∀ d, Section.S (Section.SetList s k xs) k d = d) ∧
    (∀ k2, k2 ≠ k → GoMap.get (Section.SetList s k xs) k2 = GoMap.get s k2) := by
  have hmap : xs.map fmtSprint = xs := by
    induction xs with
    | nil => rfl
    | cons a t ih => rw [List.map_cons, ih]; rfl
  refine ⟨?_, ?_, ?_⟩
  · simp [Section.List, Section.SetList, GoMap.get_set_self, hmap]
  · intro d
    simp [Section.S, Section.SetList, GoMap.get_set_self]
  · intro k2 h
    simp [Section.SetList, GoMap.get_set_other _ _ _ _ h]

/-- A key that held a scalar, set to a list of two, next to another key. -/
theorem SetList_replaces_witness :
    GoMap.get (Section.SetList [([97], Value.str [49]), ([98], Value.str [50])] [97]
      [[120], [121]]) [98] = GoMap.get [([97], Value.str [49]), ([98], Value.str [50])] [98] :=
  (SetList_replaces [([97], Value.str [49]), ([98], Value.str [50])] [97] [[120], [121]]).2.2
    [98] (by decide)

/-- C12 fails on the code.  For the section `test` of the `SetList`
documentation, after `SetList("foo", "a", "b", "c")` and `SetList("bar")`,
`writeSection` prints the header, the three `foo` lines and the blank
line, and no line `bar <`; a key set to a list of no items prints as
nothing at all. -/
theorem SetList_empty_not_written :
    writeSection [116, 101, 115, 116]
      (Section.SetList (Section.SetList [] [102, 111, 111] [[97], [98], [99]]) [98, 97, 114] []) =
      [91, 116, 101, 115, 116, 93, 10, 102, 111, 111, 32, 60, 32, 97, 10, 102, 111, 111, 32, 60,
        32, 98, 10, 102, 111, 111, 32, 60, 32, 99, 10, 10] ∧
    ∀ (s : Section) (key : Bytes),
      GoMap.get (Section.SetList s key []) key = some (Value.list []) ∧
      writeEntry key (Value.list []) = [] := by
  refine ⟨by decide, ?_⟩
  intro s key
  exact ⟨by simp [Section.SetList, GoMap.get_set_self], rfl⟩

theorem toInt_of_range (w : Nat) (hw : w = 32 ∨ w = 64) (n : Int)
    (h : -(2 ^ 31 : Int) ≤ n ∧ n ≤ 2 ^ 31 - 1) : toInt w n = n := by
  unfold toInt
  rcases hw with rfl | rfl
  · norm_num at h ⊢
    omega
  · norm_num at h ⊢
    omega

/-- C13 (typed accessor fallback).  Let `parse` be
`strconv.ParseInt(s, 0, 32)`, which reports an error for the empty string
and returns only values of the signed 32-bit range, and let `int` have 32
or 64 bits.  Then `I(k, d)` is a total function that returns `d` when `k`
is absent, when `k` holds a list, and when `k` holds a string on which
`parse` reports an error (no valid literal, or out of range); and when
`k` holds a string that `parse` accepts with value `n`, it returns exactly
`n`, the conversion to `int` truncating nothing. -/
theorem I_fallback (parse : Bytes → Option Int) (w : Nat) (hw : w = 32 ∨ w = 64)
    (hempty : parse [] = none)
    (hrange : ∀ x n, parse x = some n → -(2 ^ 31 : Int) ≤ n ∧ n ≤ 2 ^ 31 - 1)
    (s : Section) (k : Bytes) (d : Int) :
    (GoMap.get s k = none → Section.I parse w s k d = d) ∧
    (∀ l, GoMap.get s k = some (Value.list l) → Section.I parse w s k d = d) ∧
    (∀ x, GoMap.get s k = some (Value.str x) → parse x = none → Section.I parse w s k d = d) ∧
    (∀ x n, GoMap.get s k = some (Value.str x) → parse x = some n →
      Section.I parse w s k d = n) := by
  refine ⟨?_, ?_, ?_, ?_⟩
  · intro h
    simp [Section.I, Section.S, h, hempty]
  · intro l h
    simp [Section.I, Section.S, h, hempty]
  · intro x h hp
    simp [Section.I, Section.S, h, hp]
  · intro x n h hp
    simp only [Section.I, Section.S, h, hp]
    exact toInt_of_range w hw n (hrange x n hp)

theorem ParseInt_range (x : Bytes) (n : Int) (h : ParseInt x 32 = some n) :
    -(2 ^ 31 : Int) ≤ n ∧ n ≤ 2 ^ 31 - 1 := by
  unfold ParseInt at h
  simp only at h
  split at h
  · exact Option.noConfusion h
  · split_ifs at h with hr
    injection h with h
    subst h
    simpa using hr

/-- The key `n` holding the string `not-a-number`, read with default 7. -/
theorem I_fallback_witness :
    Section.I (fun x => ParseInt x 32) 64
      [([110], Value.str [110, 111, 116, 45, 97, 45, 110, 117, 109, 98, 101, 114])] [110] 7 = 7 :=
  (I_fallback (fun x => ParseInt x 32) 64 (Or.inr rfl) (by decide) ParseInt_range
    [([110], Value.str [110, 111, 116, 45, 97, 45, 110, 117, 109, 98, 101, 114])] [110] 7).2.2.1
    [110, 111, 116, 45, 97, 45, 110, 117, 109, 98, 101, 114] (by decide) (by decide)

/-! ## Lines the reader stops at -/

/-- `Read` runs the main loop on the buffer itself or on the buffer with
a line feed appended. -/
theorem Read_cases (fuel : Nat) (data : Bytes) :
    ∃ data1, (data1 = data ∨ data1 = data ++ [10]) ∧
      Read fuel data =
        (Reader.ReadLoop fuel { out := [], data := data1, start := 0, pos := 0,
                                size := 0 }).map (fun ir => ir.out) := by
  by_cases h : data.length = 0 ∨ data.getLast? ≠ some 10
  · refine ⟨data ++ [10], Or.inr rfl, ?_⟩
    simp only [Read, h, if_true]
    cases Reader.ReadLoop fuel { out := [], data := data ++ [10], start := 0, pos := 0,
                                 size := 0 } <;> rfl
  · refine ⟨data, Or.inl rfl, ?_⟩
    simp only [Read, h, if_false]
    cases Reader.ReadLoop fuel { out := [], data := data, start := 0, pos := 0,
                                 size := 0 } <;> rfl

/-- A buffer whose first line is a key with an empty value. -/
theorem Read_key_only_rest (fuel : Nat) (k rest : Bytes) (d : Nat) (hd : d ∈ [60, 61])
    (hk : k ≠ []) (hkd : ∀ x ∈ k, x ∉ [60, 61]) (hsp : IsSpace (DecodeRune k).1 = false)
    (hb : (DecodeRune k).1 ≠ 91) (hc : (DecodeRune k).1 ≠ 59)
    (hfuel : k.length + rest.length + 3 < fuel) :
    Read fuel (k ++ d :: 10 :: rest) = some [(if d = 60 then TokKeyList else TokKey, k)] := by
  obtain ⟨data1, hdata, hread⟩ := Read_cases fuel (k ++ d :: 10 :: rest)
  obtain ⟨f, rfl⟩ : ∃ f, fuel = f + 1 := ⟨fuel - 1, by omega⟩
  have hshape : ∃ rest1, data1 = k ++ d :: 10 :: rest1 ∧ rest1.length ≤ rest.length + 1 := by
    rcases hdata with h | h
    · exact ⟨rest, h, by omega⟩
    · exact ⟨rest ++ [10], by simp [h], by simp⟩
  obtain ⟨rest1, rfl, hlen⟩ := hshape
  obtain ⟨ir1, h1, h2⟩ := Reader.ReadLoop_key_only f
    { out := [], data := k ++ d :: 10 :: rest1, start := 0, pos := 0, size := 0 } [] k rest1 d
    (by simp) (by simp) hk hsp hb (fun _ => hc) hkd hd (by simp; omega)
  rw [hread, h1]
  simp [h2]

/-- C18 (an empty value stops the scanner).  For a key text `k` that is
not empty, holds no `<` (60) or `=` (61) and starts with a rune that is
neither white space nor `[` nor `;`, and every buffer `rest`: `Read` on
`k=`, a line feed and `rest` emits the one token `Key(k)`, and on `k<`, a
line feed and `rest` the one token `KeyList(k)`; nothing of `rest` is
scanned. -/
theorem Read_empty_value_stops (k rest : Bytes) (hk : k ≠ []) (h60 : 60 ∉ k) (h61 : 61 ∉ k)
    (hsp : IsSpace (DecodeRune k).1 = false) (hb : (DecodeRune k).1 ≠ 91)
    (hc : (DecodeRune k).1 ≠ 59) (fuel : Nat) (hfuel : k.length + rest.length + 3 < fuel) :
    Read fuel (k ++ 61 :: 10 :: rest) = some [(TokKey, k)] ∧
    Read fuel (k ++ 60 :: 10 :: rest) = some [(TokKeyList, k)] := by
  have hkd : ∀ x ∈ k, x ∉ [60, 61] := by
    intro x hx hm
    simp only [List.mem_cons, List.mem_singleton, List.not_mem_nil, or_false] at hm
    rcases hm with rfl | rfl
    · exact h60 hx
    · exact h61 hx
  constructor
  · have := Read_key_only_rest fuel k rest 61 (by simp) hk hkd hsp hb hc hfuel
    simpa using this
  · have := Read_key_only_rest fuel k rest 60 (by simp) hk hkd hsp hb hc hfuel
    simpa using this

/-- The buffer `a=`, `b=c`: the second line is never scanned. -/
theorem Read_empty_value_stops_witness :
    Read 10 ([97] ++ 61 :: 10 :: [98, 61, 99, 10]) = some [(TokKey, [97])] ∧
    Read 10 ([97] ++ 60 :: 10 :: [98, 61, 99, 10]) = some [(TokKeyList, [97])] :=
  Read_empty_value_stops [97] [98, 61, 99, 10] (by decide) (by decide) (by decide) (by decide)
    (by decide) (by decide) 10 (by decide)

/-! ## White space runs and unterminated scans -/

namespace Reader

/-- The loop of `acceptSpace` runs over a run of white space runes that is
followed by an ASCII byte which is no white space, and stops there. -/
theorem acceptSpaceLoop_spaceRun (a : Nat) (rest : Bytes) (ha : a < 0x80)
    (hsp : IsSpace a = false) :
    ∀ (n : Nat) (ws : Bytes) (ir : Reader) (fuel : Nat), spaceRun n ws = true →
      ir.data.drop ir.pos = ws ++ a :: rest → ws.length < fuel →
      ∃ ir1 b, acceptSpaceLoop fuel ir = some (ir1, b) ∧ ir1.out = ir.out ∧
        ir1.data = ir.data ∧ ir1.pos = ir.pos + ws.length := by
  have hrest : a :: rest = [] ∨ IsSpace (DecodeRune (a :: rest)).1 = false := by
    right
    rw [DecodeRune_ascii a rest ha]
    exact hsp
  intro n
  induction n with
  | zero =>
    intro ws ir fuel hrun hdrop hfuel
    cases ws with
    | nil => exact acceptSpaceLoop_run (a :: rest) hrest [] ir fuel (by simp) hdrop hfuel
    | cons x t => simp [spaceRun] at hrun
  | succ n ih =>
    intro ws ir fuel hrun hdrop hfuel
    cases ws with
    | nil => exact acceptSpaceLoop_run (a :: rest) hrest [] ir fuel (by simp) hdrop hfuel
    | cons x t =>
      obtain ⟨f, rfl⟩ : ∃ f, fuel = f + 1 := ⟨fuel - 1, by omega⟩
      simp only [spaceRun, Bool.and_eq_true] at hrun
      obtain ⟨hx, hrun1⟩ := hrun
      have hdec : DecodeRune (x :: t ++ a :: rest) = DecodeRune (x :: t) :=
        DecodeRune_append_ascii (x :: t) a rest (by simp) ha
      have hsz1 := DecodeRune_size_pos x t
      have hsz2 := DecodeRune_size_le (x :: t)
      rw [List.cons_append] at hdrop hdec
      have hdrop2 : List.drop (ir.pos + (DecodeRune (x :: t)).2) ir.data =
          (x :: t).drop (DecodeRune (x :: t)).2 ++ a :: rest := by
        rw [← List.drop_drop, hdrop, ← List.cons_append, List.drop_append_of_le_length hsz2]
      have hlen : ((x :: t).drop (DecodeRune (x :: t)).2).length
          = (x :: t).length - (DecodeRune (x :: t)).2 := List.length_drop _ _
      obtain ⟨ir1, b, h1, h2, h3, h4⟩ := ih _
        { ir with size := (DecodeRune (x :: t)).2, pos := ir.pos + (DecodeRune (x :: t)).2 } f
        hrun1 hdrop2 (by omega)
      refine ⟨ir1, b, ?_, h2, h3, ?_⟩
      · rw [acceptSpaceLoop, next_some ir x _ hdrop, hdec]
        simp only [hx, Bool.not_true, Bool.false_eq_true, if_false]
        exact h1
      · rw [h4, hlen]
        simp only
        omega

theorem acceptSpace_spaceRun (a : Nat) (rest ws : Bytes) (ir : Reader) (fuel : Nat)
    (ha : a < 0x80) (hsp : IsSpace a = false) (hrun : isSpaceRun ws = true)
    (hdrop : ir.data.drop ir.pos = ws ++ a :: rest) (hfuel : ws.length < fuel) :
    ∃ ir1 b, ir.acceptSpace fuel = some (ir1, b) ∧ ir1.out = ir.out ∧
      ir1.data = ir.data ∧ ir1.pos = ir.pos + ws.length := by
  obtain ⟨ir1, b, h1, h2, h3, h4⟩ :=
    acceptSpaceLoop_spaceRun a rest ha hsp ws.length ws ir fuel hrun hdrop hfuel
  cases b with
  | false => exact ⟨ir1, false, by simp [acceptSpace, h1], h2, h3, h4⟩
  | true => exact ⟨ir1, decide (ir1.pos > ir.pos), by simp only [acceptSpace, h1], h2, h3, h4⟩

/-- The first rune of a white space run followed by `[` is not `;`. -/
theorem spaceRun_bracket_first (ws rest : Bytes) (hrun : isSpaceRun ws = true) :
    (DecodeRune (ws ++ 91 :: rest)).1 ≠ 59 := by
  cases ws with
  | nil =>
    rw [List.nil_append, DecodeRune_ascii 91 rest (by omega)]
    omega
  | cons x t =>
    rw [DecodeRune_append_ascii (x :: t) 91 rest (by simp) (by omega)]
    simp only [isSpaceRun, List.length_cons, spaceRun, Bool.and_eq_true] at hrun
    intro h
    rw [h] at hrun
    exact absurd hrun.1 (by decide)

/-- The loop of `acceptUntil` on input that holds no `v`: it runs to the
end of input and reports that. -/
theorem acceptUntilLoop_eof_scan (v : Nat) (hv : v < 0x80) :
    ∀ (n : Nat) (xs : Bytes) (ir : Reader) (fuel : Nat), xs.length = n → v ∉ xs →
      ir.data.drop ir.pos = xs → xs.length < fuel →
      ∃ ir1, acceptUntilLoop v fuel ir = some (ir1, false) ∧ ir1.out = ir.out ∧
        ir1.data = ir.data ∧ ir1.data.length ≤ ir1.pos := by
  intro n
  induction n using Nat.strong_induction_on with
  | _ n ih =>
    intro xs ir fuel hn hnot hdrop hfuel
    obtain ⟨f, rfl⟩ : ∃ f, fuel = f + 1 := ⟨fuel - 1, by omega⟩
    cases xs with
    | nil =>
      have hle : ir.data.length ≤ ir.pos := by
        have := congrArg List.length hdrop
        simp at this
        omega
      exact ⟨ir, by simp [acceptUntilLoop, next_eof ir hle], rfl, rfl, hle⟩
    | cons x t =>
      have hsz1 := DecodeRune_size_pos x t
      have hsz2 := DecodeRune_size_le (x :: t)
      have hne : v ≠ (DecodeRune (x :: t)).1 := by
        by_cases hx : x < 0x80
        · rw [DecodeRune_ascii x t hx]
          intro h
          exact hnot (by simp [h])
        · have := DecodeRune_high x t (by omega)
          omega
      have hdrop2 : List.drop (ir.pos + (DecodeRune (x :: t)).2) ir.data =
          (x :: t).drop (DecodeRune (x :: t)).2 := by
        rw [← List.drop_drop, hdrop]
      have hlen : ((x :: t).drop (DecodeRune (x :: t)).2).length
          = (x :: t).length - (DecodeRune (x :: t)).2 := List.length_drop _ _
      obtain ⟨ir1, h1, h2, h3, h4⟩ := ih _ (by omega) _
        { ir with size := (DecodeRune (x :: t)).2, pos := ir.pos + (DecodeRune (x :: t)).2 } f
        rfl (fun h => hnot (List.mem_of_mem_drop h)) hdrop2 (by omega)
      refine ⟨ir1, ?_, h2, h3, h4⟩
      rw [acceptUntilLoop, next_some ir x _ hdrop]
      simp only [hne, if_false]
      exact h1

/-- At the end of input `key` recognises nothing. -/
theorem key_eof (fuel : Nat) (ir : Reader) (h : ir.data.length ≤ ir.pos) (hfuel : 0 < fuel) :
    ∃ ir1, ir.key fuel = some (ir1, false) ∧ ir1.out = ir.out := by
  have hdrop : ir.data.drop ir.pos = [] ++ [] := by
    simp [List.drop_eq_nil_of_le h]
  obtain ⟨ic, b, c1, c2, c3, c4⟩ := acceptSpace_run [] [] ir fuel (Or.inl rfl) (by simp)
    hdrop (by simpa using hfuel)
  have hle : ic.ignore.data.length ≤ ic.ignore.pos := by
    show ic.data.length ≤ ic.pos
    rw [c3, c4]
    simpa using h
  obtain ⟨f, rfl⟩ : ∃ f, fuel = f + 1 := ⟨fuel - 1, by omega⟩
  refine ⟨ic.ignore, ?_, c2⟩
  simp [key, c1, acceptUntilAny, acceptUntilAnyLoop, next_eof _ hle]

end Reader

namespace Reader

/-- The method `section` on a header line `[s]` that follows a run of
white space runes. -/
theorem section_line_run (fuel : Nat) (ir : Reader) (ws s rest : Bytes)
    (hws : isSpaceRun ws = true)
    (hdrop : ir.data.drop ir.pos = ws ++ 91 :: (s ++ 93 :: rest))
    (hs : s ≠ []) (hns : 93 ∉ s) (hfuel : ir.data.length - ir.pos < fuel) :
    ∃ ir1, ir.«section» fuel = some (ir1, true) ∧ ir1.out = ir.out ++ [(TokSection, s)] ∧
      ir1.data = ir.data ∧ ir1.pos = ir.pos + ws.length + 1 + s.length + 1 := by
  have hlen : ir.pos + (ws ++ 91 :: (s ++ 93 :: rest)).length ≤ ir.data.length := by
    rcases drop_length_le _ _ _ hdrop with h | h
    · exact h
    · simp at h
  simp only [List.length_append, List.length_cons] at hlen
  obtain ⟨ir1, b, h1, h2, h3, h4⟩ := acceptSpace_spaceRun 91 _ ws ir fuel (by omega) (by decide)
    hws hdrop (by omega)
  have hdrop1 : ir1.ignore.data.drop ir1.ignore.pos = 91 :: (s ++ 93 :: rest) := by
    show ir1.data.drop ir1.pos = _
    rw [h3, h4, ← List.drop_drop, hdrop]
    simp
  have h5 := accept_hit 91 (by omega) ir1.ignore _ hdrop1
  have hdrop2 : ir1.data.drop (ir1.pos + 1) = s ++ 93 :: rest := by
    have : ir1.data.drop ir1.pos = 91 :: (s ++ 93 :: rest) := hdrop1
    rw [← List.drop_drop, this]
    rfl
  let ir4 : Reader := { out := ir1.out, data := ir1.data, start := ir1.pos + 1,
                        pos := ir1.pos + 1, size := 1 }
  have h6 := acceptUntil_find 93 (by omega) rest s ir4 fuel hns hdrop2 (by omega)
  have hspos : 0 < s.length := List.length_pos.2 hs
  have hspan : (ir1.data.drop (ir1.pos + 1)).take (ir1.pos + 1 + s.length - (ir1.pos + 1)) = s :=
    span_eq ir1.data s _ (ir1.pos + 1) hdrop2
  have hdrop3 : ir1.data.drop (ir1.pos + 1 + s.length) = 93 :: rest := by
    rw [← List.drop_drop, hdrop2]
    simp
  have hn := next_some { out := ir1.out ++ [(TokSection, s)], data := ir1.data,
                         start := ir1.pos + 1 + s.length, pos := ir1.pos + 1 + s.length,
                         size := 1 } 93 _ hdrop3
  rw [DecodeRune_ascii 93 _ (by omega)] at hn
  refine ⟨{ out := ir1.out ++ [(TokSection, s)], data := ir1.data,
            start := ir1.pos + 1 + s.length + 1, pos := ir1.pos + 1 + s.length + 1,
            size := 1 }, ?_, ?_, h3, ?_⟩
  · simp only [«section», h1, h5]
    have h7 : ({ ir1.ignore with size := 1, pos := ir1.ignore.pos + 1 } : Reader).ignore = ir4 := rfl
    rw [h7, h6]
    simp only [hspos, decide_True, emit, ignore, skip, ir4, hspan]
    rw [hn]
  · simp [h2]
  · simp only [h4]

/-- The method `section` on a header that is never closed: the rest of
the input is consumed and nothing is emitted. -/
theorem section_unterminated (fuel : Nat) (ir : Reader) (ws rest : Bytes)
    (hws : isSpaceRun ws = true)
    (hdrop : ir.data.drop ir.pos = ws ++ 91 :: rest)
    (hr : 93 ∉ rest) (hfuel : ir.data.length - ir.pos < fuel) :
    ∃ ir1, ir.«section» fuel = some (ir1, false) ∧ ir1.out = ir.out ∧
      ir1.data.length ≤ ir1.pos := by
  have hlen : ir.pos + (ws ++ 91 :: rest).length ≤ ir.data.length := by
    rcases drop_length_le _ _ _ hdrop with h | h
    · exact h
    · simp at h
  simp only [List.length_append, List.length_cons] at hlen
  obtain ⟨ir1, b, h1, h2, h3, h4⟩ := acceptSpace_spaceRun 91 _ ws ir fuel (by omega) (by decide)
    hws hdrop (by omega)
  have hdrop1 : ir1.ignore.data.drop ir1.ignore.pos = 91 :: rest := by
    show ir1.data.drop ir1.pos = _
    rw [h3, h4, ← List.drop_drop, hdrop]
    simp
  have h5 := accept_hit 91 (by omega) ir1.ignore _ hdrop1
  have hdrop2 : ir1.data.drop (ir1.pos + 1) = rest := by
    have : ir1.data.drop ir1.pos = 91 :: rest := hdrop1
    rw [← List.drop_drop, this]
    rfl
  let ir4 : Reader := { out := ir1.out, data := ir1.data, start := ir1.pos + 1,
                        pos := ir1.pos + 1, size := 1 }
  obtain ⟨ir5, g1, g2, g3, g4⟩ := acceptUntilLoop_eof_scan 93 (by omega) _ rest ir4 fuel rfl hr
    hdrop2 (by omega)
  refine ⟨ir5, ?_, by rw [g2]; exact h2, g4⟩
  simp only [«section», h1, h5]
  have h7 : ({ ir1.ignore with size := 1, pos := ir1.ignore.pos + 1 } : Reader).ignore = ir4 := rfl
  rw [h7]
  simp [acceptUntil, g1]

end Reader

/-- C16 (unterminated section header).  For every input that is a run of
white space runes, a `[`, and a rest that holds no `]`: `Read` returns and
has emitted no token, whatever lines the rest holds. -/
theorem Read_unterminated_header (ws rest : Bytes) (hws : isSpaceRun ws = true)
    (hr : 93 ∉ rest) (fuel : Nat) (hfuel : ws.length + rest.length + 3 < fuel) :
    Read fuel (ws ++ 91 :: rest) = some [] := by
  obtain ⟨data1, hdata, hread⟩ := Read_cases fuel (ws ++ 91 :: rest)
  obtain ⟨f, rfl⟩ : ∃ f, fuel = f + 1 := ⟨fuel - 1, by omega⟩
  have hshape : ∃ rest1, data1 = ws ++ 91 :: rest1 ∧ rest1.length ≤ rest.length + 1 ∧
      93 ∉ rest1 := by
    rcases hdata with h | h
    · exact ⟨rest, h, by omega, hr⟩
    · refine ⟨rest ++ [10], by simp [h], by simp, ?_⟩
      intro hm
      rcases List.mem_append.1 hm with h1 | h1
      · exact hr h1
      · simp at h1
  obtain ⟨rest1, rfl, hlen, hr1⟩ := hshape
  obtain ⟨ia, a1, a2, a3, a4⟩ := Reader.comment_miss (f + 1)
    { out := [], data := ws ++ 91 :: rest1, start := 0, pos := 0, size := 0 }
    (ws ++ 91 :: rest1) (by simp) (Or.inr (Reader.spaceRun_bracket_first ws rest1 hws))
  obtain ⟨ib, b1, b2, b3⟩ := Reader.section_unterminated (f + 1) ia ws rest1 hws
    (by rw [a3, a4]; simp) hr1 (by rw [a3, a4]; simp; omega)
  obtain ⟨ic, c1, c2⟩ := Reader.key_eof (f + 1) ib b3 (by omega)
  rw [hread]
  simp [Reader.ReadLoop, a1, b1, c1, c2, b2, a2]

/-- The header `[abc` that is never closed, before a key line. -/
theorem Read_unterminated_header_witness :
    Read 20 ([32, 9] ++ 91 :: [97, 98, 99, 10, 120, 61, 121, 10]) = some [] :=
  Read_unterminated_header [32, 9] [97, 98, 99, 10, 120, 61, 121, 10] (by decide) (by decide) 20
    (by decide)

/-- C15 as stated fails for the empty name: on `[]` and a line feed `Read`
emits nothing, not the token `Section("")`. -/
theorem Read_empty_header_counterexample :
    Read 10 ([] ++ [91] ++ [] ++ [93, 10]) = some [] := by
  decide

/-- C15, amended.  For every run `ws` of white space runes and every name
text that is not empty and holds no `]`: `Read` on `ws`, `[`, the name,
`]` and a line feed emits exactly one token, `Section(name)`, whose span
is the text strictly between the brackets. -/
theorem Read_section_header (ws name : Bytes) (hws : isSpaceRun ws = true) (hn : name ≠ [])
    (hb : 93 ∉ name) (fuel : Nat) (hfuel : ws.length + name.length + 3 < fuel) :
    Read fuel (ws ++ [91] ++ name ++ [93, 10]) = some [(TokSection, name)] := by
  have hdata : ws ++ [91] ++ name ++ [93, 10] = (ws ++ 91 :: (name ++ [93])) ++ [10] := by simp
  rw [Read_of_newline fuel _ (by rw [hdata]; exact List.getLast?_concat _)]
  obtain ⟨f, rfl⟩ : ∃ f, fuel = f + 1 := ⟨fuel - 1, by omega⟩
  obtain ⟨f, rfl⟩ : ∃ g, f = g + 1 := ⟨f - 1, by omega⟩
  have hd0 : ws ++ [91] ++ name ++ [93, 10] = ws ++ 91 :: (name ++ 93 :: [10]) := by simp
  obtain ⟨ia, a1, a2, a3, a4⟩ := Reader.comment_miss (f + 1 + 1)
    { out := [], data := ws ++ [91] ++ name ++ [93, 10], start := 0, pos := 0, size := 0 }
    (ws ++ 91 :: (name ++ 93 :: [10])) (by simp)
    (Or.inr (Reader.spaceRun_bracket_first ws _ hws))
  obtain ⟨ib, b1, b2, b3, b4⟩ := Reader.section_line_run (f + 1 + 1) ia ws name [10] hws
    (by rw [a3, a4]; simp) hn hb (by rw [a3, a4]; simp; omega)
  have hdropb : ib.data.drop ib.pos = [10] := by
    rw [b3, b4, a3, a4]
    show List.drop _ (ws ++ [91] ++ name ++ [93, 10]) = [10]
    rw [hdata]
    exact drop_append_eq _ _ _ (by simp; omega)
  obtain ⟨ic, c1, c2⟩ := Reader.ReadLoop_end f ib [10] (by simp) hdropb
    (by rw [b3, b4, a3, a4]; simp; omega)
  have hloop : Reader.ReadLoop (f + 1 + 1)
      { out := [], data := ws ++ [91] ++ name ++ [93, 10], start := 0, pos := 0, size := 0 }
      = Reader.ReadLoop (f + 1) ib := by
    simp only [Reader.ReadLoop, a1, b1]
  rw [hloop, c1]
  simp [c2, b2, a2]

/-- The header `[keys]` after a space, a no-break space and a tab. -/
theorem Read_section_header_witness :
    Read 20 ([32, 194, 160, 9] ++ [91] ++ [107, 101, 121, 115] ++ [93, 10]) =
      some [(TokSection, [107, 101, 121, 115])] :=
  Read_section_header [32, 194, 160, 9] [107, 101, 121, 115] (by decide) (by decide) (by decide)
    20 (by decide)

/-! ## Lists of no elements -/

/-- What the tokens of the text `Save` writes for a well-formed document
leave under each name and key of a new document. -/
theorem fold_saveLines_get (d : File) (hwf : d.wellFormed) (n k : Bytes) :
    GoMap.get (((tokensOfLines (saveLines d)).foldl LoadState.handle
        (LoadState.init New)).i.sectionOf n) k = GoMap.get (d.sectionOf n) k := by
  have hwf1 := wellFormed_Section_global d hwf
  simp only [saveLines, tokensOfLines_append, List.foldl_append, tokensOfLines_sectionLines,
    List.length_nil, gt_iff_lt, Nat.lt_irrefl, if_false, List.nil_append]
  rw [File.Section_snd]
  obtain ⟨e1, e2⟩ := fold_entries (d.sectionOf []) (LoadState.init New)
    (sectionOK_sectionOf d hwf []) (fun k _ => init_New_get _ k)
  rw [fold_sections (d.Section []).1.Sections _ hwf1.1 hwf1.2
    (by
      intro m _ hm k
      rw [e2]
      have : ¬ (m = (LoadState.init New).sectionName) := hm
      simp only [this, false_and, if_false]
      exact init_New_get m k) n k]
  rw [e2]
  have hsec : ∀ m, m ≠ [] →
      GoMap.get (d.Section []).1.Sections m = GoMap.get d.Sections m := by
    intro m hm
    unfold File.Section
    cases hg : GoMap.get d.Sections [] with
    | some s => rfl
    | none => exact GoMap.get_set_other _ _ _ _ hm
  by_cases hn : n = []
  · subst hn
    have hname : (LoadState.init New).sectionName = [] := rfl
    simp only [ne_eq, not_true_eq_false, false_and, if_false, hname, true_and, init_New_get]
    cases hg : GoMap.get (d.sectionOf []) k with
    | none => simp
    | some v => simp
  · have hname : ¬ (n = (LoadState.init New).sectionName) := hn
    simp only [ne_eq, hn, not_false_eq_true, true_and, hname, false_and, if_false,
      init_New_get, hsec n hn]
    unfold File.sectionOf
    cases hg : GoMap.get d.Sections n with
    | none => simp [GoMap.get]
    | some s => simp

theorem entryLines_empty (key : Bytes) : entryLines key (Value.list []) = [] := rfl

theorem entries_dropEmpty (s : Section) :
    (s.map fun kv => entryLines kv.1 kv.2).flatten =
      ((dropEmpty s).map fun kv => entryLines kv.1 kv.2).flatten := by
  induction s with
  | nil => rfl
  | cons e rest ih =>
    obtain ⟨key, value⟩ := e
    by_cases h : value = Value.list []
    · subst h
      simp only [List.map_cons, List.flatten_cons, entryLines_empty, List.nil_append, ih]
      simp [dropEmpty, List.filter_cons]
    · have hd : dropEmpty ((key, value) :: rest) = (key, value) :: dropEmpty rest := by
        simp [dropEmpty, List.filter_cons, h]
      rw [hd]
      simp only [List.map_cons, List.flatten_cons, ih]

theorem sectionLines_dropEmpty (name : Bytes) (s : Section) :
    sectionLines name s = sectionLines name (dropEmpty s) := by
  simp only [sectionLines, entries_dropEmpty s]

theorem get_map_dropEmpty (m : GoMap Section) (n : Bytes) :
    GoMap.get (m.map fun ns => (ns.1, dropEmpty ns.2)) n = (GoMap.get m n).map dropEmpty := by
  induction m with
  | nil => rfl
  | cons e rest ih =>
    obtain ⟨n1, s1⟩ := e
    by_cases h : n1 = n
    · simp [GoMap.get, h]
    · simp [GoMap.get, h, ih]

theorem dropEmpty_Section (d : File) (n : Bytes) :
    d.dropEmpty.Section n = ((d.Section n).1.dropEmpty, dropEmpty (d.Section n).2) := by
  unfold File.Section
  simp only [File.dropEmpty, get_map_dropEmpty]
  cases hg : GoMap.get d.Sections n with
  | some s => rfl
  | none =>
    have hg2 : GoMap.get (d.Sections.map fun ns => (ns.1, dropEmpty ns.2)) n = none := by
      rw [get_map_dropEmpty, hg]
      rfl
    simp only [Option.map_none', GoMap.set_absent _ _ _ hg, GoMap.set_absent _ _ _ hg2,
      List.map_append, List.map_cons, List.map_nil]
    rfl

theorem sectionOf_dropEmpty (d : File) (n : Bytes) :
    d.dropEmpty.sectionOf n = dropEmpty (d.sectionOf n) := by
  simp only [File.sectionOf, File.dropEmpty, get_map_dropEmpty]
  cases GoMap.get d.Sections n <;> rfl

theorem saveLines_dropEmpty (d : File) : saveLines d = saveLines d.dropEmpty := by
  simp only [saveLines, dropEmpty_Section]
  rw [← sectionLines_dropEmpty]
  congr 1
  simp only [File.dropEmpty, List.map_map]
  congr 1
  apply List.map_congr_left
  intro ns _
  simp only [Function.comp]
  split_ifs
  · rfl
  · exact sectionLines_dropEmpty _ _

theorem sectionOK_dropEmpty (s : Section) (h : sectionLoose s) : sectionOK (dropEmpty s) := by
  refine ⟨?_, ?_⟩
  · exact List.Nodup.sublist (List.Sublist.map _ (List.filter_sublist _)) h.1
  · intro kv hkv
    simp only [dropEmpty, List.mem_filter, decide_eq_true_eq] at hkv
    obtain ⟨hmem, hne⟩ := hkv
    refine ⟨(h.2 kv hmem).1, ?_⟩
    have hv := (h.2 kv hmem).2
    cases hval : kv.2 with
    | str v => rw [hval] at hv; exact hv
    | list l =>
      rw [hval] at hv hne
      exact ⟨fun h0 => hne (by rw [h0]), hv⟩

theorem wellFormed_dropEmpty (d : File) (h : d.wellFormedLoose) : d.dropEmpty.wellFormed := by
  refine ⟨?_, ?_⟩
  · have : GoMap.keys d.dropEmpty.Sections = GoMap.keys d.Sections := by
      simp [GoMap.keys, File.dropEmpty, Function.comp]
    rw [this]
    exact h.1
  · intro ns hns
    simp only [File.dropEmpty, List.mem_map] at hns
    obtain ⟨ms, hms, rfl⟩ := hns
    exact ⟨(h.2 ms hms).1, sectionOK_dropEmpty ms.2 (h.2 ms hms).2⟩

theorem GoMap.get_of_mem {β : Type} (m : GoMap β) (k : Bytes) (v : β)
    (hnd : (GoMap.keys m).Nodup) (h : (k, v) ∈ m) : GoMap.get m k = some v := by
  induction m with
  | nil => simp at h
  | cons e rest ih =>
    obtain ⟨k1, v1⟩ := e
    simp only [GoMap.keys, List.map_cons, List.nodup_cons] at hnd
    rcases List.mem_cons.1 h with h1 | h1
    · injection h1 with h2 h3
      simp [GoMap.get, h2, h3]
    · have hk : k ∈ GoMap.keys rest := List.mem_map.2 ⟨(k, v), h1, rfl⟩
      have hne : ¬ k1 = k := fun e => hnd.1 (e ▸ hk)
      simp only [GoMap.get, hne, if_false]
      exact ih hnd.2 h1

theorem get_dropEmpty_none (s : Section) (k : Bytes) (hnd : (GoMap.keys s).Nodup)
    (h : GoMap.get s k = some (Value.list [])) : GoMap.get (dropEmpty s) k = none := by
  rw [GoMap.get_eq_none_iff]
  intro hk
  obtain ⟨kv, hkv, hfst⟩ := List.mem_map.1 hk
  simp only [dropEmpty, List.mem_filter, decide_eq_true_eq] at hkv
  obtain ⟨hmem, hne⟩ := hkv
  have hget := GoMap.get_of_mem s kv.1 kv.2 hnd hmem
  rw [hfst, h] at hget
  injection hget with hget
  exact hne hget.symm

theorem sectionLoose_sectionOf (d : File) (h : d.wellFormedLoose) (n : Bytes) :
    (GoMap.keys (d.sectionOf n)).Nodup := by
  unfold File.sectionOf
  cases hg : GoMap.get d.Sections n with
  | none => simp [GoMap.keys]
  | some s => exact (h.2 (n, s) (GoMap.get_some_mem _ _ _ hg)).2.1

/-- C11 (empty-list lossiness).  Let `d` be a document as in the round
trip, except that lists may be empty, in which key `k` of section `s`
holds a list of no elements.  Then `writeSection` prints no line for `k`:
the lines of the key are empty and the text of the section is that of
the section without such keys; and loading the text `Save` writes into a new
document returns a document in which `k` is no key of section `s`. -/
theorem Save_Load_empty_list (d : File) (hwf : d.wellFormedLoose) (s k : Bytes)
    (hk : GoMap.get (d.sectionOf s) k = some (Value.list [])) (fuel : Nat)
    (hfuel : (d.Save).2.length < fuel) :
    writeEntry k (Value.list []) = [] ∧
    writeSection s (d.sectionOf s) = writeSection s (dropEmpty (d.sectionOf s)) ∧
    GoMap.get (dropEmpty (d.sectionOf s)) k = none ∧
    ∃ d1, New.Load fuel (d.Save).2 = some d1 ∧ GoMap.get (d1.sectionOf s) k = none := by
  have hnone := get_dropEmpty_none (d.sectionOf s) k (sectionLoose_sectionOf d hwf s) hk
  refine ⟨rfl, ?_, hnone, ?_⟩
  · rw [← renderLines_sectionLines, ← renderLines_sectionLines, ← sectionLines_dropEmpty]
  · have hwf1 := wellFormed_dropEmpty d hwf
    rw [← renderLines_saveLines, saveLines_dropEmpty] at hfuel ⊢
    have hne : saveLines d.dropEmpty ≠ [] := by
      simp [saveLines, sectionLines]
    have hread := Read_lines (saveLines d.dropEmpty) (saveLines_ok _ hwf1) hne fuel hfuel
    refine ⟨_, Load_eq fuel New _ _ hread, ?_⟩
    rw [fold_saveLines_get _ hwf1, sectionOf_dropEmpty]
    exact hnone

set_option maxRecDepth 100000 in
/-- The key `bar` of the section `test`, set to a list of no elements. -/
theorem Save_Load_empty_list_witness :
    ∃ d1, New.Load 100 (setListDocument.Save).2 = some d1 ∧
      GoMap.get (d1.sectionOf [116, 101, 115, 116]) [98, 97, 114] = none :=
  (Save_Load_empty_list setListDocument (by decide) [116, 101, 115, 116] [98, 97, 114]
    (by decide) 100 (by decide)).2.2.2

/-! ## The reader in a buffer with text in front -/

namespace Reader

theorem Sim.drop {pre : Bytes} {a b : Reader} (h : Sim pre a b) :
    b.data.drop b.pos = a.data.drop a.pos := by
  obtain ⟨h1, _, h3, _⟩ := h
  rw [h1, h3, Nat.add_comm, ← List.drop_drop, List.drop_left]

/-- The method `next` on two readers that stand at the same place: both
are at the end of input, or both read the same rune. -/
theorem next_sim {pre : Bytes} {a b : Reader} (h : Sim pre a b) :
    (a.next = (a, none) ∧ b.next = (b, none)) ∨
    ∃ r sz, a.next = ({ a with size := sz, pos := a.pos + sz }, some r) ∧
      b.next = ({ b with size := sz, pos := b.pos + sz }, some r) := by
  have hd := h.drop
  obtain ⟨h1, _, h3, _⟩ := h
  by_cases hle : a.data.length ≤ a.pos
  · left
    refine ⟨next_eof a hle, next_eof b ?_⟩
    rw [h1, h3]
    simp
    omega
  · right
    cases hda : a.data.drop a.pos with
    | nil =>
      have := congrArg List.length hda
      simp at this
      omega
    | cons x t =>
      exact ⟨_, _, next_some a x t hda, next_some b x t (by rw [hd, hda])⟩

theorem Sim.step {pre : Bytes} {a b : Reader} (h : Sim pre a b) (sz1 sz2 n : Nat) :
    Sim pre { a with size := sz1, pos := a.pos + n } { b with size := sz2, pos := b.pos + n } := by
  obtain ⟨h1, h2, h3, h4⟩ := h
  exact ⟨h1, h2, by simp only [h3]; omega, h4⟩

theorem Sim.resize {pre : Bytes} {a b : Reader} (h : Sim pre a b) (sz1 sz2 : Nat) :
    Sim pre { a with size := sz1 } { b with size := sz2 } := by
  obtain ⟨h1, h2, h3, h4⟩ := h
  exact ⟨h1, h2, h3, h4⟩

theorem Sim.ignore {pre : Bytes} {a b : Reader} (h : Sim pre a b) : Sim pre a.ignore b.ignore := by
  obtain ⟨h1, h2, h3, h4⟩ := h
  exact ⟨h1, h3, h3, h4⟩

theorem Sim.emit {pre : Bytes} {a b : Reader} (h : Sim pre a b) (tt : TokenType) :
    Sim pre (a.emit tt) (b.emit tt) := by
  obtain ⟨h1, h2, h3, h4⟩ := h
  refine ⟨h1, h2, h3, ?_⟩
  simp only [Reader.emit, h1, h2, h3, h4]
  have e1 : List.drop (a.start + pre.length) (pre ++ a.data) = List.drop a.start a.data := by
    rw [Nat.add_comm, ← List.drop_drop, List.drop_left]
  have e2 : a.pos + pre.length - (a.start + pre.length) = a.pos - a.start := by omega
  rw [e1, e2]

/-- A `next` that read a rune, undone by `rewind`. -/
theorem rewind_step (a : Reader) (sz : Nat) :
    ({ a with size := sz, pos := a.pos + sz } : Reader).rewind = { a with size := sz } := by
  simp [rewind]

theorem Sim.skip {pre : Bytes} {a b : Reader} (h : Sim pre a b) : Sim pre a.skip b.skip := by
  rcases next_sim h with ⟨ha, hb⟩ | ⟨r, sz, ha, hb⟩
  · simp only [Reader.skip, ha, hb]
    exact h.ignore
  · simp only [Reader.skip, ha, hb]
    exact (h.step sz sz sz).ignore

theorem accept_sim {pre : Bytes} {a b : Reader} (h : Sim pre a b) (v : Nat) :
    Sim pre (a.accept v).1 (b.accept v).1 ∧ (a.accept v).2 = (b.accept v).2 := by
  rcases next_sim h with ⟨ha, hb⟩ | ⟨r, sz, ha, hb⟩
  · simp only [accept, ha, hb]
    exact ⟨h, trivial⟩
  · simp only [accept, ha, hb]
    by_cases hv : v = r
    · simp only [hv, ne_eq, not_true_eq_false, if_false]
      exact ⟨h.step sz sz sz, trivial⟩
    · simp only [ne_eq, hv, not_false_eq_true, if_true, rewind_step]
      exact ⟨h.resize sz sz, trivial⟩

end Reader

namespace Reader

theorem acceptUntilLoop_sim (pre : Bytes) (v : Nat) : ∀ (fuel : Nat) (a b : Reader),
    Sim pre a b → SimRes pre (acceptUntilLoop v fuel a) (acceptUntilLoop v fuel b) := by
  intro fuel
  induction fuel with
  | zero => intro a b _; exact Or.inl ⟨rfl, rfl⟩
  | succ f ih =>
    intro a b h
    rcases next_sim h with ⟨ha, hb⟩ | ⟨r, sz, ha, hb⟩
    · simp only [acceptUntilLoop, ha, hb]
      exact Or.inr ⟨a, b, false, rfl, rfl, h⟩
    · simp only [acceptUntilLoop, ha, hb]
      by_cases hv : v = r
      · simp only [hv, if_true, rewind_step]
        exact Or.inr ⟨_, _, true, rfl, rfl, h.resize sz sz⟩
      · simp only [hv, if_false]
        exact ih _ _ (h.step sz sz sz)

theorem acceptUntil_sim (pre : Bytes) (v fuel : Nat) (a b : Reader) (h : Sim pre a b) :
    SimRes pre (a.acceptUntil fuel v) (b.acceptUntil fuel v) := by
  rcases acceptUntilLoop_sim pre v fuel a b h with ⟨h1, h2⟩ | ⟨a1, b1, f, h1, h2, h3⟩
  · left
    simp [acceptUntil, h1, h2]
  · right
    cases f with
    | false => exact ⟨a1, b1, false, by simp [acceptUntil, h1], by simp [acceptUntil, h2], h3⟩
    | true =>
      refine ⟨a1, b1, decide (a1.pos > a.pos), by simp [acceptUntil, h1], ?_, h3⟩
      have e1 := h.2.2.1
      have e2 := h3.2.2.1
      simp only [acceptUntil, h2, e1, e2]
      have : (a1.pos + pre.length > a.pos + pre.length) = (a1.pos > a.pos) := by
        apply propext
        constructor <;> intro hh <;> omega
      simp only [this]

theorem acceptSpaceLoop_sim (pre : Bytes) : ∀ (fuel : Nat) (a b : Reader),
    Sim pre a b → SimRes pre (acceptSpaceLoop fuel a) (acceptSpaceLoop fuel b) := by
  intro fuel
  induction fuel with
  | zero => intro a b _; exact Or.inl ⟨rfl, rfl⟩
  | succ f ih =>
    intro a b h
    rcases next_sim h with ⟨ha, hb⟩ | ⟨r, sz, ha, hb⟩
    · simp only [acceptSpaceLoop, ha, hb]
      exact Or.inr ⟨a, b, false, rfl, rfl, h⟩
    · simp only [acceptSpaceLoop, ha, hb]
      by_cases hv : IsSpace r = true
      · simp only [hv, Bool.not_true, Bool.false_eq_true, if_false]
        exact ih _ _ (h.step sz sz sz)
      · simp only [Bool.not_eq_true] at hv
        simp only [hv, Bool.not_false, if_true, rewind_step]
        exact Or.inr ⟨_, _, true, rfl, rfl, h.resize sz sz⟩

theorem acceptSpace_sim (pre : Bytes) (fuel : Nat) (a b : Reader) (h : Sim pre a b) :
    SimRes pre (a.acceptSpace fuel) (b.acceptSpace fuel) := by
  rcases acceptSpaceLoop_sim pre fuel a b h with ⟨h1, h2⟩ | ⟨a1, b1, f, h1, h2, h3⟩
  · left
    simp [acceptSpace, h1, h2]
  · right
    cases f with
    | false => exact ⟨a1, b1, false, by simp [acceptSpace, h1], by simp [acceptSpace, h2], h3⟩
    | true =>
      refine ⟨a1, b1, decide (a1.pos > a.pos), by simp [acceptSpace, h1], ?_, h3⟩
      have e1 := h.2.2.1
      have e2 := h3.2.2.1
      simp only [acceptSpace, h2, e1, e2]
      have : (a1.pos + pre.length > a.pos + pre.length) = (a1.pos > a.pos) := by
        apply propext
        constructor <;> intro hh <;> omega
      simp only [this]

theorem acceptUntilAnyLoop_sim (pre : Bytes) (argv : List Nat) : ∀ (fuel : Nat) (a b : Reader),
    Sim pre a b →
    (acceptUntilAnyLoop argv fuel a = none ∧ acceptUntilAnyLoop argv fuel b = none) ∨
    ∃ a1 b1 r f, acceptUntilAnyLoop argv fuel a = some (a1, r, f) ∧
      acceptUntilAnyLoop argv fuel b = some (b1, r, f) ∧ Sim pre a1 b1 := by
  intro fuel
  induction fuel with
  | zero => intro a b _; exact Or.inl ⟨rfl, rfl⟩
  | succ f ih =>
    intro a b h
    rcases next_sim h with ⟨ha, hb⟩ | ⟨r, sz, ha, hb⟩
    · simp only [acceptUntilAnyLoop, ha, hb]
      exact Or.inr ⟨a, b, 0, false, rfl, rfl, h⟩
    · simp only [acceptUntilAnyLoop, ha, hb]
      by_cases hv : hasRune argv r = true
      · simp only [hv, if_true, rewind_step]
        exact Or.inr ⟨_, _, r, true, rfl, rfl, h.resize sz sz⟩
      · simp only [hv, Bool.false_eq_true, if_false]
        exact ih _ _ (h.step sz sz sz)

theorem acceptUntilAny_sim (pre : Bytes) (argv : List Nat) (fuel : Nat) (a b : Reader)
    (h : Sim pre a b) :
    (a.acceptUntilAny fuel argv = none ∧ b.acceptUntilAny fuel argv = none) ∨
    ∃ a1 b1 r f, a.acceptUntilAny fuel argv = some (a1, r, f) ∧
      b.acceptUntilAny fuel argv = some (b1, r, f) ∧ Sim pre a1 b1 := by
  rcases acceptUntilAnyLoop_sim pre argv fuel a b h with ⟨h1, h2⟩ | ⟨a1, b1, r, f, h1, h2, h3⟩
  · left
    simp [acceptUntilAny, h1, h2]
  · right
    cases f with
    | false =>
      exact ⟨a1, b1, r, false, by simp [acceptUntilAny, h1], by simp [acceptUntilAny, h2], h3⟩
    | true =>
      refine ⟨a1, b1, r, decide (a1.pos > a.pos), by simp [acceptUntilAny, h1], ?_, h3⟩
      have e1 := h.2.2.1
      have e2 := h3.2.2.1
      simp only [acceptUntilAny, h2, e1, e2]
      have : (a1.pos + pre.length > a.pos + pre.length) = (a1.pos > a.pos) := by
        apply propext
        constructor <;> intro hh <;> omega
      simp only [this]

end Reader

namespace Reader

theorem commentLoop_sim (pre : Bytes) : ∀ (fuel : Nat) (a b : Reader), Sim pre a b →
    (commentLoop fuel a = none ∧ commentLoop fuel b = none) ∨
    ∃ a1 b1, commentLoop fuel a = some a1 ∧ commentLoop fuel b = some b1 ∧ Sim pre a1 b1 := by
  intro fuel
  induction fuel with
  | zero => intro a b _; exact Or.inl ⟨rfl, rfl⟩
  | succ f ih =>
    intro a b h
    rcases acceptUntil_sim pre 10 (f + 1) a b h with ⟨h1, h2⟩ | ⟨a1, b1, fl, h1, h2, h3⟩
    · left
      simp [commentLoop, h1, h2]
    · cases fl with
      | true =>
        right
        exact ⟨a1, b1, by simp [commentLoop, h1], by simp [commentLoop, h2], h3⟩
      | false =>
        simp only [commentLoop, h1, h2]
        exact ih _ _ h3.skip

theorem comment_sim (pre : Bytes) (fuel : Nat) (a b : Reader) (h : Sim pre a b) :
    SimRes pre (a.comment fuel) (b.comment fuel) := by
  obtain ⟨h1, h2⟩ := accept_sim h 59
  cases ha : a.accept 59 with
  | mk a1 fa =>
    cases hb : b.accept 59 with
    | mk b1 fb =>
      rw [ha, hb] at h1 h2
      simp only at h1 h2
      subst h2
      cases fa with
      | false =>
        right
        exact ⟨a1, b1, false, by simp [comment, ha], by simp [comment, hb], h1⟩
      | true =>
        rcases commentLoop_sim pre fuel a1 b1 h1 with ⟨g1, g2⟩ | ⟨a2, b2, g1, g2, g3⟩
        · left
          simp [comment, ha, hb, g1, g2]
        · right
          exact ⟨a2.skip, b2.skip, true, by simp [comment, ha, g1], by simp [comment, hb, g2],
            g3.skip⟩

theorem value_sim (pre : Bytes) (fuel : Nat) (a b : Reader) (h : Sim pre a b) :
    SimRes pre (a.value fuel) (b.value fuel) := by
  rcases acceptUntil_sim pre 10 fuel a b h with ⟨h1, h2⟩ | ⟨a1, b1, fl, h1, h2, h3⟩
  · left
    simp [value, h1, h2]
  · right
    cases fl with
    | false => exact ⟨a1, b1, false, by simp [value, h1], by simp [value, h2], h3⟩
    | true =>
      exact ⟨_, _, true, by simp [value, h1], by simp [value, h2], (h3.emit TokValue).ignore⟩

theorem section_sim (pre : Bytes) (fuel : Nat) (a b : Reader) (h : Sim pre a b) :
    SimRes pre (a.«section» fuel) (b.«section» fuel) := by
  rcases acceptSpace_sim pre fuel a b h with ⟨h1, h2⟩ | ⟨a1, b1, fl, h1, h2, h3⟩
  · left
    simp [«section», h1, h2]
  · obtain ⟨g1, g2⟩ := accept_sim h3.ignore 91
    cases ha : a1.ignore.accept 91 with
    | mk a2 fa =>
      cases hb : b1.ignore.accept 91 with
      | mk b2 fb =>
        rw [ha, hb] at g1 g2
        simp only at g1 g2
        subst g2
        cases fa with
        | false =>
          right
          exact ⟨a2, b2, false, by simp [«section», h1, ha], by simp [«section», h2, hb], g1⟩
        | true =>
          rcases acceptUntil_sim pre 93 fuel a2.ignore b2.ignore g1.ignore with
            ⟨k1, k2⟩ | ⟨a3, b3, f3, k1, k2, k3⟩
          · left
            simp [«section», h1, h2, ha, hb, k1, k2]
          · right
            cases f3 with
            | false =>
              exact ⟨a3, b3, false, by simp [«section», h1, ha, k1],
                by simp [«section», h2, hb, k2], k3⟩
            | true =>
              exact ⟨_, _, true, by simp [«section», h1, ha, k1],
                by simp [«section», h2, hb, k2], ((k3.emit TokSection).ignore).skip⟩

theorem key_sim (pre : Bytes) (fuel : Nat) (a b : Reader) (h : Sim pre a b) :
    SimRes pre (a.key fuel) (b.key fuel) := by
  rcases acceptSpace_sim pre fuel a b h with ⟨h1, h2⟩ | ⟨a1, b1, fl, h1, h2, h3⟩
  · left
    simp [key, h1, h2]
  · rcases acceptUntilAny_sim pre [60, 61] fuel a1.ignore b1.ignore h3.ignore with
      ⟨k1, k2⟩ | ⟨a3, b3, r, f3, k1, k2, k3⟩
    · left
      simp [key, h1, h2, k1, k2]
    · cases f3 with
      | false =>
        right
        exact ⟨a3, b3, false, by simp [key, h1, k1], by simp [key, h2, k2], k3⟩
      | true =>
        have hs : Sim pre ((if r = 60 then a3.emit TokKeyList else a3.emit TokKey).ignore.skip)
            ((if r = 60 then b3.emit TokKeyList else b3.emit TokKey).ignore.skip) := by
          by_cases hr : r = 60
          · simp only [hr, if_true]
            exact ((k3.emit TokKeyList).ignore).skip
          · simp only [hr, if_false]
            exact ((k3.emit TokKey).ignore).skip
        have hv := value_sim pre fuel _ _ hs
        simp only [key, h1, h2, k1, k2]
        exact hv

/-- The main loop on two readers that stand at the same place: both run
out of fuel, or both return, with the same tokens. -/
theorem ReadLoop_sim (pre : Bytes) : ∀ (fuel : Nat) (a b : Reader), Sim pre a b →
    (ReadLoop fuel a = none ∧ ReadLoop fuel b = none) ∨
    ∃ a1 b1, ReadLoop fuel a = some a1 ∧ ReadLoop fuel b = some b1 ∧ Sim pre a1 b1 := by
  intro fuel
  induction fuel with
  | zero => intro a b _; exact Or.inl ⟨rfl, rfl⟩
  | succ f ih =>
    intro a b h
    rcases comment_sim pre (f + 1) a b h with ⟨c1, c2⟩ | ⟨a1, b1, fc, c1, c2, c3⟩
    · left
      simp [ReadLoop, c1, c2]
    · cases fc with
      | true =>
        simp only [ReadLoop, c1, c2]
        exact ih _ _ c3
      | false =>
        rcases section_sim pre (f + 1) a1 b1 c3 with ⟨s1, s2⟩ | ⟨a2, b2, fs, s1, s2, s3⟩
        · left
          simp [ReadLoop, c1, c2, s1, s2]
        · cases fs with
          | true =>
            simp only [ReadLoop, c1, c2, s1, s2]
            exact ih _ _ s3
          | false =>
            rcases key_sim pre (f + 1) a2 b2 s3 with ⟨k1, k2⟩ | ⟨a3, b3, fk, k1, k2, k3⟩
            · left
              simp [ReadLoop, c1, c2, s1, s2, k1, k2]
            · cases fk with
              | true =>
                simp only [ReadLoop, c1, c2, s1, s2, k1, k2]
                exact ih _ _ k3
              | false =>
                right
                exact ⟨a3, b3, by simp [ReadLoop, c1, s1, k1], by simp [ReadLoop, c2, s2, k2], k3⟩

theorem ReadLoop_sim_out (pre : Bytes) (fuel : Nat) (a b : Reader) (h : Sim pre a b) :
    (ReadLoop fuel a).map (fun ir => ir.out) = (ReadLoop fuel b).map (fun ir => ir.out) := by
  rcases ReadLoop_sim pre fuel a b h with ⟨h1, h2⟩ | ⟨a1, b1, h1, h2, h3⟩
  · rw [h1, h2]
  · rw [h1, h2]
    simp [h3.2.2.2]

end Reader

namespace Reader

/-- The method `comment` on a comment line with a body that is not empty:
the line and its line feed are consumed and nothing is emitted. -/
theorem comment_line (fuel : Nat) (ir : Reader) (c rest : Bytes)
    (hdrop : ir.data.drop ir.pos = 59 :: (c ++ 10 :: rest))
    (hc : c ≠ []) (hnl : 10 ∉ c) (hfuel : c.length < fuel) :
    ir.comment fuel =
      some ({ ir with size := 1, pos := ir.pos + 1 + c.length + 1, start := ir.pos + 1 + c.length + 1 }, true) := by
  obtain ⟨f, rfl⟩ : ∃ f, fuel = f + 1 := ⟨fuel - 1, by omega⟩
  have h1 := accept_hit 59 (by omega) ir _ hdrop
  have hdrop1 : List.drop (ir.pos + 1) ir.data = c ++ 10 :: rest := by
    rw [← List.drop_drop, hdrop]
    rfl
  have h2 := acceptUntil_find 10 (by omega) rest c { ir with size := 1, pos := ir.pos + 1 }
    (f + 1) hnl hdrop1 hfuel
  have hcpos : 0 < c.length := List.length_pos.2 hc
  have hdrop2 : List.drop (ir.pos + 1 + c.length) ir.data = 10 :: rest := by
    rw [← List.drop_drop, hdrop1]
    simp
  have hn := next_some { ir with size := 1, pos := ir.pos + 1 + c.length } 10 rest hdrop2
  rw [DecodeRune_ascii 10 rest (by omega)] at hn
  simp only [comment, h1, commentLoop, h2, hcpos, decide_True, skip, hn, ignore]

end Reader

/-- The main loop on a buffer that starts with a comment line whose body
is not empty, and on the buffer without that line. -/
theorem ReadLoop_leading_comment (c rest1 : Bytes) (hc : c ≠ []) (hnl : 10 ∉ c) (fuel : Nat)
    (hfuel : c.length < fuel) :
    (Reader.ReadLoop (fuel + 1)
      { out := [], data := 59 :: (c ++ 10 :: rest1), start := 0, pos := 0, size := 0 }).map
        (fun ir => ir.out) =
    (Reader.ReadLoop fuel
      { out := [], data := rest1, start := 0, pos := 0, size := 0 }).map (fun ir => ir.out) := by
  have h1 := Reader.comment_line (fuel + 1)
    { out := [], data := 59 :: (c ++ 10 :: rest1), start := 0, pos := 0, size := 0 } c rest1
    rfl hc hnl (by omega)
  have hloop : Reader.ReadLoop (fuel + 1)
      { out := [], data := 59 :: (c ++ 10 :: rest1), start := 0, pos := 0, size := 0 } =
      Reader.ReadLoop fuel
        { out := [], data := 59 :: (c ++ 10 :: rest1), start := 0 + 1 + c.length + 1, pos := 0 + 1 + c.length + 1, size := 1 } := by
    simp only [Reader.ReadLoop, h1]
  rw [hloop]
  symm
  apply Reader.ReadLoop_sim_out (59 :: (c ++ [10]))
  refine ⟨by simp, ?_, ?_, rfl⟩
  · simp; omega
  · simp; omega

/-- C20 (a leading comment with a body is skipped).  For every comment
text `c` that is not empty and holds no line feed, and every buffer
`rest`, `Read` on `;`, `c`, a line feed and `rest` gives what `Read` gives
on `rest`: the same tokens, or no return in either case.  The comment
takes one turn of the main loop, so one more unit of fuel, and the fuel
must cover the scan of the comment. -/
theorem Read_leading_comment (c rest : Bytes) (hc : c ≠ []) (hnl : 10 ∉ c) (fuel : Nat)
    (hfuel : c.length < fuel) :
    Read (fuel + 1) (59 :: (c ++ 10 :: rest)) = Read fuel rest := by
  have hcpos : 0 < c.length := List.length_pos.2 hc
  by_cases hrest : rest = []
  · subst hrest
    have hA : (59 :: (c ++ [10])).getLast? = some 10 := by
      have : 59 :: (c ++ [10]) = (59 :: c) ++ [10] := by simp
      rw [this]
      exact List.getLast?_concat _
    rw [Read_of_newline _ _ hA, ReadLoop_leading_comment c [] hc hnl fuel hfuel,
      Read_append_newline fuel [] (by simp)]
    obtain ⟨f, rfl⟩ : ∃ f, fuel = f + 1 := ⟨fuel - 1, by omega⟩
    obtain ⟨i1, a1, a2⟩ := Reader.ReadLoop_end f
      { out := [], data := [], start := 0, pos := 0, size := 0 } [] (by simp) rfl (by simp)
    obtain ⟨i2, b1, b2⟩ := Reader.ReadLoop_end f
      { out := [], data := [] ++ [10], start := 0, pos := 0, size := 0 } [10] (by simp) rfl
      (by simp; omega)
    rw [a1, b1]
    simp [a2, b2]
  · have hlast : (59 :: (c ++ 10 :: rest)).getLast? = rest.getLast? := by
      have : 59 :: (c ++ 10 :: rest) = (59 :: (c ++ [10])) ++ rest := by simp
      rw [this, List.getLast?_append_of_ne_nil _ hrest]
    by_cases h10 : rest.getLast? = some 10
    · rw [Read_of_newline _ _ (by rw [hlast]; exact h10), Read_of_newline _ _ h10]
      exact ReadLoop_leading_comment c rest hc hnl fuel hfuel
    · rw [Read_append_newline _ _ (by rw [hlast]; exact h10), Read_append_newline _ _ h10]
      have : 59 :: (c ++ 10 :: rest) ++ [10] = 59 :: (c ++ 10 :: (rest ++ [10])) := by simp
      rw [this]
      exact ReadLoop_leading_comment c (rest ++ [10]) hc hnl fuel hfuel

/-- The comment `;x` before the line `c=d`. -/
theorem Read_leading_comment_witness :
    Read (10 + 1) (59 :: ([120] ++ 10 :: [99, 61, 100, 10])) = Read 10 [99, 61, 100, 10] :=
  Read_leading_comment [120] [99, 61, 100, 10] (by decide) (by decide) 10 (by decide)

/-! ## Runes and their bytes -/

/-- The bytes of a rune decoded from a byte of 0x80 or more are all 0x80
or more. -/
theorem DecodeRune_bytes_high (x : Nat) (t : Bytes) (hx : 0x80 ≤ x) :
    ∀ b ∈ (x :: t).take (DecodeRune (x :: t)).2, 0x80 ≤ b := by
  rcases t with _ | ⟨b1, _ | ⟨b2, _ | ⟨b3, t⟩⟩⟩ <;>
    simp only [DecodeRune] <;>
    split_ifs <;>
    simp only [acceptLo, acceptHi, isCont, Bool.or_eq_true, decide_eq_true_eq, not_or, not_lt,
      Bool.not_eq_true, Bool.and_eq_true, Bool.not_eq_true', Bool.and_eq_false_iff,
      List.take_succ_cons, List.take_zero, List.mem_cons, List.mem_singleton,
      List.not_mem_nil, or_false, forall_eq_or_imp, forall_eq, List.take_nil,
      decide_eq_false_iff_not, not_le, not_not] at * <;>
    (try split_ifs at *) <;> omega

/-- An ASCII byte that is not the rune decoded does not occur among the
bytes of that rune. -/
theorem DecodeRune_not_mem (v : Nat) (hv : v < 0x80) (l : Bytes)
    (h : v ≠ (DecodeRune l).1) : v ∉ l.take (DecodeRune l).2 := by
  rcases l with _ | ⟨x, t⟩
  · simp
  · by_cases hx : x < 0x80
    · rw [DecodeRune_ascii x t hx] at h ⊢
      simp only [List.take_succ_cons, List.take_zero, List.mem_singleton]
      exact h
    · intro hm
      have := DecodeRune_bytes_high x t (by omega) v hm
      omega

/-- The first rune of a non-empty prefix of a buffer is the first rune of
the buffer, unless the prefix cuts it, and then it is `RuneError`. -/
theorem DecodeRune_prefix (p q : Bytes) (hp : p ≠ []) :
    DecodeRune p = DecodeRune (p ++ q) ∨ (DecodeRune p).1 = RuneError := by
  rcases p with _ | ⟨x, t⟩
  · exact absurd rfl hp
  by_cases h1 : x < 0x80
  · left; simp [DecodeRune, h1]
  by_cases h2 : x < 0xC2
  · left; simp [DecodeRune, h1, h2]
  by_cases h3 : x < 0xE0
  · rcases t with _ | ⟨b1, t⟩
    · right; simp [DecodeRune, h1, h2, h3]
    · left; simp [DecodeRune, h1, h2, h3]
  by_cases h4 : x < 0xF0
  · rcases t with _ | ⟨b1, _ | ⟨b2, t⟩⟩
    · right; simp [DecodeRune, h1, h2, h3, h4]
    · right; simp [DecodeRune, h1, h2, h3, h4]
    · left; simp [DecodeRune, h1, h2, h3, h4]
  by_cases h5 : x < 0xF5
  · rcases t with _ | ⟨b1, _ | ⟨b2, _ | ⟨b3, t⟩⟩⟩
    · right; simp [DecodeRune, h1, h2, h3, h4, h5]
    · right; simp [DecodeRune, h1, h2, h3, h4, h5]
    · right; simp [DecodeRune, h1, h2, h3, h4, h5]
    · left; simp [DecodeRune, h1, h2, h3, h4, h5]
  · left; simp [DecodeRune, h1, h2, h3, h4, h5]

theorem IsSpace_RuneError : IsSpace RuneError = false := by decide

/-- A non-empty prefix of a buffer whose first rune is not white space
starts with a rune that is not white space. -/
theorem keySpan_take (l : Bytes) (n : Nat) (hn : 0 < n) (hl : l ≠ [])
    (h : IsSpace (DecodeRune l).1 = false) : keySpan (l.take n) = true := by
  have hne : l.take n ≠ [] := by
    rcases l with _ | ⟨x, t⟩
    · exact absurd rfl hl
    · obtain ⟨m, rfl⟩ : ∃ m, n = m + 1 := ⟨n - 1, by omega⟩
      simp
  have := DecodeRune_prefix (l.take n) (l.drop n) hne
  rw [List.take_append_drop] at this
  simp only [keySpan, hne, ne_eq, not_false_eq_true, decide_True, Bool.true_and,
    Bool.not_eq_true']
  rcases this with h1 | h1
  · rw [h1]; exact h
  · rw [h1]; exact IsSpace_RuneError

/-! ## Trimming a key span -/

/-- When the last rune of a buffer is white space and the first is not,
the last rune is not the whole buffer. -/
theorem DecodeLastRune_lt (s : Bytes) (hfirst : IsSpace (DecodeRune s).1 = false)
    (h : IsSpace (DecodeLastRune s).1 = true) : (DecodeLastRune s).2 < s.length := by
  rcases s with _ | ⟨a, t⟩
  · simp [DecodeLastRune, IsSpace_RuneError] at h
  · have he : ¬ (a :: t).length = 0 := by simp
    by_cases hr : (a :: t).getD ((a :: t).length - 1) 0 < 0x80
    · simp only [DecodeLastRune, he, if_false, hr, if_true] at h ⊢
      rcases t with _ | ⟨b, t⟩
      · simp only [List.length_singleton, Nat.sub_self, List.getD_cons_zero] at h hr
        rw [DecodeRune_ascii a [] hr] at hfirst
        rw [h] at hfirst
        exact absurd hfirst (by simp)
      · simp
    · simp only [DecodeLastRune, he, if_false, hr] at h ⊢
      generalize hst : lastRuneStart (a :: t) (min 3 ((a :: t).length - 1))
        ((a :: t).length - 2) = st at h ⊢
      generalize hd : DecodeRune ((a :: t).drop st) = d at h ⊢
      obtain ⟨r1, size⟩ := d
      dsimp only at h ⊢
      by_cases heq : st + size = (a :: t).length
      · simp only [heq, ne_eq, not_true_eq_false, if_false] at h ⊢
        by_cases h0 : st = 0
        · rw [h0, List.drop_zero] at hd
          rw [hd] at hfirst
          rw [h] at hfirst
          exact absurd hfirst (by simp)
        · omega
      · simp only [ne_eq, heq, not_false_eq_true, if_true, IsSpace_RuneError] at h
        exact absurd h (by simp)

/-- What `trimRightLen` keeps of a buffer whose first rune is not white
space is not empty. -/
theorem trimRightLen_pos : ∀ (n : Nat) (s : Bytes), s ≠ [] →
    IsSpace (DecodeRune s).1 = false → 0 < trimRightLen n s := by
  intro n
  induction n with
  | zero =>
    intro s hs _
    exact List.length_pos.2 hs
  | succ n ih =>
    intro s hs hfirst
    rcases s with _ | ⟨a, t⟩
    · exact absurd rfl hs
    · simp only [trimRightLen]
      split_ifs with hsp
      · have hlt := DecodeLastRune_lt (a :: t) hfirst hsp
        have hk := keySpan_take (a :: t) ((a :: t).length - (DecodeLastRune (a :: t)).2)
          (by omega) hs hfirst
        simp only [keySpan, Bool.and_eq_true, decide_eq_true_eq, Bool.not_eq_true'] at hk
        exact ih _ hk.1 hk.2
      · simp

/-- A key span trims to a text that is not empty. -/
theorem TrimSpace_keySpan (k : Bytes) (h : keySpan k = true) : TrimSpace k ≠ [] := by
  simp only [keySpan, Bool.and_eq_true, decide_eq_true_eq, Bool.not_eq_true'] at h
  obtain ⟨hk, hfirst⟩ := h
  have hl : trimLeftSpace k.length k = k := by
    rcases k with _ | ⟨a, t⟩
    · exact absurd rfl hk
    · simp [trimLeftSpace, hfirst]
  have hpos := trimRightLen_pos k.length k hk hfirst
  simp only [TrimSpace, hl]
  intro h0
  have := congrArg List.length h0
  simp only [List.length_take, List.length_nil] at this
  have := List.length_pos.2 hk
  omega

/-! ## What each method of the reader leaves unchanged -/

namespace Reader

/-- The two outcomes of `next`: at the end of input nothing changes;
before it, one rune of one byte at least, and within the buffer, is read. -/
theorem next_cases (ir : Reader) :
    (ir.data.length ≤ ir.pos ∧ ir.next = (ir, none)) ∨
    (ir.pos < ir.data.length ∧
      ir.next = ({ ir with size := (DecodeRune (ir.data.drop ir.pos)).2,
                           pos := ir.pos + (DecodeRune (ir.data.drop ir.pos)).2 },
                 some (DecodeRune (ir.data.drop ir.pos)).1) ∧
      1 ≤ (DecodeRune (ir.data.drop ir.pos)).2 ∧
      ir.pos + (DecodeRune (ir.data.drop ir.pos)).2 ≤ ir.data.length) := by
  by_cases h : ir.data.length ≤ ir.pos
  · exact Or.inl ⟨h, next_eof ir h⟩
  · right
    have hlt : ir.pos < ir.data.length := by omega
    have hle := DecodeRune_size_le (ir.data.drop ir.pos)
    rw [List.length_drop] at hle
    rcases hd : ir.data.drop ir.pos with _ | ⟨x, t⟩
    · have := congrArg List.length hd
      simp only [List.length_drop, List.length_nil] at this
      omega
    · have hpos := DecodeRune_size_pos x t
      rw [hd] at hle
      refine ⟨hlt, ?_, hpos, by omega⟩
      rw [← hd]
      simp [next, h]

theorem acceptUntilLoop_frame (v : Nat) (hv : v < 0x80) :
    ∀ (fuel : Nat) (ir res : Reader) (f : Bool),
      acceptUntilLoop v fuel ir = some (res, f) → ir.pos ≤ ir.data.length →
      res.data = ir.data ∧ res.out = ir.out ∧ res.start = ir.start ∧ ir.pos ≤ res.pos ∧
      res.pos ≤ ir.data.length ∧ v ∉ (ir.data.drop ir.pos).take (res.pos - ir.pos) := by
  intro fuel
  induction fuel with
  | zero => intro ir res f h; simp [acceptUntilLoop] at h
  | succ fuel ih =>
    intro ir res f h hinv
    rcases next_cases ir with ⟨_, h2⟩ | ⟨h1, h2, h3, h4⟩
    · simp only [acceptUntilLoop, h2, Option.some.injEq, Prod.mk.injEq] at h
      obtain ⟨rfl, _⟩ := h
      simp [hinv]
    · simp only [acceptUntilLoop, h2] at h
      by_cases hvr : v = (DecodeRune (ir.data.drop ir.pos)).1
      · rw [if_pos hvr] at h
        simp only [Option.some.injEq, Prod.mk.injEq] at h
        obtain ⟨rfl, _⟩ := h
        simp [rewind, hinv]
      · rw [if_neg hvr] at h
        obtain ⟨a1, a2, a3, a4, a5, a6⟩ := ih _ res f h h4
        simp only at a1 a2 a3 a4 a5 a6
        refine ⟨a1, a2, a3, by omega, a5, ?_⟩
        have hsplit : res.pos - ir.pos = (DecodeRune (ir.data.drop ir.pos)).2 +
            (res.pos - (ir.pos + (DecodeRune (ir.data.drop ir.pos)).2)) := by omega
        rw [hsplit, List.take_add, List.drop_drop]
        intro hm
        rcases List.mem_append.1 hm with hm | hm
        · exact DecodeRune_not_mem v hv _ hvr hm
        · exact a6 hm

theorem acceptUntil_frame (v : Nat) (hv : v < 0x80) (fuel : Nat) (ir res : Reader) (f : Bool)
    (h : ir.acceptUntil fuel v = some (res, f)) (hinv : ir.pos ≤ ir.data.length) :
    res.data = ir.data ∧ res.out = ir.out ∧ res.start = ir.start ∧ ir.pos ≤ res.pos ∧
    res.pos ≤ ir.data.length ∧ v ∉ (ir.data.drop ir.pos).take (res.pos - ir.pos) ∧
    (f = true → ir.pos < res.pos) := by
  simp only [acceptUntil] at h
  rcases hl : acceptUntilLoop v fuel ir with _ | ⟨r1, f1⟩
  · simp [hl] at h
  · obtain ⟨a1, a2, a3, a4, a5, a6⟩ := acceptUntilLoop_frame v hv fuel ir r1 f1 hl hinv
    rw [hl] at h
    cases f1 with
    | false =>
      simp only [Option.some.injEq, Prod.mk.injEq] at h
      obtain ⟨rfl, rfl⟩ := h
      exact ⟨a1, a2, a3, a4, a5, a6, by simp⟩
    | true =>
      simp only [Option.some.injEq, Prod.mk.injEq] at h
      obtain ⟨rfl, rfl⟩ := h
      exact ⟨a1, a2, a3, a4, a5, a6, by simp⟩

theorem acceptUntilAnyLoop_frame (argv : List Nat) :
    ∀ (fuel : Nat) (ir res : Reader) (r : Nat) (f : Bool),
      acceptUntilAnyLoop argv fuel ir = some (res, r, f) → ir.pos ≤ ir.data.length →
      res.data = ir.data ∧ res.out = ir.out ∧ res.start = ir.start ∧ ir.pos ≤ res.pos ∧
      res.pos ≤ ir.data.length := by
  intro fuel
  induction fuel with
  | zero => intro ir res r f h; simp [acceptUntilAnyLoop] at h
  | succ fuel ih =>
    intro ir res r f h hinv
    rcases next_cases ir with ⟨_, h2⟩ | ⟨h1, h2, h3, h4⟩
    · simp only [acceptUntilAnyLoop, h2, Option.some.injEq, Prod.mk.injEq] at h
      obtain ⟨rfl, _⟩ := h
      simp [hinv]
    · simp only [acceptUntilAnyLoop, h2] at h
      by_cases hvr : hasRune argv (DecodeRune (ir.data.drop ir.pos)).1 = true
      · rw [if_pos hvr] at h
        simp only [Option.some.injEq, Prod.mk.injEq] at h
        obtain ⟨rfl, _⟩ := h
        simp [rewind, hinv]
      · rw [if_neg hvr] at h
        obtain ⟨a1, a2, a3, a4, a5⟩ := ih _ res r f h h4
        simp only at a1 a2 a3 a4 a5
        exact ⟨a1, a2, a3, by omega, a5⟩

theorem acceptUntilAny_frame (argv : List Nat) (fuel : Nat) (ir res : Reader) (r : Nat)
    (f : Bool) (h : ir.acceptUntilAny fuel argv = some (res, r, f))
    (hinv : ir.pos ≤ ir.data.length) :
    res.data = ir.data ∧ res.out = ir.out ∧ res.start = ir.start ∧ ir.pos ≤ res.pos ∧
    res.pos ≤ ir.data.length ∧ (f = true → ir.pos < res.pos) := by
  simp only [acceptUntilAny] at h
  rcases hl : acceptUntilAnyLoop argv fuel ir with _ | ⟨r1, x1, f1⟩
  · simp [hl] at h
  · obtain ⟨a1, a2, a3, a4, a5⟩ := acceptUntilAnyLoop_frame argv fuel ir r1 x1 f1 hl hinv
    rw [hl] at h
    cases f1 with
    | false =>
      simp only [Option.some.injEq, Prod.mk.injEq] at h
      obtain ⟨rfl, _, rfl⟩ := h
      exact ⟨a1, a2, a3, a4, a5, by simp⟩
    | true =>
      simp only [Option.some.injEq, Prod.mk.injEq] at h
      obtain ⟨rfl, _, rfl⟩ := h
      exact ⟨a1, a2, a3, a4, a5, by simp⟩

theorem acceptSpaceLoop_frame :
    ∀ (fuel : Nat) (ir res : Reader) (f : Bool),
      acceptSpaceLoop fuel ir = some (res, f) → ir.pos ≤ ir.data.length →
      res.data = ir.data ∧ res.out = ir.out ∧ res.start = ir.start ∧ ir.pos ≤ res.pos ∧
      res.pos ≤ ir.data.length ∧
      (res.pos < ir.data.length → IsSpace (DecodeRune (ir.data.drop res.pos)).1 = false) := by
  intro fuel
  induction fuel with
  | zero => intro ir res f h; simp [acceptSpaceLoop] at h
  | succ fuel ih =>
    intro ir res f h hinv
    rcases next_cases ir with ⟨h1, h2⟩ | ⟨h1, h2, h3, h4⟩
    · simp only [acceptSpaceLoop, h2, Option.some.injEq, Prod.mk.injEq] at h
      obtain ⟨rfl, _⟩ := h
      refine ⟨rfl, rfl, rfl, Nat.le_refl _, hinv, ?_⟩
      intro hlt
      omega
    · simp only [acceptSpaceLoop, h2] at h
      by_cases hvr : IsSpace (DecodeRune (ir.data.drop ir.pos)).1 = true
      · simp only [hvr, Bool.not_true, Bool.false_eq_true, if_false] at h
        obtain ⟨a1, a2, a3, a4, a5, a6⟩ := ih _ res f h h4
        simp only at a1 a2 a3 a4 a5 a6
        exact ⟨a1, a2, a3, by omega, a5, a6⟩
      · simp only [Bool.not_eq_true] at hvr
        simp only [hvr, Bool.not_false, if_true, Option.some.injEq, Prod.mk.injEq] at h
        obtain ⟨rfl, _⟩ := h
        simp [rewind, hinv, hvr]

theorem acceptSpace_frame (fuel : Nat) (ir res : Reader) (f : Bool)
    (h : ir.acceptSpace fuel = some (res, f)) (hinv : ir.pos ≤ ir.data.length) :
    res.data = ir.data ∧ res.out = ir.out ∧ res.start = ir.start ∧ ir.pos ≤ res.pos ∧
    res.pos ≤ ir.data.length ∧
    (res.pos < ir.data.length → IsSpace (DecodeRune (ir.data.drop res.pos)).1 = false) := by
  simp only [acceptSpace] at h
  rcases hl : acceptSpaceLoop fuel ir with _ | ⟨r1, f1⟩
  · simp [hl] at h
  · have := acceptSpaceLoop_frame fuel ir r1 f1 hl hinv
    rw [hl] at h
    cases f1 with
    | false =>
      simp only [Option.some.injEq, Prod.mk.injEq] at h
      obtain ⟨rfl, rfl⟩ := h
      exact this
    | true =>
      simp only [Option.some.injEq, Prod.mk.injEq] at h
      obtain ⟨rfl, rfl⟩ := h
      exact this

theorem accept_frame (v : Nat) (ir res : Reader) (f : Bool) (h : ir.accept v = (res, f))
    (hinv : ir.pos ≤ ir.data.length) :
    res.data = ir.data ∧ res.out = ir.out ∧ res.start = ir.start ∧
    res.pos ≤ ir.data.length := by
  rcases next_cases ir with ⟨_, h2⟩ | ⟨h1, h2, h3, h4⟩
  · simp only [accept, h2, Prod.mk.injEq] at h
    obtain ⟨rfl, _⟩ := h
    exact ⟨rfl, rfl, rfl, hinv⟩
  · simp only [accept, h2] at h
    split_ifs at h
    · simp only [Prod.mk.injEq] at h
      obtain ⟨rfl, _⟩ := h
      simp [rewind, hinv]
    · simp only [Prod.mk.injEq] at h
      obtain ⟨rfl, _⟩ := h
      exact ⟨rfl, rfl, rfl, h4⟩

theorem skip_frame (ir : Reader) (hinv : ir.pos ≤ ir.data.length) :
    ir.skip.data = ir.data ∧ ir.skip.out = ir.out ∧ ir.skip.start = ir.skip.pos ∧
    ir.skip.pos ≤ ir.data.length := by
  rcases next_cases ir with ⟨_, h2⟩ | ⟨h1, h2, h3, h4⟩
  · simp [skip, h2, ignore, hinv]
  · simp [skip, h2, ignore, h4]

end Reader

/-! ## The shape of the token stream -/

theorem shapeFrom_mono (b : Bool) (ts : List Token) (h : shapeFrom false ts = true) :
    shapeFrom b ts = true := by
  rcases ts with _ | ⟨⟨tt, v⟩, ts⟩
  · rfl
  · cases tt <;> simp_all [shapeFrom]

theorem shapeFrom_append : ∀ (xs ys : List Token) (b : Bool), shapeFrom b xs = true →
    shapeFrom false ys = true → shapeFrom b (xs ++ ys) = true := by
  intro xs
  induction xs with
  | nil =>
    intro ys b _ h
    exact shapeFrom_mono b ys h
  | cons t xs ih =>
    intro ys b h1 h2
    obtain ⟨tt, v⟩ := t
    cases tt <;>
      simp only [List.cons_append, shapeFrom, Bool.and_eq_true] at h1 ⊢
    · exact ih ys _ h1 h2
    · exact ⟨h1.1, ih ys _ h1.2 h2⟩
    · exact ⟨h1.1, ih ys _ h1.2 h2⟩
    · exact ⟨h1.1, ih ys _ h1.2 h2⟩

/-- A `TokValue` token in a stream of the right shape has a value span and
comes first after a key token, or after another token that is a key token. -/
theorem shapeFrom_value : ∀ (pre : List Token) (b : Bool) (v : Bytes) (post : List Token),
    shapeFrom b (pre ++ (TokValue, v) :: post) = true →
    valueSpan v = true ∧
    ((pre = [] ∧ b = true) ∨
      ∃ pre1 t, pre = pre1 ++ [t] ∧ keySpan t.2 = true ∧ (t.1 = TokKey ∨ t.1 = TokKeyList)) := by
  intro pre
  induction pre with
  | nil =>
    intro b v post h
    simp only [List.nil_append, shapeFrom, Bool.and_eq_true] at h
    exact ⟨h.1.2, Or.inl ⟨rfl, h.1.1⟩⟩
  | cons t pre ih =>
    intro b v post h
    obtain ⟨tt, k⟩ := t
    have key : ∀ b1, shapeFrom b1 (pre ++ (TokValue, v) :: post) = true →
        (b1 = true → keySpan k = true ∧ (tt = TokKey ∨ tt = TokKeyList)) →
        valueSpan v = true ∧
        (((tt, k) :: pre = [] ∧ b = true) ∨
          ∃ pre1 t, (tt, k) :: pre = pre1 ++ [t] ∧ keySpan t.2 = true ∧
            (t.1 = TokKey ∨ t.1 = TokKeyList)) := by
      intro b1 h1 hb
      obtain ⟨g1, g2⟩ := ih b1 v post h1
      refine ⟨g1, Or.inr ?_⟩
      rcases g2 with ⟨rfl, hb1⟩ | ⟨pre1, t, rfl, ht⟩
      · exact ⟨[], (tt, k), rfl, (hb hb1).1, (hb hb1).2⟩
      · exact ⟨(tt, k) :: pre1, t, rfl, ht⟩
    cases tt <;> simp only [List.cons_append, shapeFrom, Bool.and_eq_true] at h
    · exact key false h (by simp)
    · exact key true h.2 (fun _ => ⟨h.1, Or.inl rfl⟩)
    · exact key true h.2 (fun _ => ⟨h.1, Or.inr rfl⟩)
    · exact key false h.2 (by simp)

/-- Every key token in a stream of the right shape has a key span. -/
theorem shapeFrom_key : ∀ (ts : List Token) (b : Bool), shapeFrom b ts = true →
    ∀ t ∈ ts, t.1 = TokKey ∨ t.1 = TokKeyList → keySpan t.2 = true := by
  intro ts
  induction ts with
  | nil => intro b _ t ht; simp at ht
  | cons x ts ih =>
    intro b h t ht hk
    obtain ⟨tt, k⟩ := x
    rcases List.mem_cons.1 ht with rfl | ht2
    · cases tt <;> simp only [shapeFrom, Bool.and_eq_true] at h
      · simp at hk
      · exact h.1
      · exact h.1
      · simp at hk
    · cases tt <;> simp only [shapeFrom, Bool.and_eq_true] at h
      · exact ih _ h t ht2 hk
      · exact ih _ h.2 t ht2 hk
      · exact ih _ h.2 t ht2 hk
      · exact ih _ h.2 t ht2 hk

namespace Reader

theorem commentLoop_frame : ∀ (fuel : Nat) (ir res : Reader), commentLoop fuel ir = some res →
    ir.pos ≤ ir.data.length →
    res.data = ir.data ∧ res.out = ir.out ∧ res.pos ≤ ir.data.length := by
  intro fuel
  induction fuel with
  | zero => intro ir res h; simp [commentLoop] at h
  | succ fuel ih =>
    intro ir res h hinv
    simp only [commentLoop] at h
    rcases hl : ir.acceptUntil (fuel + 1) 10 with _ | ⟨r1, f1⟩
    · simp [hl] at h
    · obtain ⟨a1, a2, a3, a4, a5, _, _⟩ := acceptUntil_frame 10 (by omega) _ ir r1 f1 hl hinv
      rw [hl] at h
      cases f1 with
      | true =>
        simp only [Option.some.injEq] at h
        subst h
        exact ⟨a1, a2, a5⟩
      | false =>
        simp only at h
        obtain ⟨s1, s2, s3, s4⟩ := skip_frame r1 (by rw [a1]; exact a5)
        obtain ⟨b1, b2, b3⟩ := ih r1.skip res h (by rw [s1]; exact s4)
        rw [s1, a1] at b1 b3
        rw [s2, a2] at b2
        exact ⟨b1, b2, b3⟩

theorem comment_frame (fuel : Nat) (ir res : Reader) (f : Bool)
    (h : ir.comment fuel = some (res, f)) (hinv : ir.pos ≤ ir.data.length) :
    res.data = ir.data ∧ res.out = ir.out ∧ res.pos ≤ ir.data.length := by
  simp only [comment] at h
  rcases ha : ir.accept 59 with ⟨r1, f1⟩
  obtain ⟨a1, a2, a3, a4⟩ := accept_frame 59 ir r1 f1 ha hinv
  rw [ha] at h
  cases f1 with
  | false =>
    simp only [Option.some.injEq, Prod.mk.injEq] at h
    obtain ⟨rfl, _⟩ := h
    exact ⟨a1, a2, a4⟩
  | true =>
    simp only at h
    rcases hl : commentLoop fuel r1 with _ | r2
    · simp [hl] at h
    · rw [hl] at h
      simp only [Option.some.injEq, Prod.mk.injEq] at h
      obtain ⟨rfl, _⟩ := h
      obtain ⟨b1, b2, b3⟩ := commentLoop_frame fuel r1 r2 hl (by rw [a1]; exact a4)
      obtain ⟨s1, s2, s3, s4⟩ := skip_frame r2 (by rw [b1]; exact b3)
      rw [b1, a1] at s1 s4
      rw [b2, a2] at s2
      exact ⟨s1, s2, s4⟩

/-- The span between two positions of the buffer is not empty when the
positions differ and lie in the buffer. -/
theorem span_ne_nil (data : Bytes) (p q : Nat) (hpq : p < q) (hq : q ≤ data.length) :
    (data.drop p).take (q - p) ≠ [] := by
  intro h
  have := congrArg List.length h
  simp only [List.length_take, List.length_drop, List.length_nil] at this
  omega

theorem value_frame (fuel : Nat) (ir res : Reader) (f : Bool)
    (h : ir.value fuel = some (res, f)) (hstart : ir.start = ir.pos)
    (hinv : ir.pos ≤ ir.data.length) :
    res.data = ir.data ∧ res.pos ≤ ir.data.length ∧
    (res.out = ir.out ∨ ∃ v, valueSpan v = true ∧ res.out = ir.out ++ [(TokValue, v)]) := by
  simp only [value] at h
  rcases hl : ir.acceptUntil fuel 10 with _ | ⟨r1, f1⟩
  · simp [hl] at h
  · obtain ⟨a1, a2, a3, a4, a5, a6, a7⟩ := acceptUntil_frame 10 (by omega) _ ir r1 f1 hl hinv
    rw [hl] at h
    cases f1 with
    | false =>
      simp only [Option.some.injEq, Prod.mk.injEq] at h
      obtain ⟨rfl, _⟩ := h
      exact ⟨a1, a5, Or.inl a2⟩
    | true =>
      simp only [Option.some.injEq, Prod.mk.injEq] at h
      obtain ⟨rfl, _⟩ := h
      refine ⟨a1, a5, Or.inr ⟨(ir.data.drop ir.pos).take (r1.pos - ir.pos), ?_, ?_⟩⟩
      · simp only [valueSpan, Bool.and_eq_true, decide_eq_true_eq]
        exact ⟨span_ne_nil _ _ _ (a7 rfl) a5, a6⟩
      · simp [emit, ignore, a1, a2, a3, hstart]

theorem section_frame (fuel : Nat) (ir res : Reader) (f : Bool)
    (h : ir.«section» fuel = some (res, f)) (hinv : ir.pos ≤ ir.data.length) :
    res.data = ir.data ∧ res.pos ≤ ir.data.length ∧
    (res.out = ir.out ∨ ∃ s, res.out = ir.out ++ [(TokSection, s)]) := by
  simp only [«section»] at h
  rcases hl : ir.acceptSpace fuel with _ | ⟨r1, f1⟩
  · simp [hl] at h
  · obtain ⟨a1, a2, a3, a4, a5, _⟩ := acceptSpace_frame fuel ir r1 f1 hl hinv
    rw [hl] at h
    simp only at h
    rcases hacc : r1.ignore.accept 91 with ⟨r3, f3⟩
    obtain ⟨b1, b2, b3, b4⟩ := accept_frame 91 r1.ignore r3 f3 hacc (by simp [ignore, a1, a5])
    simp only [ignore] at b1 b2 b3 b4
    rw [hacc] at h
    cases f3 with
    | false =>
      simp only [Option.some.injEq, Prod.mk.injEq] at h
      obtain ⟨rfl, _⟩ := h
      exact ⟨by rw [b1, a1], by rw [← a1]; exact b4, Or.inl (by rw [b2, a2])⟩
    | true =>
      simp only at h
      rcases hu : r3.ignore.acceptUntil fuel 93 with _ | ⟨r5, f5⟩
      · simp [hu] at h
      · obtain ⟨c1, c2, c3, c4, c5, _, _⟩ := acceptUntil_frame 93 (by omega) fuel r3.ignore r5 f5
          hu (by simp [ignore, b1, b4])
        simp only [ignore] at c1 c2 c3 c4 c5
        rw [hu] at h
        cases f5 with
        | false =>
          simp only [Option.some.injEq, Prod.mk.injEq] at h
          obtain ⟨rfl, _⟩ := h
          exact ⟨by rw [c1, b1, a1], by rw [← a1, ← b1]; exact c5,
            Or.inl (by rw [c2, b2, a2])⟩
        | true =>
          simp only [Option.some.injEq, Prod.mk.injEq] at h
          obtain ⟨rfl, _⟩ := h
          have hd : ((r5.emit TokSection).ignore).data = ir.data := by
            show r5.data = ir.data
            rw [c1, b1, a1]
          obtain ⟨s1, s2, s3, s4⟩ := skip_frame (r5.emit TokSection).ignore
            (by rw [hd]; show r5.pos ≤ ir.data.length; rw [← a1, ← b1]; exact c5)
          rw [hd] at s1 s4
          refine ⟨s1, s4, Or.inr ⟨(r5.data.drop r5.start).take (r5.pos - r5.start), s2.trans ?_⟩⟩
          show r5.out ++ _ = ir.out ++ _
          rw [c2, b2, a2]

theorem key_frame (fuel : Nat) (ir res : Reader) (f : Bool)
    (h : ir.key fuel = some (res, f)) (hinv : ir.pos ≤ ir.data.length) :
    res.data = ir.data ∧ res.pos ≤ ir.data.length ∧
    ∃ blk, res.out = ir.out ++ blk ∧ shapeFrom false blk = true := by
  simp only [key] at h
  rcases hl : ir.acceptSpace fuel with _ | ⟨r1, f1⟩
  · simp [hl] at h
  · obtain ⟨a1, a2, a3, a4, a5, a6⟩ := acceptSpace_frame fuel ir r1 f1 hl hinv
    rw [hl] at h
    simp only at h
    rcases hu : r1.ignore.acceptUntilAny fuel [60, 61] with _ | ⟨r3, r, f3⟩
    · simp [hu] at h
    · obtain ⟨b1, b2, b3, b4, b5, b6⟩ := acceptUntilAny_frame [60, 61] fuel r1.ignore r3 r f3 hu
        (by simp [ignore, a1, a5])
      simp only [ignore] at b1 b2 b3 b4 b5 b6
      rw [hu] at h
      cases f3 with
      | false =>
        simp only [Option.some.injEq, Prod.mk.injEq] at h
        obtain ⟨rfl, _⟩ := h
        exact ⟨by rw [b1, a1], by rw [← a1]; exact b5, [], by simp [b2, a2], rfl⟩
      | true =>
        simp only at h
        have hlt : r1.pos < r3.pos := b6 rfl
        have hlen : r3.pos ≤ ir.data.length := by rw [← a1]; exact b5
        -- the span of the key token
        have hk : keySpan ((ir.data.drop r1.pos).take (r3.pos - r1.pos)) = true := by
          apply keySpan_take _ _ (by omega)
          · intro h0
            have := congrArg List.length h0
            simp only [List.length_drop, List.length_nil] at this
            omega
          · exact a6 (by omega)
        have hval : ∀ tt : TokenType, (tt = TokKey ∨ tt = TokKeyList) →
            ((r3.emit tt).ignore.skip).value fuel = some (res, f) →
            res.data = ir.data ∧ res.pos ≤ ir.data.length ∧
            ∃ blk, res.out = ir.out ++ blk ∧ shapeFrom false blk = true := by
          intro tt htt hv
          have hd : ((r3.emit tt).ignore).data = ir.data := by
            show r3.data = ir.data
            rw [b1, a1]
          have ho : ((r3.emit tt).ignore).out =
              ir.out ++ [(tt, (ir.data.drop r1.pos).take (r3.pos - r1.pos))] := by
            show r3.out ++ [(tt, (r3.data.drop r3.start).take (r3.pos - r3.start))] = _
            rw [b2, a2, b1, a1, b3]
          obtain ⟨s1, s2, s3, s4⟩ := skip_frame (r3.emit tt).ignore
            (by rw [hd]; exact hlen)
          rw [hd] at s1 s4
          rw [ho] at s2
          obtain ⟨v1, v2, v3⟩ := value_frame fuel _ res f hv s3 (by rw [s1]; exact s4)
          rw [s1] at v1 v2
          rw [s2] at v3
          refine ⟨v1, v2, ?_⟩
          rcases v3 with v3 | ⟨v, hv1, v3⟩
          · refine ⟨[(tt, (ir.data.drop r1.pos).take (r3.pos - r1.pos))], v3, ?_⟩
            rcases htt with rfl | rfl <;> simp [shapeFrom, hk]
          · refine ⟨[(tt, (ir.data.drop r1.pos).take (r3.pos - r1.pos)), (TokValue, v)], ?_, ?_⟩
            · rw [v3]; simp
            · rcases htt with rfl | rfl <;> simp [shapeFrom, hk, hv1]
        by_cases hr : r = 60
        · rw [if_pos hr] at h
          exact hval TokKeyList (Or.inr rfl) h
        · rw [if_neg hr] at h
          exact hval TokKey (Or.inl rfl) h

theorem ReadLoop_shape : ∀ (fuel : Nat) (ir res : Reader), ReadLoop fuel ir = some res →
    ir.pos ≤ ir.data.length → shapeFrom false ir.out = true →
    shapeFrom false res.out = true := by
  intro fuel
  induction fuel with
  | zero => intro ir res h; simp [ReadLoop] at h
  | succ fuel ih =>
    intro ir res h hinv hsh
    simp only [ReadLoop] at h
    rcases hc : ir.comment (fuel + 1) with _ | ⟨r1, f1⟩
    · simp [hc] at h
    obtain ⟨a1, a2, a3⟩ := comment_frame _ ir r1 f1 hc hinv
    rw [hc] at h
    cases f1 with
    | true => exact ih r1 res h (by rw [a1]; exact a3) (by rw [a2]; exact hsh)
    | false =>
      simp only at h
      rcases hs : r1.«section» (fuel + 1) with _ | ⟨r2, f2⟩
      · simp [hs] at h
      obtain ⟨b1, b2, b3⟩ := section_frame _ r1 r2 f2 hs (by rw [a1]; exact a3)
      have hsh2 : shapeFrom false r2.out = true := by
        rcases b3 with b3 | ⟨s, b3⟩
        · rw [b3, a2]; exact hsh
        · rw [b3, a2]
          exact shapeFrom_append _ _ _ hsh rfl
      rw [hs] at h
      cases f2 with
      | true => exact ih r2 res h (by rw [b1]; exact b2) hsh2
      | false =>
        simp only at h
        rcases hk : r2.key (fuel + 1) with _ | ⟨r3, f3⟩
        · simp [hk] at h
        obtain ⟨c1, c2, blk, c3, c4⟩ := key_frame _ r2 r3 f3 hk (by rw [b1]; exact b2)
        have hsh3 : shapeFrom false r3.out = true := by
          rw [c3]
          exact shapeFrom_append _ _ _ hsh2 c4
        rw [hk] at h
        cases f3 with
        | true => exact ih r3 res h (by rw [c1]; exact c2) hsh3
        | false =>
          simp only [Option.some.injEq] at h
          subst h
          exact hsh3

end Reader

/-- The tokens `Read` emits have the shape `shapeFrom` describes. -/
theorem Read_shape (fuel : Nat) (data : Bytes) (toks : List Token)
    (h : Read fuel data = some toks) : shapeFrom false toks = true := by
  obtain ⟨data1, _, hread⟩ := Read_cases fuel data
  rw [hread] at h
  rcases hl : Reader.ReadLoop fuel { out := [], data := data1, start := 0, pos := 0, size := 0 }
    with _ | res
  · simp [hl] at h
  · rw [hl] at h
    simp only [Option.map_some', Option.some.injEq] at h
    subst h
    exact Reader.ReadLoop_shape fuel _ res hl (Nat.zero_le _) rfl

/-- The `TokValue` case of the handler when a key is pending: the value is
stored under that key, alone or as the last item of its list. -/
theorem handle_value_stores (st : LoadState) (v : Bytes) (hkey : st.key.length > 0) :
    GoMap.get ((st.handle (TokValue, v)).i.sectionOf st.sectionName) st.key =
        some (Value.str (TrimSpace v)) ∨
    ∃ l, GoMap.get ((st.handle (TokValue, v)).i.sectionOf st.sectionName) st.key =
        some (Value.list (l ++ [TrimSpace v])) := by
  simp only [LoadState.handle, hkey, if_true]
  split
  · rename_i l _
    right
    exact ⟨l, by simp [File.get_setKey]⟩
  · left
    simp [File.get_setKey]

/-- C19 (token stream shape).  For every input on which `Read` returns,
in the sequence of tokens it has emitted: every `TokValue` token has a
span that is not empty and holds no line feed, and the token right before
it is a `TokKey` or `TokKeyList` token; every `TokKey` and `TokKeyList`
span is not empty and starts with a rune that is not white space.  Hence
in `Load`, whatever the document, when the handler gets a `TokValue` token
the pending key is not empty, and the value is stored under it. -/
theorem Read_token_shape (fuel : Nat) (data : Bytes) (toks : List Token)
    (h : Read fuel data = some toks) :
    (∀ pre v post, toks = pre ++ (TokValue, v) :: post →
      v ≠ [] ∧ 10 ∉ v ∧ ∃ pre1 t, pre = pre1 ++ [t] ∧ (t.1 = TokKey ∨ t.1 = TokKeyList)) ∧
    (∀ t ∈ toks, t.1 = TokKey ∨ t.1 = TokKeyList →
      t.2 ≠ [] ∧ IsSpace (DecodeRune t.2).1 = false) ∧
    (∀ (d : File) pre v post, toks = pre ++ (TokValue, v) :: post →
      (pre.foldl LoadState.handle (LoadState.init d)).key.length > 0 ∧
      (GoMap.get (((pre.foldl LoadState.handle (LoadState.init d)).handle (TokValue, v)).i.sectionOf
          (pre.foldl LoadState.handle (LoadState.init d)).sectionName)
          (pre.foldl LoadState.handle (LoadState.init d)).key = some (Value.str (TrimSpace v)) ∨
       ∃ l, GoMap.get
          (((pre.foldl LoadState.handle (LoadState.init d)).handle (TokValue, v)).i.sectionOf
          (pre.foldl LoadState.handle (LoadState.init d)).sectionName)
          (pre.foldl LoadState.handle (LoadState.init d)).key =
            some (Value.list (l ++ [TrimSpace v])))) := by
  have hshape := Read_shape fuel data toks h
  have hval : ∀ pre v post, toks = pre ++ (TokValue, v) :: post →
      valueSpan v = true ∧
      ∃ pre1 t, pre = pre1 ++ [t] ∧ keySpan t.2 = true ∧ (t.1 = TokKey ∨ t.1 = TokKeyList) := by
    intro pre v post heq
    rw [heq] at hshape
    obtain ⟨g1, g2⟩ := shapeFrom_value pre false v post hshape
    refine ⟨g1, ?_⟩
    rcases g2 with ⟨_, hb⟩ | g2
    · exact absurd hb (by simp)
    · exact g2
  refine ⟨?_, ?_, ?_⟩
  · intro pre v post heq
    obtain ⟨g1, pre1, t, g2, _, g3⟩ := hval pre v post heq
    simp only [valueSpan, Bool.and_eq_true, decide_eq_true_eq] at g1
    exact ⟨g1.1, g1.2, pre1, t, g2, g3⟩
  · intro t ht hk
    have := shapeFrom_key toks false hshape t ht hk
    simp only [keySpan, Bool.and_eq_true, decide_eq_true_eq, Bool.not_eq_true'] at this
    exact this
  · intro d pre v post heq
    obtain ⟨_, pre1, t, g2, g3, g4⟩ := hval pre v post heq
    have hkey : (pre.foldl LoadState.handle (LoadState.init d)).key.length > 0 := by
      rw [g2, List.foldl_append, List.foldl_cons, List.foldl_nil, LoadState.key_handle]
      have hne := TrimSpace_keySpan t.2 g3
      rcases g4 with g4 | g4 <;> rw [g4] <;> exact List.length_pos.2 hne
    exact ⟨hkey, handle_value_stores _ v hkey⟩

/-- The line `a=b` loaded into a new document: when the handler gets the
value `b`, the key `a` is pending. -/
theorem Read_token_shape_witness :
    ([(TokKey, [97])].foldl LoadState.handle (LoadState.init New)).key.length > 0 :=
  ((Read_token_shape 10 [97, 61, 98, 10] [(TokKey, [97]), (TokValue, [98])] (by decide)).2.2
    New [(TokKey, [97])] [98] [] rfl).1

/-! ## Cursor safety -/

namespace Cursor

theorem bind_done {α β : Type} (a : α) (f : α → Run β) : (Run.done a).bind f = f a := rfl

theorem bind_more {α β : Type} (f : α → Run β) : (Run.more : Run α).bind f = Run.more := rfl

theorem inv_iff (ir : Reader) : ir.inv = true ↔ ir.start ≤ ir.pos ∧ ir.pos ≤ ir.data.length := by
  simp [Reader.inv]

/-- The checked `next` within bounds: at the end of input it returns as
`next` does; before it, it returns as `next` does, within bounds, and a
`rewind` right after it passes its checks. -/
theorem next_ok (c : Cursor) (h : c.ir.inv = true) :
    (c.ir.next = (c.ir, none) ∧ c.next = Run.done ({ ir := c.ir, adv := none }, none)) ∨
    ∃ ir1 r, c.ir.next = (ir1, some r) ∧
      c.next = Run.done ({ ir := ir1, adv := some c.ir.pos }, some r) ∧ ir1.inv = true ∧
      ({ ir := ir1, adv := some c.ir.pos } : Cursor).rewind =
        Run.done { ir := ir1.rewind, adv := none } ∧
      ir1.rewind.inv = true := by
  have hb := (inv_iff c.ir).1 h
  rcases Reader.next_cases c.ir with ⟨_, h2⟩ | ⟨h1, h2, h3, h4⟩
  · left
    refine ⟨h2, ?_⟩
    simp only [next, h2, h, if_true]
  · right
    generalize (DecodeRune (c.ir.data.drop c.ir.pos)).2 = sz at h2 h4
    generalize (DecodeRune (c.ir.data.drop c.ir.pos)).1 = r at h2
    have hinv1 : Reader.inv { c.ir with size := sz, pos := c.ir.pos + sz } = true := by
      rw [inv_iff]
      exact ⟨by show c.ir.start ≤ c.ir.pos + sz; omega, h4⟩
    have hrw : (Reader.rewind { c.ir with size := sz, pos := c.ir.pos + sz }).pos = c.ir.pos := by
      simp [Reader.rewind]
    have hinv2 : Reader.inv (Reader.rewind { c.ir with size := sz, pos := c.ir.pos + sz }) =
        true := by
      rw [inv_iff, hrw]
      exact hb
    refine ⟨_, _, h2, ?_, hinv1, ?_, hinv2⟩
    · simp only [next, h2, hinv1, if_true]
    · simp only [rewind, hrw, hinv2, and_self, if_true]

/-- The check of `rewind` is not idle: a second `rewind` in a row fails. -/
theorem rewind_rewind (c : Cursor) : c.rewind.bind rewind = Run.fault := by
  simp only [rewind]
  split
  · rfl
  · split_ifs <;> rfl

/-- The check of `rewind` is not idle: a `rewind` after a `next` that hit
the end of input fails. -/
theorem next_eof_rewind (c : Cursor) (h : c.ir.data.length ≤ c.ir.pos) :
    (c.next.bind fun x => x.1.rewind) = Run.fault := by
  simp only [next, Reader.next_eof c.ir h]
  split_ifs <;> rfl

theorem ignore_ok (c : Cursor) (h : c.ir.inv = true) :
    c.ignore = Run.done { ir := c.ir.ignore, adv := none } ∧ c.ir.ignore.inv = true := by
  have hb := (inv_iff c.ir).1 h
  have h1 : c.ir.ignore.inv = true := by
    rw [inv_iff]
    exact ⟨Nat.le_refl _, hb.2⟩
  exact ⟨by simp only [ignore, h1, if_true], h1⟩

theorem emit_ok (c : Cursor) (tt : TokenType) (h : c.ir.inv = true) :
    c.emit tt = Run.done { ir := c.ir.emit tt, adv := none } ∧ (c.ir.emit tt).inv = true := by
  exact ⟨by simp only [emit, h, if_true], h⟩

theorem skip_ok (c : Cursor) (h : c.ir.inv = true) :
    c.skip = Run.done { ir := c.ir.skip, adv := none } ∧ c.ir.skip.inv = true := by
  rcases next_ok c h with ⟨h1, h2⟩ | ⟨ir1, r, h1, h2, h3, _, _⟩
  · obtain ⟨g1, g2⟩ := ignore_ok { ir := c.ir, adv := none } h
    simp only [skip, h2, bind_done, Reader.skip, h1]
    exact ⟨g1, g2⟩
  · obtain ⟨g1, g2⟩ := ignore_ok { ir := ir1, adv := some c.ir.pos } h3
    simp only [skip, h2, bind_done, Reader.skip, h1]
    exact ⟨g1, g2⟩

theorem accept_ok (c : Cursor) (v : Nat) (h : c.ir.inv = true) :
    ∃ c1, c.accept v = Run.done (c1, (c.ir.accept v).2) ∧ c1.ir = (c.ir.accept v).1 ∧
      c1.ir.inv = true := by
  rcases next_ok c h with ⟨h1, h2⟩ | ⟨ir1, r, h1, h2, h3, h4, h5⟩
  · refine ⟨{ ir := c.ir, adv := none }, ?_, ?_, h⟩
    · simp only [accept, h2, bind_done, Reader.accept, h1]
    · simp only [Reader.accept, h1]
  · by_cases hv : v = r
    · refine ⟨{ ir := ir1, adv := some c.ir.pos }, ?_, ?_, h3⟩
      · simp [accept, h2, bind_done, Reader.accept, h1, hv]
      · simp [Reader.accept, h1, hv]
    · refine ⟨{ ir := ir1.rewind, adv := none }, ?_, ?_, h5⟩
      · simp [accept, h2, bind_done, Reader.accept, h1, hv, h4]
      · simp [Reader.accept, h1, hv]

theorem acceptUntilLoop_ok (v : Nat) : ∀ (fuel : Nat) (c : Cursor), c.ir.inv = true →
    Agree (acceptUntilLoop v fuel c) (Reader.acceptUntilLoop v fuel c.ir) := by
  intro fuel
  induction fuel with
  | zero => intro c _; exact Or.inl ⟨rfl, rfl⟩
  | succ fuel ih =>
    intro c h
    rcases next_ok c h with ⟨h1, h2⟩ | ⟨ir1, r, h1, h2, h3, h4, h5⟩
    · simp only [acceptUntilLoop, h2, bind_done, Reader.acceptUntilLoop, h1]
      exact Or.inr ⟨_, _, rfl, rfl, h⟩
    · simp only [acceptUntilLoop, h2, bind_done, Reader.acceptUntilLoop, h1]
      by_cases hv : v = r
      · simp only [hv, if_true, h4, bind_done]
        exact Or.inr ⟨_, _, rfl, rfl, h5⟩
      · simp only [hv, if_false]
        exact ih { ir := ir1, adv := some c.ir.pos } h3

theorem acceptUntil_ok (fuel : Nat) (c : Cursor) (v : Nat) (h : c.ir.inv = true) :
    Agree (c.acceptUntil fuel v) (c.ir.acceptUntil fuel v) := by
  rcases acceptUntilLoop_ok v fuel c h with ⟨h1, h2⟩ | ⟨c1, b, h1, h2, h3⟩
  · simp only [acceptUntil, Reader.acceptUntil, h1, h2, bind_more]
    exact Or.inl ⟨rfl, rfl⟩
  · simp only [acceptUntil, Reader.acceptUntil, h1, h2, bind_done]
    cases b with
    | false => exact Or.inr ⟨_, _, rfl, rfl, h3⟩
    | true => exact Or.inr ⟨_, _, rfl, rfl, h3⟩

theorem acceptUntilAnyLoop_ok (argv : List Nat) : ∀ (fuel : Nat) (c : Cursor),
    c.ir.inv = true →
    Agree (acceptUntilAnyLoop argv fuel c) (Reader.acceptUntilAnyLoop argv fuel c.ir) := by
  intro fuel
  induction fuel with
  | zero => intro c _; exact Or.inl ⟨rfl, rfl⟩
  | succ fuel ih =>
    intro c h
    rcases next_ok c h with ⟨h1, h2⟩ | ⟨ir1, r, h1, h2, h3, h4, h5⟩
    · simp only [acceptUntilAnyLoop, h2, bind_done, Reader.acceptUntilAnyLoop, h1]
      exact Or.inr ⟨_, _, rfl, rfl, h⟩
    · simp only [acceptUntilAnyLoop, h2, bind_done, Reader.acceptUntilAnyLoop, h1]
      by_cases hv : Reader.hasRune argv r = true
      · simp only [hv, if_true, h4, bind_done]
        exact Or.inr ⟨_, _, rfl, rfl, h5⟩
      · simp only [hv, if_false]
        exact ih { ir := ir1, adv := some c.ir.pos } h3

theorem acceptUntilAny_ok (fuel : Nat) (c : Cursor) (argv : List Nat) (h : c.ir.inv = true) :
    Agree (c.acceptUntilAny fuel argv) (c.ir.acceptUntilAny fuel argv) := by
  rcases acceptUntilAnyLoop_ok argv fuel c h with ⟨h1, h2⟩ | ⟨c1, ⟨r, b⟩, h1, h2, h3⟩
  · simp only [acceptUntilAny, Reader.acceptUntilAny, h1, h2, bind_more]
    exact Or.inl ⟨rfl, rfl⟩
  · simp only [acceptUntilAny, Reader.acceptUntilAny, h1, h2, bind_done]
    cases b with
    | false => exact Or.inr ⟨_, _, rfl, rfl, h3⟩
    | true => exact Or.inr ⟨_, _, rfl, rfl, h3⟩

theorem acceptSpaceLoop_ok : ∀ (fuel : Nat) (c : Cursor), c.ir.inv = true →
    Agree (acceptSpaceLoop fuel c) (Reader.acceptSpaceLoop fuel c.ir) := by
  intro fuel
  induction fuel with
  | zero => intro c _; exact Or.inl ⟨rfl, rfl⟩
  | succ fuel ih =>
    intro c h
    rcases next_ok c h with ⟨h1, h2⟩ | ⟨ir1, r, h1, h2, h3, h4, h5⟩
    · simp only [acceptSpaceLoop, h2, bind_done, Reader.acceptSpaceLoop, h1]
      exact Or.inr ⟨_, _, rfl, rfl, h⟩
    · simp only [acceptSpaceLoop, h2, bind_done, Reader.acceptSpaceLoop, h1]
      by_cases hv : IsSpace r = true
      · simp only [hv, Bool.not_true, Bool.false_eq_true, if_false]
        exact ih { ir := ir1, adv := some c.ir.pos } h3
      · simp only [Bool.not_eq_true] at hv
        simp only [hv, Bool.not_false, if_true, h4, bind_done]
        exact Or.inr ⟨_, _, rfl, rfl, h5⟩

theorem acceptSpace_ok (fuel : Nat) (c : Cursor) (h : c.ir.inv = true) :
    Agree (c.acceptSpace fuel) (c.ir.acceptSpace fuel) := by
  rcases acceptSpaceLoop_ok fuel c h with ⟨h1, h2⟩ | ⟨c1, b, h1, h2, h3⟩
  · simp only [acceptSpace, Reader.acceptSpace, h1, h2, bind_more]
    exact Or.inl ⟨rfl, rfl⟩
  · simp only [acceptSpace, Reader.acceptSpace, h1, h2, bind_done]
    cases b with
    | false => exact Or.inr ⟨_, _, rfl, rfl, h3⟩
    | true => exact Or.inr ⟨_, _, rfl, rfl, h3⟩

theorem commentLoop_ok : ∀ (fuel : Nat) (c : Cursor), c.ir.inv = true →
    AgreeR (commentLoop fuel c) (Reader.commentLoop fuel c.ir) := by
  intro fuel
  induction fuel with
  | zero => intro c _; exact Or.inl ⟨rfl, rfl⟩
  | succ fuel ih =>
    intro c h
    rcases acceptUntil_ok (fuel + 1) c 10 h with ⟨h1, h2⟩ | ⟨c1, b, h1, h2, h3⟩
    · simp only [commentLoop, Reader.commentLoop, h1, h2, bind_more]
      exact Or.inl ⟨rfl, rfl⟩
    · simp only [commentLoop, Reader.commentLoop, h1, h2, bind_done]
      cases b with
      | true => exact Or.inr ⟨_, rfl, rfl, h3⟩
      | false =>
        obtain ⟨s1, s2⟩ := skip_ok c1 h3
        simp only [s1, bind_done]
        exact ih { ir := c1.ir.skip, adv := none } s2

theorem comment_ok (fuel : Nat) (c : Cursor) (h : c.ir.inv = true) :
    Agree (c.comment fuel) (c.ir.comment fuel) := by
  obtain ⟨c1, a1, a2, a3⟩ := accept_ok c 59 h
  rcases hb : (c.ir.accept 59) with ⟨r1, b⟩
  rw [hb] at a1 a2
  simp only at a1 a2
  simp only [comment, Reader.comment, a1, hb, bind_done]
  cases b with
  | false =>
    refine Or.inr ⟨c1, false, rfl, ?_, a3⟩
    rw [a2]
  | true =>
    simp only
    rcases commentLoop_ok fuel c1 a3 with ⟨h1, h2⟩ | ⟨c2, h1, h2, h3⟩
    · rw [a2] at h2
      simp only [h1, h2, bind_more]
      exact Or.inl ⟨rfl, rfl⟩
    · rw [a2] at h2
      obtain ⟨s1, s2⟩ := skip_ok c2 h3
      simp only [h1, h2, bind_done, s1]
      exact Or.inr ⟨_, _, rfl, rfl, s2⟩

theorem value_ok (fuel : Nat) (c : Cursor) (h : c.ir.inv = true) :
    Agree (c.value fuel) (c.ir.value fuel) := by
  rcases acceptUntil_ok fuel c 10 h with ⟨h1, h2⟩ | ⟨c1, b, h1, h2, h3⟩
  · simp only [value, Reader.value, h1, h2, bind_more]
    exact Or.inl ⟨rfl, rfl⟩
  · simp only [value, Reader.value, h1, h2, bind_done]
    cases b with
    | false => exact Or.inr ⟨_, _, rfl, rfl, h3⟩
    | true =>
      obtain ⟨e1, e2⟩ := emit_ok c1 TokValue h3
      obtain ⟨i1, i2⟩ := ignore_ok { ir := c1.ir.emit TokValue, adv := none } e2
      simp only [e1, bind_done, i1]
      exact Or.inr ⟨_, _, rfl, rfl, i2⟩

theorem section_ok (fuel : Nat) (c : Cursor) (h : c.ir.inv = true) :
    Agree (c.«section» fuel) (c.ir.«section» fuel) := by
  rcases acceptSpace_ok fuel c h with ⟨h1, h2⟩ | ⟨c1, b, h1, h2, h3⟩
  · simp only [«section», Reader.«section», h1, h2, bind_more]
    exact Or.inl ⟨rfl, rfl⟩
  · obtain ⟨i1, i2⟩ := ignore_ok c1 h3
    obtain ⟨c3, a1, a2, a3⟩ := accept_ok { ir := c1.ir.ignore, adv := none } 91 i2
    simp only at a1 a2
    rcases hb : (c1.ir.ignore.accept 91) with ⟨r3, b3⟩
    rw [hb] at a1 a2
    simp only at a1 a2
    simp only [«section», Reader.«section», h1, h2, bind_done, i1, a1, hb]
    cases b3 with
    | false =>
      refine Or.inr ⟨c3, false, rfl, ?_, a3⟩
      rw [a2]
    | true =>
      simp only
      obtain ⟨j1, j2⟩ := ignore_ok c3 a3
      rw [a2] at j1 j2
      rcases acceptUntil_ok fuel { ir := r3.ignore, adv := none } 93 j2 with
        ⟨u1, u2⟩ | ⟨c5, b5, u1, u2, u3⟩
      · simp only at u2
        simp only [j1, bind_done, u1, u2, bind_more]
        exact Or.inl ⟨rfl, rfl⟩
      · simp only at u2
        simp only [j1, bind_done, u1, u2]
        cases b5 with
        | false => exact Or.inr ⟨_, _, rfl, rfl, u3⟩
        | true =>
          obtain ⟨e1, e2⟩ := emit_ok c5 TokSection u3
          obtain ⟨k1, k2⟩ := ignore_ok { ir := c5.ir.emit TokSection, adv := none } e2
          obtain ⟨s1, s2⟩ := skip_ok { ir := (c5.ir.emit TokSection).ignore, adv := none } k2
          simp only at k1 s1 s2
          simp only [e1, bind_done, k1, s1]
          exact Or.inr ⟨_, _, rfl, rfl, s2⟩

theorem key_ok (fuel : Nat) (c : Cursor) (h : c.ir.inv = true) :
    Agree (c.key fuel) (c.ir.key fuel) := by
  rcases acceptSpace_ok fuel c h with ⟨h1, h2⟩ | ⟨c1, b, h1, h2, h3⟩
  · simp only [key, Reader.key, h1, h2, bind_more]
    exact Or.inl ⟨rfl, rfl⟩
  · obtain ⟨i1, i2⟩ := ignore_ok c1 h3
    rcases acceptUntilAny_ok fuel { ir := c1.ir.ignore, adv := none } [60, 61] i2 with
      ⟨u1, u2⟩ | ⟨c3, ⟨r, b3⟩, u1, u2, u3⟩
    · simp only at u2
      simp only [key, Reader.key, h1, h2, bind_done, i1, u1, u2, bind_more]
      exact Or.inl ⟨rfl, rfl⟩
    · simp only at u2
      simp only [key, Reader.key, h1, h2, bind_done, i1, u1, u2]
      cases b3 with
      | false => exact Or.inr ⟨_, _, rfl, rfl, u3⟩
      | true =>
        simp only
        have hstep : ∀ tt : TokenType,
            Agree ((c3.emit tt).bind fun c4 =>
                c4.ignore.bind fun c5 => c5.skip.bind fun c6 => c6.value fuel)
              (((c3.ir.emit tt).ignore.skip).value fuel) := by
          intro tt
          obtain ⟨e1, e2⟩ := emit_ok c3 tt u3
          obtain ⟨k1, k2⟩ := ignore_ok { ir := c3.ir.emit tt, adv := none } e2
          obtain ⟨s1, s2⟩ := skip_ok { ir := (c3.ir.emit tt).ignore, adv := none } k2
          simp only at k1 s1 s2
          simp only [e1, bind_done, k1, s1]
          exact value_ok fuel { ir := (c3.ir.emit tt).ignore.skip, adv := none } s2
        by_cases hr : r = 60
        · simp only [hr, if_true]
          exact hstep TokKeyList
        · simp only [hr, if_false]
          exact hstep TokKey

theorem ReadLoop_ok : ∀ (fuel : Nat) (c : Cursor), c.ir.inv = true →
    AgreeR (ReadLoop fuel c) (Reader.ReadLoop fuel c.ir) := by
  intro fuel
  induction fuel with
  | zero => intro c _; exact Or.inl ⟨rfl, rfl⟩
  | succ fuel ih =>
    intro c h
    rcases comment_ok (fuel + 1) c h with ⟨h1, h2⟩ | ⟨c1, b1, h1, h2, h3⟩
    · simp only [ReadLoop, Reader.ReadLoop, h1, h2, bind_more]
      exact Or.inl ⟨rfl, rfl⟩
    simp only [ReadLoop, Reader.ReadLoop, h1, h2, bind_done]
    cases b1 with
    | true => exact ih c1 h3
    | false =>
      simp only
      rcases section_ok (fuel + 1) c1 h3 with ⟨s1, s2⟩ | ⟨c2, b2, s1, s2, s3⟩
      · simp only [s1, s2, bind_more]
        exact Or.inl ⟨rfl, rfl⟩
      simp only [s1, s2, bind_done]
      cases b2 with
      | true => exact ih c2 s3
      | false =>
        simp only
        rcases key_ok (fuel + 1) c2 s3 with ⟨k1, k2⟩ | ⟨c3, b3, k1, k2, k3⟩
        · simp only [k1, k2, bind_more]
          exact Or.inl ⟨rfl, rfl⟩
        simp only [k1, k2, bind_done]
        cases b3 with
        | true => exact ih c3 k3
        | false => exact Or.inr ⟨_, rfl, rfl, k3⟩

end Cursor

/-- C17 (cursor safety).  For every input buffer, bytes that are not valid
UTF-8 included, and every amount of fuel, the run of `Read` in which every
cursor operation is checked never fails a check, and gives what `Read`
gives: the same tokens when `Read` returns, and no failure up to the point
the fuel lasts when it does not.  The checks are those of `Cursor`: each
`rewind` comes right after a `next` that returned a rune, never after
another `rewind` or a `next` at the end of input, and puts `pos` back at
its value before that `next`; `0 <= start <= pos <= len(data)` holds after
every `next`, `rewind` and `ignore`; every span `data[start:pos]` handed
to the handler is within the buffer. -/
theorem Read_cursor_safe (fuel : Nat) (data : Bytes) :
    Cursor.Read fuel data = Run.ofOption (Read fuel data) := by
  have hinv : ∀ d : Bytes,
      ({ out := [], data := d, start := 0, pos := 0, size := 0 } : Reader).inv = true := by
    intro d
    simp [Reader.inv]
  simp only [Cursor.Read, Read, hinv, if_true]
  rcases Cursor.ReadLoop_ok fuel
    { ir := { out := [], data := if data.length = 0 ∨ data.getLast? ≠ some 10 then data ++ [10]
        else data, start := 0, pos := 0, size := 0 }, adv := none } (hinv _) with
    ⟨h1, h2⟩ | ⟨c, h1, h2, _⟩
  · simp only at h2
    rw [h1, h2]
    rfl
  · simp only at h2
    rw [h1, h2]
    rfl

/-- A buffer that is not valid UTF-8: the bytes E2 28 before `=b`. -/
theorem Read_cursor_safe_witness :
    Cursor.Read 10 [226, 40, 61, 98, 10] = Run.ofOption (Read 10 [226, 40, 61, 98, 10]) :=
  Read_cursor_safe 10 [226, 40, 61, 98, 10]

end Ini
